import Mathlib

/-!
# KC3_2025_share: flood-fill explorer and sliding-puzzle board

Shallow embedding of `1_FloodFillDemo/Main.cpp` (the stepped depth-first
explorer) and `2_SnakeGame/Main.cpp` (the board, its generator and its
uniqueness verifier), followed by the properties proved about them.

Conventions of the embedding:
* a Siv3D `Point` is a pair of integers;
* a two-dimensional array indexed `a[y][x]` whose size is fixed by the
  constants `W`, `H` is a function of the row `y` and the column `x`; every
  read or write the source does not guard by `inBounds` is guarded here, and
  a step that would leave the `H × W` block yields `none`;
* an `Array<String>` is a list of lists of characters;
* a loop is a recursive function on a fuel argument; the fuel handed over by
  the caller is shown to be enough where it matters;
* `W` and `H` are arguments (the sources fix them to `8, 8` and `6, 6`).
-/

/-- Siv3D `Point`: integer coordinates. -/
structure Point where
  x : Int
  y : Int
deriving DecidableEq, Repr

instance : Add Point := ⟨fun a b => ⟨a.x + b.x, a.y + b.y⟩⟩

/-- The four direction vectors (right, down, left, up), as in both sources. -/
def Dirs : List Point := [⟨1, 0⟩, ⟨0, 1⟩, ⟨-1, 0⟩, ⟨0, -1⟩]

/-- `inBounds`: `0 <= p.x && p.x < W && 0 <= p.y && p.y < H`. -/
def inBounds (W H : Nat) (p : Point) : Bool :=
  decide (0 ≤ p.x) && decide (p.x < (W : Int)) && decide (0 ≤ p.y) && decide (p.y < (H : Int))

/-- Row-major enumeration of the cells, `for y < H, for x < W`, as `(y, x)`. -/
def cells (W H : Nat) : List (Int × Int) :=
  (List.range H).flatMap (fun (y : Nat) => (List.range W).map (fun (x : Nat) => ((y : Int), (x : Int))))

namespace FloodFill

/-- A display colour: white, or the colour `HSV(h, 0.65, 0.92)` of a drawn hue. -/
inductive Color where
  | white
  | hsv (hue : Nat)
deriving DecidableEq, Repr

/-- `struct Cell`. -/
structure Cell where
  wall : Bool := false
  visited : Bool := false
  color : Color := Color.white
deriving DecidableEq, Repr

/-- `struct Frame`: position and the index of the next direction to try. -/
structure Frame where
  p : Point
  dir : Nat := 0
deriving DecidableEq, Repr

/-- `enum class Phase`. -/
inductive Phase where
  | Prep
  | Explore
  | Done
deriving DecidableEq, Repr

/-- The variables of `Main` that `resetVisit` and `stepExplore` capture.
`callStack` lists the frames bottom first, so its last element is `back()`. -/
structure Explorer where
  grid : Int → Int → Cell
  phase : Phase
  scanIndex : Nat
  dfsActive : Bool
  callStack : List Frame
  justPushed : Bool
  currentColor : Color

/-- `resetVisit`. -/
def resetVisit (s : Explorer) : Explorer :=
  { s with
    grid := fun y x => { s.grid y x with visited := false, color := Color.white }
    scanIndex := 0
    dfsActive := false
    callStack := []
    justPushed := false }

/-- The confirm button: `phase = Phase::Explore; resetVisit();`. -/
def confirm (s : Explorer) : Explorer :=
  resetVisit { s with phase := Phase.Explore }

/-- `grid[p.y][p.x].visited = true; grid[p.y][p.x].color = c;`. -/
def markVisited (g : Int → Int → Cell) (p : Point) (c : Color) : Int → Int → Cell :=
  fun y x => if y = p.y ∧ x = p.x then { g y x with visited := true, color := c } else g y x

/-- The loop `while (top.dir < 4)` of `stepExplore`: the value of `top.dir` when
the loop is left and the neighbour to push, if one was found. -/
def scanDirs (W H : Nat) (g : Int → Int → Cell) (p : Point) : Nat → Nat → Nat × Option Point
  | 0, dir => (dir, none)
  | fuel + 1, dir =>
    if dir < 4 then
      let np := p + Dirs.getD dir ⟨0, 0⟩
      if !inBounds W H np then scanDirs W H g p fuel (dir + 1)
      else if (g np.y np.x).wall then scanDirs W H g p fuel (dir + 1)
      else if (g np.y np.x).visited then scanDirs W H g p fuel (dir + 1)
      else (dir + 1, some np)
    else (dir, none)

/-- `stepExplore`; `hue` is the value `Random(0.0, 360.0)` returns if this call
draws one. `none`: the call indexes `grid` outside the `H × W` block. -/
def stepExplore (W H : Nat) (hue : Nat) (s : Explorer) : Option Explorer :=
  if s.dfsActive then
    match s.callStack.getLast? with
    | none => some { s with dfsActive := false }
    | some top =>
      if s.justPushed then
        if inBounds W H top.p then
          some { s with
            grid := markVisited s.grid top.p s.currentColor
            justPushed := false }
        else none
      else
        match scanDirs W H s.grid top.p 4 top.dir with
        | (dir, some np) =>
          some { s with
            callStack := s.callStack.dropLast ++ [{ top with dir := dir }] ++ [⟨np, 0⟩]
            justPushed := true }
        | (_, none) => some { s with callStack := s.callStack.dropLast }
  else
    if s.scanIndex ≥ W * H then some { s with phase := Phase.Done }
    else
      let y : Int := ((s.scanIndex / H : Nat) : Int)
      let x : Int := ((s.scanIndex % H : Nat) : Int)
      if inBounds W H ⟨x, y⟩ then
        if !(s.grid y x).wall && !(s.grid y x).visited then
          some { s with
            currentColor := Color.hsv hue
            callStack := [⟨⟨x, y⟩, 0⟩]
            dfsActive := true
            justPushed := true }
        else some { s with scanIndex := s.scanIndex + 1 }
      else none

/-- Repeated `stepExplore`: call number `k` (from 0) draws `hues k`. -/
def runExplore (W H : Nat) (hues : Nat → Nat) : Nat → Explorer → Option Explorer
  | 0, s => some s
  | n + 1, s => (stepExplore W H (hues 0) s).bind (runExplore W H (fun k => hues (k + 1)) n)

/-- Number of visited cells of the `H × W` grid. -/
def visitedCount (W H : Nat) (g : Int → Int → Cell) : Nat :=
  ((cells W H).filter (fun c => (g c.1 c.2).visited)).length

/-- The state of `Main` before the first frame, for a given grid. -/
def initial (g : Int → Int → Cell) : Explorer :=
  { grid := g, phase := Phase.Prep, scanIndex := 0, dfsActive := false,
    callStack := [], justPushed := false, currentColor := Color.white }

/-- The grid without walls: every cell default-constructed. -/
def openGrid : Int → Int → Cell := fun _ _ => {}

end FloodFill

namespace FloodFill

/-- Invariant of the explorer states reachable from `resetVisit` by `stepExplore`. -/
structure Inv (W H : Nat) (s : Explorer) : Prop where
  visited_open : ∀ p : Point, inBounds W H p = true →
    (s.grid p.y p.x).visited = true → (s.grid p.y p.x).wall = false
  scanned : ∀ i : Nat, i < s.scanIndex → i < W * H →
    (s.grid ((i / H : Nat) : Int) ((i % H : Nat) : Int)).wall = true ∨
    (s.grid ((i / H : Nat) : Int) ((i % H : Nat) : Int)).visited = true
  idle : s.dfsActive = false → s.callStack = [] ∧ s.justPushed = false
  pushed : s.justPushed = true → ∃ top, s.callStack.getLast? = some top ∧
    inBounds W H top.p = true ∧ (s.grid top.p.y top.p.x).wall = false ∧
    (s.grid top.p.y top.p.x).visited = false

/-- The cells of the grid not yet visited, as `(y, x)`. -/
def unvisited (W H : Nat) (g : Int → Int → Cell) : Finset (Nat × Nat) :=
  (Finset.range H ×ˢ Finset.range W).filter
    (fun c => (g (c.1 : Int) (c.2 : Int)).visited = false)

/-- Work left in a call stack: each frame counts its untried directions plus one. -/
def stackWeight (cs : List Frame) : Nat :=
  (cs.map (fun f => (4 - f.dir) + 1)).sum

/-- A quantity every `stepExplore` call lowers until the scan is over. -/
def potential (W H : Nat) (s : Explorer) : Nat :=
  8 * (unvisited W H s.grid).card + (if s.justPushed then 0 else 7) +
    stackWeight s.callStack + (if s.dfsActive then 1 else 0) + (W * H - s.scanIndex)

end FloodFill

namespace Snake

/-- `Grid<bool>` write `g[y][x] = v`. -/
def setGrid (g : Int → Int → Bool) (y x : Int) (v : Bool) : Int → Int → Bool :=
  fun y2 x2 => if y2 = y ∧ x2 = x then v else g y2 x2

/-- `rows[y][x]` of an `Array<String>`; `none` outside the array. -/
def charAt (g : List (List Char)) (y x : Nat) : Option Char :=
  (g[y]?).bind (fun row => row[x]?)

/-- `g[y][x] = c` on an `Array<String>`. -/
def setChar (g : List (List Char)) (y x : Nat) (c : Char) : List (List Char) :=
  g.set y ((g.getD y []).set x c)

/-- `struct Board`: the fields. -/
structure Board where
  wall : Int → Int → Bool
  visited : Int → Int → Bool
  start : Point
  player : Point
  nonWallCount : Nat

/-- A default-constructed `Board`. -/
def Board.empty : Board :=
  { wall := fun _ _ => false, visited := fun _ _ => false, start := ⟨0, 0⟩,
    player := ⟨0, 0⟩, nonWallCount := 0 }

/-- What the double loop over the rows computes, in `setFromRows` and in
`isUniqueSolution` alike. -/
structure Scan where
  wall : Int → Int → Bool
  start : Point
  nonWall : Nat

/-- One iteration of that loop, at row `c.1` and column `c.2`:
`if (c == '#') wall[y][x] = true; else { ++nonWall; if (c == 'S') start = {x, y}; }`.
`none`: `rows[y][x]` is outside the array. -/
def scanCell (rows : List (List Char)) (st : Scan) (c : Int × Int) : Option Scan :=
  match charAt rows c.1.toNat c.2.toNat with
  | none => none
  | some ch =>
    if ch = '#' then some { st with wall := setGrid st.wall c.1 c.2 true }
    else some { st with
      nonWall := st.nonWall + 1
      start := if ch = 'S' then ⟨c.2, c.1⟩ else st.start }

/-- The loop `for (y < H) for (x < W)` over the rows. -/
def scanRows (W H : Nat) (rows : List (List Char)) (init : Scan) : Option Scan :=
  (cells W H).foldlM (scanCell rows) init

/-- `Board::setFromRows`. `none`: a read outside `rows`, or a start outside the grid. -/
def setFromRows (W H : Nat) (b : Board) (rows : List (List Char)) : Option Board :=
  match scanRows W H rows ⟨fun _ _ => false, b.start, 0⟩ with
  | none => none
  | some sc =>
    if inBounds W H sc.start then
      some { wall := sc.wall
             visited := setGrid (fun _ _ => false) sc.start.y sc.start.x true
             start := sc.start
             player := sc.start
             nonWallCount := sc.nonWall }
    else none

/-- `Board::resetPaint`. -/
def resetPaint (b : Board) : Board :=
  { b with
    visited := setGrid (fun _ _ => false) b.start.y b.start.x true
    player := b.start }

/-- `Board::isObstacleGame`. -/
def isObstacleGame (W H : Nat) (b : Board) (p : Point) : Bool :=
  if !inBounds W H p then true
  else if b.wall p.y p.x then true
  else if b.visited p.y p.x then true
  else false

/-- `Board::paintedCount`. -/
def paintedCount (W H : Nat) (b : Board) : Nat :=
  (cells W H).countP (fun c => !b.wall c.1 c.2 && b.visited c.1 c.2)

/-- `Board::isCleared`. -/
def isCleared (W H : Nat) (b : Board) : Bool :=
  paintedCount W H b == b.nonWallCount

/-- The loop `while (!board.isObstacleGame(next))` of `Main`. -/
def slideLoop (W H : Nat) (d : Point) : Nat → Board → Point → Board
  | 0, b, _ => b
  | fuel + 1, b, next =>
    if !isObstacleGame W H b next then
      slideLoop W H d fuel
        { b with player := next, visited := setGrid b.visited next.y next.x true } (next + d)
    else b

/-- The body of `if (dir)` in `Main`: one slide of the player in direction `d`. -/
def slide (W H : Nat) (b : Board) (d : Point) : Board :=
  let next := b.player + d
  if !isObstacleGame W H b next then slideLoop W H d (W + H) b next else b

/-- An arrow key in a frame of `Main` without Space or G: `cleared` is read
first, and the slide is made only `if (!cleared)`. -/
def arrowKey (W H : Nat) (b : Board) (d : Point) : Board :=
  if isCleared W H b then b else slide W H b d

/-- The lambda `isObs` of `isUniqueSolution`. -/
def isObs (W H : Nat) (wall vis : Int → Int → Bool) (p : Point) : Bool :=
  if !inBounds W H p then true
  else if wall p.y p.x then true
  else if vis p.y p.x then true
  else false

/-- The loop `while (!isObs(cur)) { path << cur; cur += d; }`. -/
def sweep (W H : Nat) (wall vis : Int → Int → Bool) (d : Point) : Nat → Point → List Point
  | 0, _ => []
  | fuel + 1, cur =>
    if !isObs W H wall vis cur then cur :: sweep W H wall vis d fuel (cur + d) else []

/-- The list `moves` built by `dfs`: one swept path for each direction, in the
order of `Dirs`, that is not blocked at once. -/
def moves (W H : Nat) (wall vis : Int → Int → Bool) (head : Point) : List (List Point) :=
  Dirs.filterMap (fun d =>
    let cur := head + d
    if isObs W H wall vis cur then none
    else
      let path := sweep W H wall vis d (W + H) cur
      if !path.isEmpty then some path else none)

/-- `for (const auto& p : path) vis[p.y][p.x] = v;`. -/
def markPath (vis : Int → Int → Bool) (path : List Point) (v : Bool) : Int → Int → Bool :=
  path.foldl (fun g p => setGrid g p.y p.x v) vis

/-- The variables `vis` and `solutions` that `dfs` captures by reference. -/
structure Search where
  vis : Int → Int → Bool
  solutions : Nat

/-- The loop `for (const auto& path : moves)` of `dfs`; `call` is the recursive call. -/
def movesLoop (call : Point → Nat → Search → Option Search) :
    List (List Point) → Nat → Search → Option Search
  | [], _, st => some st
  | path :: rest, painted, st =>
    match call (path.getLastD ⟨0, 0⟩) (painted + path.length)
        { st with vis := markPath st.vis path true } with
    | none => none
    | some st1 =>
      let st2 : Search := { st1 with vis := markPath st1.vis path false }
      if st2.solutions ≥ 2 then some st2 else movesLoop call rest painted st2

/-- The recursive lambda `dfs(head, painted)` of `isUniqueSolution`; `none`: out of fuel. -/
def dfs (W H : Nat) (wall : Int → Int → Bool) (nonWall : Nat) :
    Nat → Point → Nat → Search → Option Search
  | 0, _, _, _ => none
  | fuel + 1, head, painted, st =>
    if st.solutions ≥ 2 then some st
    else if painted = nonWall then some { st with solutions := st.solutions + 1 }
    else movesLoop (dfs W H wall nonWall fuel) (moves W H wall st.vis head) painted st

/-- The value of `solutions` when `isUniqueSolution` returns. `none`: a read
outside `g`, a start outside the grid, or `dfs` out of fuel. -/
def countSolutions (W H : Nat) (g : List (List Char)) : Option Nat :=
  match scanRows W H g ⟨fun _ _ => false, ⟨0, 0⟩, 0⟩ with
  | none => none
  | some sc =>
    if inBounds W H sc.start then
      (dfs W H sc.wall sc.nonWall (W * H + 1) sc.start 1
        ⟨setGrid (fun _ _ => false) sc.start.y sc.start.x true, 0⟩).map (fun st => st.solutions)
    else none

/-- `Board::isUniqueSolution`: `return (solutions == 1);`. -/
def isUniqueSolution (W H : Nat) (g : List (List Char)) : Option Bool :=
  (countSolutions W H g).map (fun n => n == 1)

/-- `static_cast<int>` of a value taken as an exact rational: truncation toward zero.
The source multiplies `minCoverRatio * (W * H)` in `double` and converts to `int`; here
the product is exact and the integer unbounded. The two agree at the ratio 0.72 that
`Main` passes (both give 25 for 36 cells). -/
def truncToInt (q : ℚ) : Int := q.num.tdiv q.den

/-- `Random(lo, hi)` on integers `lo <= hi`, from the drawn value `v`. -/
def randomInt (v lo hi : Nat) : Nat := lo + v % (hi - lo + 1)

/-- The arrangement number `v` of a list: element `v % n` first, then the
arrangement number `v / n` of the others. -/
def arrange {α : Type} : Nat → Nat → List α → List α
  | 0, _, _ => []
  | fuel + 1, v, l =>
    match l[v % l.length]? with
    | none => []
    | some a => a :: arrange fuel (v / l.length) (l.eraseIdx (v % l.length))

/-- `Array::shuffle`: the drawn value `v` selects one of the arrangements of `l`. -/
def shuffle {α : Type} (v : Nat) (l : List α) : List α := arrange l.length v l

/-- The variables `g` and `carved` of `generateOnce`. -/
structure Carve where
  g : List (List Char)
  carved : List Point

/-- `while (inBounds(cur) && g[cur.y][cur.x] == '#') { ++maxLen; cur += d; }`. -/
def wallRun (W H : Nat) (g : List (List Char)) (d : Point) : Nat → Point → Nat
  | 0, _ => 0
  | fuel + 1, cur =>
    if inBounds W H cur && (charAt g cur.y.toNat cur.x.toNat == some '#') then
      wallRun W H g d fuel (cur + d) + 1
    else 0

/-- `for (k < L) { p += d; g[p.y][p.x] = '.'; carved << p; }`. -/
def carveCells (d : Point) : Nat → Point → Carve → Carve
  | 0, _, c => c
  | k + 1, p, c =>
    carveCells d k (p + d)
      ⟨setChar c.g (p + d).y.toNat (p + d).x.toNat '.', c.carved ++ [p + d]⟩

/-- The loop `for (const auto& d : Dirs)` of the carving loop; `v` is the value
`Random(1, maxLen)` draws. `none`: `moved` stays false. -/
def tryDirs (W H : Nat) (v : Nat) : List Point → Carve → Option Carve
  | [], _ => none
  | d :: ds, c =>
    let head := c.carved.getLastD ⟨0, 0⟩
    let maxLen := wallRun W H c.g d (W + H) (head + d)
    if maxLen = 0 then tryDirs W H v ds c
    else some (carveCells d (randomInt v 1 maxLen) head c)

/-- The loop `while (stuck < 12)`; the random source is the stream `r`, read from
its front. `none`: out of fuel. -/
def carveLoop (W H : Nat) : Nat → Nat → Carve → (Nat → Nat) → Option (Carve × (Nat → Nat))
  | 0, stuck, c, r => if stuck < 12 then none else some (c, r)
  | fuel + 1, stuck, c, r =>
    if stuck < 12 then
      match tryDirs W H (r 1) (shuffle (r 0) Dirs) c with
      | some c2 => carveLoop W H fuel stuck c2 (fun n => r (n + 2))
      | none => carveLoop W H fuel (stuck + 1) c (fun n => r (n + 1))
    else some (c, r)

/-- `Board::countNonWall`. -/
def countNonWall (W H : Nat) (g : List (List Char)) : Nat :=
  (cells W H).countP (fun c => charAt g c.1.toNat c.2.toNat != some '#')

/-- `Board::generateOnce`: the rows written on success (`none` for `return false`)
and the rest of the random stream. The outer `none`: carving out of fuel. -/
def generateOnce (W H : Nat) (minCoverRatio : ℚ) (r : Nat → Nat) :
    Option (Option (List (List Char)) × (Nat → Nat)) :=
  let g0 := List.replicate H (List.replicate W '#')
  let goal : Point := ⟨(randomInt (r 0) 0 (W - 1) : Nat), (randomInt (r 1) 0 (H - 1) : Nat)⟩
  let c0 : Carve := ⟨setChar g0 goal.y.toNat goal.x.toNat '.', [goal]⟩
  match carveLoop W H (W * H + 12) 0 c0 (fun n => r (n + 2)) with
  | none => none
  | some (c, r2) =>
    let freeCount := countNonWall W H c.g
    if (freeCount : Int) < truncToInt (minCoverRatio * ((W * H : Nat) : ℚ)) then
      some (none, r2)
    else
      let start := c.carved.getLastD ⟨0, 0⟩
      some (some (setChar c.g start.y.toNat start.x.toNat 'S'), r2)

/-- What `generateRandom` leaves behind: its return value, the board, the value of
the loop counter `t` (the number of calls of `generateOnce`) and the random stream. -/
structure Generated where
  ok : Bool
  board : Board
  tries : Nat
  rng : Nat → Nat

/-- The loop `for (t < maxReseedTries)` of `generateRandom`, with `left` iterations to go. -/
def generateLoop (W H : Nat) (minCoverRatio : ℚ) (b : Board) :
    Nat → Nat → (Nat → Nat) → Option Generated
  | 0, t, r => some ⟨false, b, t, r⟩
  | left + 1, t, r =>
    match generateOnce W H minCoverRatio r with
    | none => none
    | some (none, r2) => generateLoop W H minCoverRatio b left (t + 1) r2
    | some (some rows, r2) =>
      match isUniqueSolution W H rows with
      | none => none
      | some true => (setFromRows W H b rows).map (fun b2 => ⟨true, b2, t + 1, r2⟩)
      | some false => generateLoop W H minCoverRatio b left (t + 1) r2

/-- `Board::generateRandom`. -/
def generateRandom (W H : Nat) (b : Board) (minCoverRatio : ℚ) (maxReseedTries : Int)
    (r : Nat → Nat) : Option Generated :=
  generateLoop W H minCoverRatio b maxReseedTries.toNat 0 r

end Snake

namespace Snake

/-- Rows from string literals. -/
def rowsOf (l : List String) : List (List Char) := l.map String.toList

/-- The 2x2 board without walls, start at (0,0). -/
def rows2x2 : List (List Char) := rowsOf ["S.", ".."]

/-- The same 2x2 block in the 6x6 layout, every other cell a wall. -/
def rows2x2in6 : List (List Char) :=
  rowsOf ["S.####", "..####", "######", "######", "######", "######"]

/-- The 3x3 board open except for the centre, start at (0,0). -/
def rows3x3 : List (List Char) := rowsOf ["S..", ".#.", "..."]

/-- The same 3x3 block in the 6x6 layout, every other cell a wall. -/
def rows3x3in6 : List (List Char) :=
  rowsOf ["S..###", ".#.###", "...###", "######", "######", "######"]

/-- The slides of a list of directions, one after the other. -/
def slides (W H : Nat) (b : Board) (ds : List Point) : Board :=
  ds.foldl (slide W H) b

/-- The list `moves` of the first call `dfs(start, 1)` of `isUniqueSolution`. -/
def firstMoves (W H : Nat) (g : List (List Char)) : Option (List (List Point)) :=
  (scanRows W H g ⟨fun _ _ => false, ⟨0, 0⟩, 0⟩).map (fun sc =>
    moves W H sc.wall (setGrid (fun _ _ => false) sc.start.y sc.start.x true) sc.start)

end Snake

/-- The cell `k` steps from `h` in direction `d`. -/
def stepTo (h d : Point) (k : Nat) : Point := ⟨h.x + (k : Int) * d.x, h.y + (k : Int) * d.y⟩

/-- A cell a slide can enter: in bounds, not a wall, not visited. -/
def Free (W H : Nat) (wall vis : Int → Int → Bool) (p : Point) : Prop :=
  inBounds W H p = true ∧ wall p.y p.x = false ∧ vis p.y p.x = false

instance (W H : Nat) (wall vis : Int → Int → Bool) (p : Point) :
    Decidable (Free W H wall vis p) := by
  unfold Free
  exact inferInstance

namespace Snake

/-- The board states reached from `b0` by slides (with or without the `cleared`
guard of `Main`) and `resetPaint` calls. -/
inductive Reach (W H : Nat) (b0 : Board) : Board → Prop where
  | init : Reach W H b0 b0
  | slide (b : Board) (d : Point) : Reach W H b0 b → d ∈ Dirs → Reach W H b0 (slide W H b d)
  | arrowKey (b : Board) (d : Point) :
      Reach W H b0 b → d ∈ Dirs → Reach W H b0 (arrowKey W H b d)
  | resetPaint (b : Board) : Reach W H b0 b → Reach W H b0 (resetPaint b)

/-- Rows of the right size: `H` rows of `W` characters. -/
def WellSized (W H : Nat) (rows : List (List Char)) : Prop :=
  rows.length = H ∧ ∀ row ∈ rows, row.length = W

/-- The cell a scan of the rows leaves in `start`: the last `S` in row-major order. -/
def startOf (W H : Nat) (rows : List (List Char)) : Option Point :=
  (((cells W H).filter (fun c => charAt rows c.1.toNat c.2.toNat == some 'S')).getLast?).map
    (fun c => ⟨c.2, c.1⟩)

end Snake

namespace Snake

/-- The fresh 2x2 board without walls, player on the start (0,0). -/
def board2x2 : Board :=
  { wall := fun _ _ => false
    visited := setGrid (fun _ _ => false) 0 0 true
    start := ⟨0, 0⟩
    player := ⟨0, 0⟩
    nonWallCount := 4 }

end Snake

namespace Snake

/-! ### The sliding-move rule, as the specification words it -/

/-- A cell a move can sweep, given the set `V` of visited cells. -/
def FreeIn (W H : Nat) (wall : Int → Int → Bool) (V : Finset Point) (p : Point) : Prop :=
  inBounds W H p = true ∧ wall p.y p.x = false ∧ p ∉ V

/-- The cells `1 .. n` steps from `h` in direction `d`. -/
def sweptCells (h d : Point) (n : Nat) : Finset Point :=
  (Finset.Icc 1 n).image (stepTo h d)

/-- A legal sliding move from `h` in direction `d` sweeping `n` cells: `d` is one of the
four directions, `n >= 1`, the `n` cells after `h` are in bounds, not walls and not
visited, and the cell after them is not (the run is maximal). -/
def IsMove (W H : Nat) (wall : Int → Int → Bool) (V : Finset Point) (h d : Point) (n : Nat) :
    Prop :=
  d ∈ Dirs ∧ 1 ≤ n ∧ (∀ k, 1 ≤ k → k ≤ n → FreeIn W H wall V (stepTo h d k)) ∧
    ¬ FreeIn W H wall V (stepTo h d (n + 1))

/-- `Tour V h ds`: from position `h` with the cells `V` visited, the directions `ds`
are a sequence of legal sliding moves, each marking the cells it sweeps, after which
every non-wall cell of the grid is visited. -/
inductive Tour (W H : Nat) (wall : Int → Int → Bool) : Finset Point → Point → List Point → Prop
  | done (V : Finset Point) (h : Point) :
      (∀ p : Point, inBounds W H p = true → wall p.y p.x = false → p ∈ V) →
      Tour W H wall V h []
  | move (V : Finset Point) (h d : Point) (n : Nat) (ds : List Point) :
      IsMove W H wall V h d n →
      Tour W H wall (V ∪ sweptCells h d n) (stepTo h d n) ds →
      Tour W H wall V h (d :: ds)

/-- The walls of a `W` by `H` row layout: the cells of the grid holding `#`. -/
def wallOf (W H : Nat) (rows : List (List Char)) : Int → Int → Bool :=
  fun y x => inBounds W H ⟨x, y⟩ && decide (charAt rows y.toNat x.toNat = some '#')

/-- A solution of a layout with start cell `start`: a sequence of legal sliding moves
from the start, the start alone being visited at first, that visits every non-wall cell. -/
def IsSolution (W H : Nat) (rows : List (List Char)) (start : Point) (ds : List Point) : Prop :=
  Tour W H (wallOf W H rows) {start} start ds

/-! ### Auxiliary functions for the proofs about the search -/

/-- The visited grid of a set of cells. -/
def visOf (V : Finset Point) : Int → Int → Bool :=
  fun y x => decide ((⟨x, y⟩ : Point) ∈ V)

/-- Length of the run the search sweeps from `h` in direction `d`. -/
def runLen (W H : Nat) (wall : Int → Int → Bool) (V : Finset Point) (h d : Point) : Nat :=
  (sweep W H wall (visOf V) d (W + H) (h + d)).length

/-- The non-wall cells of the grid. -/
def openCells (W H : Nat) (wall : Int → Int → Bool) : Finset Point :=
  (((cells W H).filter (fun c => !wall c.1 c.2)).map (fun c => (⟨c.2, c.1⟩ : Point))).toFinset

/-- All tours from a position, by exhaustive enumeration without early stop. -/
def tours (W H : Nat) (wall : Int → Int → Bool) : Nat → Finset Point → Point → List (List Point)
  | 0, _, _ => []
  | fuel + 1, V, h =>
    if V.card = (openCells W H wall).card then [[]]
    else Dirs.flatMap (fun d =>
      if runLen W H wall V h d = 0 then []
      else (tours W H wall fuel (V ∪ sweptCells h d (runLen W H wall V h d))
        (stepTo h d (runLen W H wall V h d))).map (fun ds => d :: ds))

end Snake

namespace Snake

/-- A 6x6 layout with six open cells whose only solution is down, right, up, right. -/
def rowsSix : List (List Char) :=
  rowsOf ["S...##", "..####", "######", "######", "######", "######"]

end Snake

namespace Snake

/-- A random stream that starts with the values of `l` and goes on with zeros. -/
def tape (l : List Nat) : Nat → Nat := fun n => l.getD n 0

/-- Number of `#` cells of the grid in the rows `g`. -/
def wallCount (W H : Nat) (g : List (List Char)) : Nat :=
  (cells W H).countP (fun c => charAt g c.1.toNat c.2.toNat == some '#')

/-- Invariant of the carving loop: the rows keep their size and the head of the
carved path is a cell of the grid. -/
def CarveInv (W H : Nat) (c : Carve) : Prop :=
  WellSized W H c.g ∧ inBounds W H (c.carved.getLastD ⟨0, 0⟩) = true

/-- The layout a board shows: `S` on its start, `#` on its walls, `.` elsewhere. -/
def readBack (W H : Nat) (b : Board) : List (List Char) :=
  (List.range H).map (fun (y : Nat) => (List.range W).map (fun (x : Nat) =>
    if (⟨(x : Int), (y : Int)⟩ : Point) = b.start then 'S'
    else if b.wall (y : Int) (x : Int) then '#' else '.'))

/-- The random stream before attempt number `k` (from 0) of `generateRandom`. -/
def attemptRng (W H : Nat) (minCoverRatio : ℚ) (r : Nat → Nat) : Nat → (Nat → Nat)
  | 0 => r
  | k + 1 =>
    match generateOnce W H minCoverRatio (attemptRng W H minCoverRatio r k) with
    | some (_, r2) => r2
    | none => attemptRng W H minCoverRatio r k

/-- The candidate of attempt number `k`, if it passes both `generateOnce` and
`isUniqueSolution`. -/
def passing (W H : Nat) (minCoverRatio : ℚ) (r : Nat → Nat) (k : Nat) :
    Option (List (List Char)) :=
  match generateOnce W H minCoverRatio (attemptRng W H minCoverRatio r k) with
  | some (some rows, _) => if isUniqueSolution W H rows = some true then some rows else none
  | _ => none

end Snake

namespace Snake

/-- Draws with which the first attempt of `generateRandom` carves a layout of 25 open
cells that has exactly one solution. -/
def draws25 : List Nat :=
  [61, 104, 29, 66, 113, 41, 82, 13, 65, 110, 44, 99, 28, 86, 25, 78, 19, 82, 18, 84, 30, 90,
    39, 102, 53]

/-- The layout carved from `draws25`. -/
def rows25 : List (List Char) :=
  rowsOf ["...###", ".#.###", ".....#", ".....#", "...S.#", ".....#"]

end Snake

namespace FloodFill

/-- The cell `stepExplore` reads for the scan cursor `i`:
`y = scanIndex / H; x = scanIndex % H;`. -/
def scanPoint (H i : Nat) : Point := ⟨((i % H : Nat) : Int), ((i / H : Nat) : Int)⟩

/-- The seven ways a call of `stepExplore` can go, as a relation between the state
before and the state after. -/
inductive Step (W H : Nat) (hue : Nat) : Explorer → Explorer → Prop
  | deactivate (s : Explorer) : s.dfsActive = true → s.callStack.getLast? = none →
      Step W H hue s { s with dfsActive := false }
  | confirm (s : Explorer) (top : Frame) : s.dfsActive = true →
      s.callStack.getLast? = some top → s.justPushed = true → inBounds W H top.p = true →
      Step W H hue s
        { s with grid := markVisited s.grid top.p s.currentColor, justPushed := false }
  | push (s : Explorer) (top : Frame) (dir : Nat) (np : Point) : s.dfsActive = true →
      s.callStack.getLast? = some top → s.justPushed = false →
      scanDirs W H s.grid top.p 4 top.dir = (dir, some np) →
      Step W H hue s
        { s with
          callStack := s.callStack.dropLast ++ [{ top with dir := dir }] ++ [⟨np, 0⟩]
          justPushed := true }
  | pop (s : Explorer) (top : Frame) (dir : Nat) : s.dfsActive = true →
      s.callStack.getLast? = some top → s.justPushed = false →
      scanDirs W H s.grid top.p 4 top.dir = (dir, none) →
      Step W H hue s { s with callStack := s.callStack.dropLast }
  | done (s : Explorer) : s.dfsActive = false → W * H ≤ s.scanIndex →
      Step W H hue s { s with phase := Phase.Done }
  | root (s : Explorer) : s.dfsActive = false → s.scanIndex < W * H →
      inBounds W H (scanPoint H s.scanIndex) = true →
      (s.grid (scanPoint H s.scanIndex).y (scanPoint H s.scanIndex).x).wall = false →
      (s.grid (scanPoint H s.scanIndex).y (scanPoint H s.scanIndex).x).visited = false →
      Step W H hue s
        { s with
          currentColor := Color.hsv hue
          callStack := [⟨scanPoint H s.scanIndex, 0⟩]
          dfsActive := true
          justPushed := true }
  | advance (s : Explorer) : s.dfsActive = false → s.scanIndex < W * H →
      inBounds W H (scanPoint H s.scanIndex) = true →
      ¬ ((s.grid (scanPoint H s.scanIndex).y (scanPoint H s.scanIndex).x).wall = false ∧
        (s.grid (scanPoint H s.scanIndex).y (scanPoint H s.scanIndex).x).visited = false) →
      Step W H hue s { s with scanIndex := s.scanIndex + 1 }

/-- The explorer states reached from a `resetVisit` by calls of `stepExplore`. -/
inductive Reached (W H : Nat) : Explorer → Prop
  | reset (s0 : Explorer) : Reached W H (resetVisit s0)
  | step (s t : Explorer) (hue : Nat) :
      Reached W H s → stepExplore W H hue s = some t → Reached W H t

end FloodFill

namespace FloodFill

/-- A grid whose only walls are the two neighbours (1,0) and (0,1) of the corner (0,0). -/
def cornerGrid : Int → Int → Cell :=
  fun y x => { wall := decide ((y = 0 ∧ x = 1) ∨ (y = 1 ∧ x = 0)) }

end FloodFill

namespace FloodFill

/-- `grid[y][x].wall = v`: a click on the cell `(x, y)` in the preparation phase. -/
def setWall (g : Int → Int → Cell) (y x : Int) (v : Bool) : Int → Int → Cell :=
  fun y2 x2 => if y2 = y ∧ x2 = x then { g y2 x2 with wall := v } else g y2 x2

/-- The states of a session of `Main`: from the initial state, by a left or right click on
a cell while in `Prep`, the confirm button while in `Prep`, a call of `stepExplore` while
in `Explore`, and the key R while in `Done`. -/
inductive Session (W H : Nat) : Explorer → Prop
  | start : Session W H (initial openGrid)
  | paint (s : Explorer) (p : Point) : Session W H s → s.phase = Phase.Prep →
      inBounds W H p = true → Session W H { s with grid := setWall s.grid p.y p.x true }
  | erase (s : Explorer) (p : Point) : Session W H s → s.phase = Phase.Prep →
      inBounds W H p = true → Session W H { s with grid := setWall s.grid p.y p.x false }
  | confirm (s : Explorer) : Session W H s → s.phase = Phase.Prep → Session W H (confirm s)
  | explore (s t : Explorer) (hue : Nat) : Session W H s → s.phase = Phase.Explore →
      stepExplore W H hue s = some t → Session W H t
  | reset (s : Explorer) : Session W H s → s.phase = Phase.Done →
      Session W H (resetVisit { s with phase := Phase.Prep })

end FloodFill

namespace Snake

/-- Six rows of six open cells, without a start marker. -/
def rowsNoStart : List (List Char) :=
  rowsOf ["......", "......", "......", "......", "......", "......"]

/-- Seven rows of seven characters, with a start marker at (1,1). -/
def rowsSeven : List (List Char) :=
  rowsOf [".......", ".S.....", ".......", ".......", ".......", ".......", "......."]

/-- Draws with which `generateOnce` carves, with coverage 28/36, a layout that has no
solution. -/
def draws28 : List Nat := [22, 42, 64, 86, 110, 7, 34, 61, 90, 112, 23, 56, 90]

/-- The layout carved from `draws28`. -/
def rows28 : List (List Char) :=
  rowsOf ["..##..", "..###.", "..###.", "......", "......", "S....."]

end Snake

namespace Snake

/-- The variables `g` and `carved` of `generateOnce` when the carving loop starts: all
walls but the goal, which is the first carved cell. -/
def carveStart (W H : Nat) (r : Nat → Nat) : Carve :=
  ⟨setChar (List.replicate H (List.replicate W '#'))
      (Point.mk (randomInt (r 0) 0 (W - 1) : Nat) (randomInt (r 1) 0 (H - 1) : Nat)).y.toNat
      (Point.mk (randomInt (r 0) 0 (W - 1) : Nat) (randomInt (r 1) 0 (H - 1) : Nat)).x.toNat
      '.',
    [Point.mk (randomInt (r 0) 0 (W - 1) : Nat) (randomInt (r 1) 0 (H - 1) : Nat)]⟩

/-- The variables `g` and `carved` of `generateOnce` when the carving loop is left, and
the rest of the random stream. -/
def carveResult (W H : Nat) (r : Nat → Nat) : Option (Carve × (Nat → Nat)) :=
  carveLoop W H (W * H + 12) 0 (carveStart W H r) (fun n => r (n + 2))

/-- No cell of the rows holds a start marker. -/
def NoStart (g : List (List Char)) : Prop :=
  ∀ y x : Nat, charAt g y x ≠ some 'S'

end Snake

namespace Snake

/-- The variables of the carving loop of `generateOnce` between two iterations: `stuck`,
`g` with `carved`, and the random stream. -/
structure CarveState where
  stuck : Nat
  c : Carve
  r : Nat → Nat

/-- The value of `moved` at the end of the iteration that starts in `s`. -/
def moved (W H : Nat) (s : CarveState) : Bool :=
  (tryDirs W H (s.r 1) (shuffle (s.r 0) Dirs) s.c).isSome

/-- One iteration of the loop `while (stuck < 12)`: the loop body, as in `carveLoop`. -/
def carveBody (W H : Nat) (s : CarveState) : CarveState :=
  match tryDirs W H (s.r 1) (shuffle (s.r 0) Dirs) s.c with
  | some c2 => ⟨s.stuck, c2, fun n => s.r (n + 2)⟩
  | none => ⟨s.stuck + 1, s.c, fun n => s.r (n + 1)⟩

/-- The variables after `n` iterations of the loop body. -/
def carveIter (W H : Nat) : Nat → CarveState → CarveState
  | 0, s => s
  | n + 1, s => carveBody W H (carveIter W H n s)

/-- The variables when `generateOnce` enters its carving loop. -/
def carveInit (W H : Nat) (r : Nat → Nat) : CarveState :=
  ⟨0, carveStart W H r, fun n => r (n + 2)⟩

/-- The grid `g2` differs from `g` only on cells of the board that were `#` in `g` and
are `.` in `g2`. -/
def Opened (W H : Nat) (g g2 : List (List Char)) : Prop :=
  ∀ y x : Nat, charAt g2 y x ≠ charAt g y x →
    y < H ∧ x < W ∧ charAt g y x = some '#' ∧ charAt g2 y x = some '.'

end Snake

namespace FloodFill

/-- A cell the search does not enter: outside the grid, a wall, or visited. -/
def Blocked (W H : Nat) (g : Int → Int → Cell) (q : Point) : Prop :=
  inBounds W H q = false ∨ (g q.y q.x).wall = true ∨ (g q.y q.x).visited = true

/-- The cells joined to `r` by a path of 4-adjacent non-wall cells of the grid. -/
inductive Joined (W H : Nat) (g : Int → Int → Cell) (r : Point) : Point → Prop
  | root : inBounds W H r = true → (g r.y r.x).wall = false → Joined W H g r r
  | next (q d : Point) : Joined W H g r q → d ∈ Dirs → inBounds W H (q + d) = true →
      (g (q + d).y (q + d).x).wall = false → Joined W H g r (q + d)

/-- The visited cells are closed under adjacency, up to the work recorded on the stack:
a visited cell is on the stack or has no neighbour left to enter, and the directions a
frame has tried lead to no cell left to enter, except the frame just pushed. -/
structure Closed (W H : Nat) (u : Explorer) : Prop where
  finished : ∀ p : Point, inBounds W H p = true → (u.grid p.y p.x).visited = true →
    (∃ f ∈ u.callStack, f.p = p) ∨ ∀ d ∈ Dirs, Blocked W H u.grid (p + d)
  tried : ∀ f ∈ u.callStack, ∀ j : Nat, j < f.dir → j < 4 →
    Blocked W H u.grid (f.p + Dirs.getD j ⟨0, 0⟩) ∨
    (u.justPushed = true ∧
      ∃ top, u.callStack.getLast? = some top ∧ top.p = f.p + Dirs.getD j ⟨0, 0⟩)

/-- What one search from the root `r`, started on the grid `g0` with the colour `col`,
has done so far: it has painted only cells joined to `r`, with `col`, and its stack
holds only cells joined to `r`. -/
structure Region (W H : Nat) (g0 : Int → Int → Cell) (r : Point) (col : Color)
    (u : Explorer) : Prop where
  cells : ∀ y x : Int, u.grid y x = g0 y x ∨
    (Joined W H g0 r ⟨x, y⟩ ∧ u.grid y x = { g0 y x with visited := true, color := col })
  stack : ∀ f ∈ u.callStack, Joined W H g0 r f.p
  colour : u.currentColor = col
  root : (u.grid r.y r.x).visited = true ∨ (u.justPushed = true ∧ u.callStack = [⟨r, 0⟩])

end FloodFill

/-! ## Geometry of the grid -/

theorem inBounds_iff (W H : Nat) (p : Point) :
    inBounds W H p = true ↔ 0 ≤ p.x ∧ p.x < (W : Int) ∧ 0 ≤ p.y ∧ p.y < (H : Int) := by
  simp [inBounds, and_assoc]

theorem Point.add_mk (a b c d : Int) : (⟨a, b⟩ : Point) + ⟨c, d⟩ = ⟨a + c, b + d⟩ := rfl

theorem Point.add_x (p q : Point) : (p + q).x = p.x + q.x := rfl

theorem Point.add_y (p q : Point) : (p + q).y = p.y + q.y := rfl

theorem mem_cells (W H : Nat) (y x : Int) :
    (y, x) ∈ cells W H ↔ 0 ≤ y ∧ y < (H : Int) ∧ 0 ≤ x ∧ x < (W : Int) := by
  unfold cells
  rw [List.mem_flatMap]
  constructor
  · rintro ⟨a, ha, hm⟩
    rw [List.mem_map] at hm
    obtain ⟨b, hb, hab⟩ := hm
    rw [List.mem_range] at ha hb
    simp only [Prod.mk.injEq] at hab
    omega
  · rintro ⟨h1, h2, h3, h4⟩
    refine ⟨y.toNat, List.mem_range.2 (by omega), ?_⟩
    rw [List.mem_map]
    refine ⟨x.toNat, List.mem_range.2 (by omega), ?_⟩
    simp only [Prod.mk.injEq]
    omega

theorem length_cells (W H : Nat) : (cells W H).length = H * W := by
  unfold cells
  rw [List.length_flatMap]
  have h : (List.length ∘ fun (y : Nat) =>
      List.map (fun (x : Nat) => ((y : Int), (x : Int))) (List.range W)) = fun _ => W := by
    funext y
    simp
  rw [h]
  simp

namespace FloodFill

/-! ## The stepped explorer -/

theorem scanDirs_some (W H : Nat) (g : Int → Int → Cell) (p : Point) :
    ∀ (fuel dir dir2 : Nat) (np : Point), scanDirs W H g p fuel dir = (dir2, some np) →
      dir < dir2 ∧ dir2 ≤ 4 ∧ inBounds W H np = true ∧ (g np.y np.x).wall = false ∧
        (g np.y np.x).visited = false := by
  intro fuel
  induction fuel with
  | zero => intro dir dir2 np h; simp [scanDirs] at h
  | succ k ih =>
    intro dir dir2 np h
    unfold scanDirs at h
    by_cases hd : dir < 4
    · rw [if_pos hd] at h
      simp only at h
      by_cases hb : inBounds W H (p + Dirs.getD dir ⟨0, 0⟩) = true
      · by_cases hw : (g (p + Dirs.getD dir ⟨0, 0⟩).y (p + Dirs.getD dir ⟨0, 0⟩).x).wall = true
        · simp only [hb, hw, Bool.not_true, Bool.false_eq_true, if_false, if_true] at h
          obtain ⟨h1, h2, h3⟩ := ih _ _ _ h
          exact ⟨by omega, h2, h3⟩
        · by_cases hv : (g (p + Dirs.getD dir ⟨0, 0⟩).y (p + Dirs.getD dir ⟨0, 0⟩).x).visited = true
          · simp only [hb, hw, hv, Bool.not_true, Bool.false_eq_true, if_false, if_true] at h
            obtain ⟨h1, h2, h3⟩ := ih _ _ _ h
            exact ⟨by omega, h2, h3⟩
          · simp only [hb, hw, hv, Bool.not_true, Bool.false_eq_true, if_false, Prod.mk.injEq,
              Option.some.injEq] at h
            obtain ⟨h1, h2⟩ := h
            subst h1 h2
            refine ⟨by omega, by omega, hb, ?_, ?_⟩
            · simpa using hw
            · simpa using hv
      · simp only [hb, Bool.not_false, if_true] at h
        obtain ⟨h1, h2, h3⟩ := ih _ _ _ h
        exact ⟨by omega, h2, h3⟩
    · rw [if_neg hd] at h
      simp at h

theorem markVisited_wall (g : Int → Int → Cell) (p : Point) (c : Color) (y x : Int) :
    (markVisited g p c y x).wall = (g y x).wall := by
  unfold markVisited
  split <;> rfl

theorem markVisited_visited (g : Int → Int → Cell) (p : Point) (c : Color) (y x : Int) :
    (markVisited g p c y x).visited = (decide (y = p.y ∧ x = p.x) || (g y x).visited) := by
  unfold markVisited
  by_cases h : y = p.y ∧ x = p.x
  · simp [h]
  · simp [h]

theorem unvisited_markVisited (W H : Nat) (g : Int → Int → Cell) (p : Point) (c : Color)
    (hb : inBounds W H p = true) (hv : (g p.y p.x).visited = false) :
    (unvisited W H (markVisited g p c)).card + 1 = (unvisited W H g).card := by
  rw [inBounds_iff] at hb
  have hmem : (p.y.toNat, p.x.toNat) ∈ unvisited W H g := by
    unfold unvisited
    rw [Finset.mem_filter, Finset.mem_product, Finset.mem_range, Finset.mem_range]
    refine ⟨⟨by omega, by omega⟩, ?_⟩
    have h1 : ((p.y.toNat : Nat) : Int) = p.y := by omega
    have h2 : ((p.x.toNat : Nat) : Int) = p.x := by omega
    simp only [h1, h2, hv]
  have heq : unvisited W H (markVisited g p c) = (unvisited W H g).erase (p.y.toNat, p.x.toNat) := by
    ext ⟨a, b⟩
    unfold unvisited
    simp only [Finset.mem_filter, Finset.mem_product, Finset.mem_range, Finset.mem_erase,
      markVisited_visited, Bool.or_eq_false_iff, decide_eq_false_iff_not, Prod.mk.injEq, ne_eq]
    constructor
    · rintro ⟨h1, h2, h3⟩
      refine ⟨?_, h1, h3⟩
      intro h4
      apply h2
      omega
    · rintro ⟨h1, h2, h3⟩
      refine ⟨h2, ?_, h3⟩
      intro h4
      apply h1
      omega
  rw [heq, Finset.card_erase_of_mem hmem]
  have : 0 < (unvisited W H g).card := Finset.card_pos.2 ⟨_, hmem⟩
  omega

theorem stackWeight_append (cs : List Frame) (f : Frame) :
    stackWeight (cs ++ [f]) = stackWeight cs + ((4 - f.dir) + 1) := by
  simp [stackWeight]

theorem stackWeight_of_getLast (cs : List Frame) (top : Frame) (h : cs.getLast? = some top) :
    stackWeight cs = stackWeight cs.dropLast + ((4 - top.dir) + 1) := by
  have := List.dropLast_append_getLast? top (by simpa using h)
  rw [← stackWeight_append, this]

theorem stepExplore_done (W H hue : Nat) (s : Explorer) (ha : s.dfsActive = false)
    (hs : W * H ≤ s.scanIndex) :
    stepExplore W H hue s = some { s with phase := Phase.Done } := by
  unfold stepExplore
  simp [ha, hs]

theorem step_idle_of_empty (W H hue : Nat) (s : Explorer) (hinv : Inv W H s)
    (ha : s.dfsActive = true) (hl : s.callStack.getLast? = none) :
    ∃ t, stepExplore W H hue s = some t ∧ Inv W H t ∧ potential W H t < potential W H s ∧
      t.phase = s.phase ∧ ∀ y x, (t.grid y x).wall = (s.grid y x).wall := by
  have hcs : s.callStack = [] := List.getLast?_eq_none_iff.1 hl
  have hj : s.justPushed = false := by
    cases hjp : s.justPushed
    · rfl
    · obtain ⟨top, h1, _⟩ := hinv.pushed hjp
      rw [hl] at h1
      cases h1
  refine ⟨{ s with dfsActive := false }, ?_, ?_, ?_, rfl, fun _ _ => rfl⟩
  · unfold stepExplore
    simp [ha, hl]
  · exact ⟨hinv.visited_open, hinv.scanned, fun _ => ⟨hcs, hj⟩, fun h => by simp [hj] at h⟩
  · simp [potential, ha]

theorem step_confirm (W H hue : Nat) (s : Explorer) (hinv : Inv W H s)
    (ha : s.dfsActive = true) (top : Frame) (hl : s.callStack.getLast? = some top)
    (hj : s.justPushed = true) :
    ∃ t, stepExplore W H hue s = some t ∧ Inv W H t ∧ potential W H t < potential W H s ∧
      t.phase = s.phase ∧ ∀ y x, (t.grid y x).wall = (s.grid y x).wall := by
  obtain ⟨top2, h1, hb, hw, hv⟩ := hinv.pushed hj
  rw [hl] at h1
  cases h1
  refine ⟨{ s with grid := markVisited s.grid top.p s.currentColor, justPushed := false },
    ?_, ?_, ?_, rfl, fun y x => markVisited_wall _ _ _ y x⟩
  · unfold stepExplore
    simp [ha, hl, hj, hb]
  · refine ⟨?_, ?_, fun h => by simp [ha] at h, fun h => by simp at h⟩
    · intro p hp hvis
      simp only [markVisited_wall]
      simp only [markVisited_visited, Bool.or_eq_true, decide_eq_true_eq] at hvis
      rcases hvis with ⟨h1, h2⟩ | h
      · rw [h1, h2]; exact hw
      · exact hinv.visited_open p hp h
    · intro i hi hi2
      simp only [markVisited_wall, markVisited_visited, Bool.or_eq_true]
      rcases hinv.scanned i hi hi2 with h | h
      · exact Or.inl h
      · exact Or.inr (Or.inr h)
  · have := unvisited_markVisited W H s.grid top.p s.currentColor hb hv
    simp only [potential, hj, ha, if_true]
    simp only [Bool.false_eq_true, if_false]
    omega

theorem step_search (W H hue : Nat) (s : Explorer) (hinv : Inv W H s)
    (ha : s.dfsActive = true) (top : Frame) (hl : s.callStack.getLast? = some top)
    (hj : s.justPushed = false) :
    ∃ t, stepExplore W H hue s = some t ∧ Inv W H t ∧ potential W H t < potential W H s ∧
      t.phase = s.phase ∧ ∀ y x, (t.grid y x).wall = (s.grid y x).wall := by
  have hsw := stackWeight_of_getLast s.callStack top hl
  cases hsd : scanDirs W H s.grid top.p 4 top.dir with
  | mk dir r =>
    cases r with
    | none =>
      refine ⟨{ s with callStack := s.callStack.dropLast }, ?_, ?_, ?_, rfl, fun _ _ => rfl⟩
      · unfold stepExplore
        simp [ha, hl, hj, hsd]
      · exact ⟨hinv.visited_open, hinv.scanned, fun h => by simp [ha] at h,
          fun h => by simp [hj] at h⟩
      · simp only [potential, hj, ha, if_true]
        omega
    | some np =>
      obtain ⟨h1, h2, hb, hw, hv⟩ := scanDirs_some W H s.grid top.p 4 top.dir dir np hsd
      refine ⟨{ s with
          callStack := s.callStack.dropLast ++ [{ top with dir := dir }] ++ [⟨np, 0⟩]
          justPushed := true }, ?_, ?_, ?_, rfl, fun _ _ => rfl⟩
      · unfold stepExplore
        simp [ha, hl, hj, hsd]
      · refine ⟨hinv.visited_open, hinv.scanned, fun h => by simp [ha] at h, fun _ => ?_⟩
        exact ⟨⟨np, 0⟩, by simp, hb, hw, hv⟩
      · simp only [potential, hj, ha, if_true, stackWeight_append]
        simp only [Bool.false_eq_true, if_false]
        omega

theorem step_scan (N hue : Nat) (s : Explorer) (hinv : Inv N N s)
    (ha : s.dfsActive = false) (hs : s.scanIndex < N * N) :
    ∃ t, stepExplore N N hue s = some t ∧ Inv N N t ∧ potential N N t < potential N N s ∧
      t.phase = s.phase ∧ ∀ y x, (t.grid y x).wall = (s.grid y x).wall := by
  obtain ⟨hcs, hj⟩ := hinv.idle ha
  have hN : 0 < N := by
    rcases Nat.eq_zero_or_pos N with h | h
    · subst h; simp at hs
    · exact h
  have hx : s.scanIndex % N < N := Nat.mod_lt _ hN
  have hy : s.scanIndex / N < N := Nat.div_lt_of_lt_mul hs
  have hb : inBounds N N ⟨((s.scanIndex % N : Nat) : Int), ((s.scanIndex / N : Nat) : Int)⟩
      = true := by
    rw [inBounds_iff]
    exact ⟨Int.natCast_nonneg _, Int.ofNat_lt.2 hx, Int.natCast_nonneg _, Int.ofNat_lt.2 hy⟩
  have hns : ¬ (s.scanIndex ≥ N * N) := by omega
  by_cases hc : (s.grid ((s.scanIndex / N : Nat) : Int) ((s.scanIndex % N : Nat) : Int)).wall
      = false ∧
      (s.grid ((s.scanIndex / N : Nat) : Int) ((s.scanIndex % N : Nat) : Int)).visited = false
  · refine ⟨{ s with
        currentColor := Color.hsv hue
        callStack := [⟨⟨((s.scanIndex % N : Nat) : Int), ((s.scanIndex / N : Nat) : Int)⟩, 0⟩]
        dfsActive := true
        justPushed := true }, ?_, ?_, ?_, rfl, fun _ _ => rfl⟩
    · unfold stepExplore
      simp only [ha, hns, hb, hc.1, hc.2]
      simp
    · refine ⟨hinv.visited_open, hinv.scanned, fun h => by simp at h, fun _ => ?_⟩
      exact ⟨_, rfl, hb, hc.1, hc.2⟩
    · simp only [potential, hj, ha, hcs, if_true]
      simp [stackWeight]
  · refine ⟨{ s with scanIndex := s.scanIndex + 1 }, ?_, ?_, ?_, rfl, fun _ _ => rfl⟩
    · unfold stepExplore
      have hc2 : (!(s.grid ((s.scanIndex / N : Nat) : Int)
          ((s.scanIndex % N : Nat) : Int)).wall &&
          !(s.grid ((s.scanIndex / N : Nat) : Int) ((s.scanIndex % N : Nat) : Int)).visited)
          = false := by
        cases h1 : (s.grid ((s.scanIndex / N : Nat) : Int)
          ((s.scanIndex % N : Nat) : Int)).wall <;>
        cases h2 : (s.grid ((s.scanIndex / N : Nat) : Int)
          ((s.scanIndex % N : Nat) : Int)).visited <;> simp_all
      simp only [ha, hns, hb, hc2]
      simp
    · refine ⟨hinv.visited_open, ?_, fun h => hinv.idle h, fun h => by simp [hj] at h⟩
      intro i hi hi2
      simp only at hi
      rcases Nat.lt_succ_iff_lt_or_eq.1 hi with h | h
      · exact hinv.scanned i h hi2
      · subst h
        show (s.grid ((s.scanIndex / N : Nat) : Int) ((s.scanIndex % N : Nat) : Int)).wall
            = true ∨
          (s.grid ((s.scanIndex / N : Nat) : Int) ((s.scanIndex % N : Nat) : Int)).visited
            = true
        cases h1 : (s.grid ((s.scanIndex / N : Nat) : Int)
          ((s.scanIndex % N : Nat) : Int)).wall
        · cases h2 : (s.grid ((s.scanIndex / N : Nat) : Int)
            ((s.scanIndex % N : Nat) : Int)).visited
          · exact absurd ⟨h1, h2⟩ hc
          · exact Or.inr rfl
        · exact Or.inl rfl
    · simp only [potential]
      omega

/-- Every call of `stepExplore` on a square grid either ends the scan or lowers the potential. -/
theorem step_progress (N hue : Nat) (s : Explorer) (hinv : Inv N N s)
    (hnd : ¬ (s.dfsActive = false ∧ N * N ≤ s.scanIndex)) :
    ∃ t, stepExplore N N hue s = some t ∧ Inv N N t ∧ potential N N t < potential N N s ∧
      t.phase = s.phase ∧ ∀ y x, (t.grid y x).wall = (s.grid y x).wall := by
  cases ha : s.dfsActive
  · exact step_scan N hue s hinv ha (by
      rcases Nat.lt_or_ge s.scanIndex (N * N) with h | h
      · exact h
      · exact absurd ⟨ha, h⟩ hnd)
  · cases hl : s.callStack.getLast? with
    | none => exact step_idle_of_empty N N hue s hinv ha hl
    | some top =>
      cases hj : s.justPushed
      · exact step_search N N hue s hinv ha top hl hj
      · exact step_confirm N N hue s hinv ha top hl hj

theorem run_reaches_done (N : Nat) :
    ∀ (k : Nat) (hues : Nat → Nat) (s : Explorer), potential N N s ≤ k → Inv N N s →
      ∃ n t, runExplore N N hues n s = some t ∧ t.phase = Phase.Done ∧ Inv N N t ∧
        t.dfsActive = false ∧ N * N ≤ t.scanIndex ∧
        (∀ y x, (t.grid y x).wall = (s.grid y x).wall) ∧
        (∀ m, m < n → ∃ u, runExplore N N hues m s = some u ∧ u.phase = s.phase) := by
  intro k
  induction k with
  | zero =>
    intro hues s hk hinv
    by_cases hnd : s.dfsActive = false ∧ N * N ≤ s.scanIndex
    · refine ⟨1, { s with phase := Phase.Done }, ?_, rfl, ?_, hnd.1, hnd.2, fun _ _ => rfl, ?_⟩
      · simp [runExplore, stepExplore_done N N (hues 0) s hnd.1 hnd.2]
      · exact ⟨hinv.visited_open, hinv.scanned, hinv.idle, hinv.pushed⟩
      · intro m hm
        have : m = 0 := by omega
        subst this
        exact ⟨s, rfl, rfl⟩
    · obtain ⟨t, _, _, hlt, _⟩ := step_progress N (hues 0) s hinv hnd
      omega
  | succ k ih =>
    intro hues s hk hinv
    by_cases hnd : s.dfsActive = false ∧ N * N ≤ s.scanIndex
    · refine ⟨1, { s with phase := Phase.Done }, ?_, rfl, ?_, hnd.1, hnd.2, fun _ _ => rfl, ?_⟩
      · simp [runExplore, stepExplore_done N N (hues 0) s hnd.1 hnd.2]
      · exact ⟨hinv.visited_open, hinv.scanned, hinv.idle, hinv.pushed⟩
      · intro m hm
        have : m = 0 := by omega
        subst this
        exact ⟨s, rfl, rfl⟩
    · obtain ⟨t, hst, hti, hlt, hph0, hwall⟩ := step_progress N (hues 0) s hinv hnd
      obtain ⟨n, u, hrun, hph, hui, hua, hus, huw, hbefore⟩ :=
        ih (fun j => hues (j + 1)) t (by omega) hti
      refine ⟨n + 1, u, ?_, hph, hui, hua, hus, fun y x => ?_, ?_⟩
      · simp [runExplore, hst, hrun]
      · rw [huw, hwall]
      · intro m hm
        rcases Nat.eq_zero_or_pos m with h0 | h0
        · subst h0
          exact ⟨s, rfl, rfl⟩
        · obtain ⟨j, rfl⟩ : ∃ j, m = j + 1 := ⟨m - 1, by omega⟩
          obtain ⟨v, hv, hvp⟩ := hbefore j (by omega)
          refine ⟨v, ?_, hvp.trans hph0⟩
          simp [runExplore, hst, hv]

theorem inv_confirm (W H : Nat) (s : Explorer) : Inv W H (confirm s) := by
  refine ⟨?_, ?_, fun _ => ⟨rfl, rfl⟩, ?_⟩
  · intro p _ h
    simp [confirm, resetVisit] at h
  · intro i hi
    simp [confirm, resetVisit] at hi
  · intro h
    simp [confirm, resetVisit] at h

theorem done_visited_iff (N : Nat) (t : Explorer) (hinv : Inv N N t)
    (hs : N * N ≤ t.scanIndex) (p : Point) (hp : inBounds N N p = true) :
    (t.grid p.y p.x).visited = true ↔ (t.grid p.y p.x).wall = false := by
  constructor
  · exact hinv.visited_open p hp
  · intro hw
    rw [inBounds_iff] at hp
    obtain ⟨hx0, hx1, hy0, hy1⟩ := hp
    have hxN : p.x.toNat < N := by omega
    have hyN : p.y.toNat < N := by omega
    have hlt : p.y.toNat * N + p.x.toNat < N * N := by
      calc p.y.toNat * N + p.x.toNat < p.y.toNat * N + N := by omega
        _ = (p.y.toNat + 1) * N := by ring
        _ ≤ N * N := Nat.mul_le_mul_right N hyN
    have hN : 0 < N := by omega
    have hdiv : (p.y.toNat * N + p.x.toNat) / N = p.y.toNat := by
      rw [Nat.add_comm, Nat.add_mul_div_right _ _ hN, Nat.div_eq_of_lt hxN, Nat.zero_add]
    have hmod : (p.y.toNat * N + p.x.toNat) % N = p.x.toNat := by
      rw [Nat.add_comm, Nat.add_mul_mod_self_right, Nat.mod_eq_of_lt hxN]
    have h := hinv.scanned (p.y.toNat * N + p.x.toNat) (by omega) hlt
    rw [hdiv, hmod] at h
    have h1 : ((p.y.toNat : Nat) : Int) = p.y := by omega
    have h2 : ((p.x.toNat : Nat) : Int) = p.x := by omega
    rw [h1, h2] at h
    rcases h with h | h
    · rw [hw] at h; cases h
    · exact h

/-- C1: on the 8x8 grid, whatever the walls, `confirm` produces a state with no cell
visited, the scan cursor at 0, the stack empty, the explorer inactive and the phase
`Explore`; from it some number `n` of `stepExplore` calls all succeed, the phase is
`Explore` before each of them and `Done` after the last; in that state the explorer is
inactive, the call stack is empty, a cell is visited exactly when it is not a wall, the
walls are those of the start, and on a wall-free grid all `8 * 8 = 64` cells are visited. -/
theorem explore_completes (hues : Nat → Nat) (s : Explorer) :
    ((confirm s).phase = Phase.Explore ∧ (confirm s).scanIndex = 0 ∧
      (confirm s).callStack = [] ∧ (confirm s).dfsActive = false ∧
      ∀ y x, ((confirm s).grid y x).visited = false) ∧
    ∃ n t, runExplore 8 8 hues n (confirm s) = some t ∧ t.phase = Phase.Done ∧
      (∀ m, m < n → ∃ u, runExplore 8 8 hues m (confirm s) = some u ∧
        u.phase = Phase.Explore) ∧
      t.dfsActive = false ∧ t.callStack = [] ∧
      (∀ p : Point, inBounds 8 8 p = true →
        ((t.grid p.y p.x).visited = true ↔ (t.grid p.y p.x).wall = false)) ∧
      (∀ y x, (t.grid y x).wall = (s.grid y x).wall) ∧
      ((∀ p : Point, inBounds 8 8 p = true → (s.grid p.y p.x).wall = false) →
        visitedCount 8 8 t.grid = 64) := by
  refine ⟨⟨rfl, rfl, rfl, rfl, fun _ _ => rfl⟩, ?_⟩
  obtain ⟨n, t, hrun, hph, hinv, hact, hscan, hwall, hbefore⟩ :=
    run_reaches_done 8 (potential 8 8 (confirm s)) hues (confirm s) (le_refl _)
      (inv_confirm 8 8 s)
  have hw : ∀ y x, (t.grid y x).wall = (s.grid y x).wall := by
    intro y x
    rw [hwall]
    rfl
  refine ⟨n, t, hrun, hph, hbefore, hact, (hinv.idle hact).1,
    fun p hp => done_visited_iff 8 t hinv hscan p hp, hw, ?_⟩
  intro hopen
  unfold visitedCount
  have hall : ∀ c ∈ cells 8 8, (t.grid c.1 c.2).visited = true := by
    rintro ⟨y, x⟩ hc
    rw [mem_cells] at hc
    have hp : inBounds 8 8 ⟨x, y⟩ = true := by
      rw [inBounds_iff]
      simp only
      omega
    have := (done_visited_iff 8 t hinv hscan ⟨x, y⟩ hp).2
      (by rw [hw]; exact hopen ⟨x, y⟩ hp)
    exact this
  rw [List.filter_eq_self.2 hall, length_cells]

/-- C8: on the wall-free grid with `W = 2`, `H = 1`, from the reset state, call 1 pushes
the frame of (0,0) and sets `justPushed`; call 2 marks (0,0) visited, clears `justPushed`
and leaves the stack alone; call 3 pushes the frame of (1,0); call 4 marks (1,0) visited;
call 5 pops (1,0); call 6 pops (0,0); call 7 finds the stack empty and deactivates. -/
theorem seven_step_trace (hues : Nat → Nat) (s : Explorer)
    (hopen : ∀ p : Point, inBounds 2 1 p = true → (s.grid p.y p.x).wall = false) :
    ∃ s1 s2 s3 s4 s5 s6 s7 : Explorer,
      (stepExplore 2 1 (hues 0) (resetVisit s) = some s1 ∧
        s1.callStack = [⟨⟨0, 0⟩, 0⟩] ∧ s1.justPushed = true ∧ s1.dfsActive = true ∧
        s1.grid = (resetVisit s).grid) ∧
      (stepExplore 2 1 (hues 1) s1 = some s2 ∧
        s2.grid = markVisited s1.grid ⟨0, 0⟩ s1.currentColor ∧
        (s2.grid 0 0).visited = true ∧ (s2.grid 0 1).visited = false ∧
        s2.justPushed = false ∧ s2.callStack = s1.callStack) ∧
      (stepExplore 2 1 (hues 2) s2 = some s3 ∧
        s3.callStack = [⟨⟨0, 0⟩, 1⟩, ⟨⟨1, 0⟩, 0⟩] ∧ s3.justPushed = true ∧
        s3.grid = s2.grid) ∧
      (stepExplore 2 1 (hues 3) s3 = some s4 ∧
        s4.grid = markVisited s3.grid ⟨1, 0⟩ s3.currentColor ∧
        (s4.grid 0 1).visited = true ∧ s4.justPushed = false ∧
        s4.callStack = s3.callStack) ∧
      (stepExplore 2 1 (hues 4) s4 = some s5 ∧
        s5.callStack = [⟨⟨0, 0⟩, 1⟩] ∧ s5.justPushed = false ∧ s5.grid = s4.grid) ∧
      (stepExplore 2 1 (hues 5) s5 = some s6 ∧
        s6.callStack = [] ∧ s6.dfsActive = true ∧ s6.grid = s4.grid) ∧
      (stepExplore 2 1 (hues 6) s6 = some s7 ∧
        s7.callStack = [] ∧ s7.dfsActive = false ∧ s7.grid = s4.grid) := by
  have h00 : (s.grid 0 0).wall = false := hopen ⟨0, 0⟩ (by decide)
  have h01 : (s.grid 0 1).wall = false := hopen ⟨1, 0⟩ (by decide)
  let r := resetVisit s
  let c := Color.hsv (hues 0)
  let s1 : Explorer := { r with
    currentColor := c, callStack := [⟨⟨0, 0⟩, 0⟩], dfsActive := true, justPushed := true }
  let s2 : Explorer := { s1 with grid := markVisited r.grid ⟨0, 0⟩ c, justPushed := false }
  let s3 : Explorer := { s2 with
    callStack := [⟨⟨0, 0⟩, 1⟩, ⟨⟨1, 0⟩, 0⟩], justPushed := true }
  let s4 : Explorer := { s3 with grid := markVisited s2.grid ⟨1, 0⟩ c, justPushed := false }
  let s5 : Explorer := { s4 with callStack := [⟨⟨0, 0⟩, 1⟩] }
  let s6 : Explorer := { s5 with callStack := [] }
  let s7 : Explorer := { s6 with dfsActive := false }
  refine ⟨s1, s2, s3, s4, s5, s6, s7, ⟨?_, rfl, rfl, rfl, rfl⟩, ⟨?_, rfl, ?_, ?_, rfl, rfl⟩,
    ⟨?_, rfl, rfl, rfl⟩, ⟨?_, rfl, ?_, rfl, rfl⟩, ⟨?_, rfl, rfl, rfl⟩, ⟨?_, rfl, rfl, rfl⟩,
    ⟨?_, rfl, rfl, rfl⟩⟩
  · simp [stepExplore, resetVisit, inBounds, h00, s1, r, c]
  · simp [stepExplore, inBounds, s1, s2]
  · simp [s2, markVisited]
  · simp [s2, markVisited, r, resetVisit]
  · simp [stepExplore, scanDirs, inBounds, Dirs, Point.add_mk, s2, s3, markVisited, r, resetVisit, h01]
  · simp [stepExplore, inBounds, s3, s4]
  · simp [s4, markVisited]
  · simp [stepExplore, scanDirs, inBounds, Dirs, Point.add_mk, s4, s5, s2, markVisited, r, resetVisit]
  · simp [stepExplore, scanDirs, inBounds, Dirs, Point.add_mk, s5, s6, s4, s2, markVisited, r, resetVisit]
  · simp [stepExplore, s6, s7]

theorem seven_step_trace_witness :
    ∃ s7, runExplore 2 1 (fun _ => 0) 7 (resetVisit (initial openGrid)) = some s7 ∧
      s7.callStack = [] ∧ s7.dfsActive = false := by
  obtain ⟨s1, s2, s3, s4, s5, s6, s7, h1, h2, h3, h4, h5, h6, h7⟩ :=
    seven_step_trace (fun _ => 0) (initial openGrid) (fun _ _ => rfl)
  refine ⟨s7, ?_, h7.2.1, h7.2.2.1⟩
  simp [runExplore, h1.1, h2.1, h3.1, h4.1, h5.1, h6.1, h7.1]

end FloodFill

namespace Snake

/-! ## The two fixtures of the uniqueness verifier -/

/-- C9, as stated, fails: on the 2x2 board without walls and start (0,0) the verifier
does not find exactly one solution, and `isUniqueSolution` does not return true; the same
holds for the 2x2 block inside the 6x6 layout. -/
theorem two_by_two_not_unique :
    ¬ (countSolutions 2 2 rows2x2 = some 1) ∧ ¬ (isUniqueSolution 2 2 rows2x2 = some true) ∧
    ¬ (countSolutions 6 6 rows2x2in6 = some 1) ∧
    ¬ (isUniqueSolution 6 6 rows2x2in6 = some true) := by
  decide!

/-- C9, amended: on the 2x2 board without walls and start (0,0) the verifier finds 2
solutions, so `isUniqueSolution` returns false; the slides right, down, left and the
slides down, right, up both paint the whole board. The same holds inside the 6x6 layout. -/
theorem two_by_two_two_solutions :
    (countSolutions 2 2 rows2x2 = some 2 ∧ isUniqueSolution 2 2 rows2x2 = some false ∧
      (setFromRows 2 2 Board.empty rows2x2).map (fun b =>
        (isCleared 2 2 (slides 2 2 b [⟨1, 0⟩, ⟨0, 1⟩, ⟨-1, 0⟩]),
         isCleared 2 2 (slides 2 2 b [⟨0, 1⟩, ⟨1, 0⟩, ⟨0, -1⟩]))) = some (true, true)) ∧
    (countSolutions 6 6 rows2x2in6 = some 2 ∧ isUniqueSolution 6 6 rows2x2in6 = some false ∧
      (setFromRows 6 6 Board.empty rows2x2in6).map (fun b =>
        (isCleared 6 6 (slides 6 6 b [⟨1, 0⟩, ⟨0, 1⟩, ⟨-1, 0⟩]),
         isCleared 6 6 (slides 6 6 b [⟨0, 1⟩, ⟨1, 0⟩, ⟨0, -1⟩]))) = some (true, true)) := by
  decide!

/-- C10: on the 3x3 board open except for the centre, start (0,0), the first slide
right ends on (2,0) and the first slide down on (0,2) (these are the two moves the search
lists first), each branch continues to a fully painted board, the verifier counts more
than one solution (it stops at 2) and `isUniqueSolution` returns false. The same holds
for the 3x3 block inside the 6x6 layout. -/
theorem three_by_three_rejected :
    (firstMoves 3 3 rows3x3 = some [[⟨1, 0⟩, ⟨2, 0⟩], [⟨0, 1⟩, ⟨0, 2⟩]] ∧
      (setFromRows 3 3 Board.empty rows3x3).map (fun b =>
        ((slide 3 3 b ⟨1, 0⟩).player, (slide 3 3 b ⟨0, 1⟩).player,
         isCleared 3 3 (slides 3 3 b [⟨1, 0⟩, ⟨0, 1⟩, ⟨-1, 0⟩, ⟨0, -1⟩]),
         isCleared 3 3 (slides 3 3 b [⟨0, 1⟩, ⟨1, 0⟩, ⟨0, -1⟩, ⟨-1, 0⟩])))
        = some (⟨2, 0⟩, ⟨0, 2⟩, true, true) ∧
      countSolutions 3 3 rows3x3 = some 2 ∧ isUniqueSolution 3 3 rows3x3 = some false) ∧
    (firstMoves 6 6 rows3x3in6 = some [[⟨1, 0⟩, ⟨2, 0⟩], [⟨0, 1⟩, ⟨0, 2⟩]] ∧
      (setFromRows 6 6 Board.empty rows3x3in6).map (fun b =>
        ((slide 6 6 b ⟨1, 0⟩).player, (slide 6 6 b ⟨0, 1⟩).player,
         isCleared 6 6 (slides 6 6 b [⟨1, 0⟩, ⟨0, 1⟩, ⟨-1, 0⟩, ⟨0, -1⟩]),
         isCleared 6 6 (slides 6 6 b [⟨0, 1⟩, ⟨1, 0⟩, ⟨0, -1⟩, ⟨-1, 0⟩])))
        = some (⟨2, 0⟩, ⟨0, 2⟩, true, true) ∧
      countSolutions 6 6 rows3x3in6 = some 2 ∧
      isUniqueSolution 6 6 rows3x3in6 = some false) := by
  decide!

end Snake

/-! ## Runs of free cells -/

theorem stepTo_zero (h d : Point) : stepTo h d 0 = h := by
  simp [stepTo]

theorem stepTo_one (h d : Point) : stepTo h d 1 = h + d := by
  cases h; cases d
  simp [stepTo, Point.add_mk]

theorem stepTo_succ (h d : Point) (k : Nat) : stepTo (h + d) d k = stepTo h d (k + 1) := by
  cases h; cases d
  simp only [stepTo, Point.add_mk, Point.mk.injEq]
  constructor <;> push_cast <;> ring

theorem stepTo_add (h d : Point) (k : Nat) : stepTo h d k + d = stepTo h d (k + 1) := by
  cases h; cases d
  simp only [stepTo, Point.add_mk, Point.mk.injEq]
  constructor <;> push_cast <;> ring

theorem stepTo_inj (h d : Point) (hd : d ∈ Dirs) (j k : Nat) (e : stepTo h d j = stepTo h d k) :
    j = k := by
  simp only [Dirs, List.mem_cons, List.mem_singleton, List.not_mem_nil, or_false] at hd
  simp only [stepTo, Point.mk.injEq] at e
  rcases hd with rfl | rfl | rfl | rfl <;> simp only at e <;> omega

/-- A run of in-bounds cells along one of the four directions is shorter than `W + H`. -/
theorem run_lt (W H : Nat) (h d : Point) (hd : d ∈ Dirs) (m : Nat) (hm : 1 ≤ m)
    (hb : ∀ j, j < m → inBounds W H (stepTo h d j) = true) : m < W + H := by
  have h0 := hb 0 (by omega)
  have h1 := hb (m - 1) (by omega)
  rw [inBounds_iff] at h0 h1
  simp only [Dirs, List.mem_cons, List.mem_singleton, List.not_mem_nil, or_false] at hd
  simp only [stepTo] at h0 h1
  rcases hd with rfl | rfl | rfl | rfl <;> simp only at h0 h1 <;> push_cast at h0 h1 <;> omega

theorem not_free_of_zero (W H : Nat) (wall vis : Int → Int → Bool) (p : Point)
    (h : W + H = 0) : ¬ Free W H wall vis p := by
  rintro ⟨hb, _, _⟩
  rw [inBounds_iff] at hb
  omega

namespace Snake

/-! ## The player's slide -/

theorem setGrid_apply (g : Int → Int → Bool) (y x : Int) (v : Bool) (y2 x2 : Int) :
    setGrid g y x v y2 x2 = if y2 = y ∧ x2 = x then v else g y2 x2 := rfl

theorem isObstacleGame_eq_false (W H : Nat) (b : Board) (p : Point) :
    isObstacleGame W H b p = false ↔ Free W H b.wall b.visited p := by
  unfold isObstacleGame Free
  cases inBounds W H p <;> cases b.wall p.y p.x <;> cases b.visited p.y p.x <;> simp

theorem slideLoop_spec (W H : Nat) (d : Point) (hd : d ∈ Dirs) :
    ∀ (fuel : Nat) (b : Board) (p : Point),
      ∃ m, m ≤ fuel ∧ (∀ j, j < m → Free W H b.wall b.visited (stepTo p d j)) ∧
        (m < fuel → ¬ Free W H b.wall b.visited (stepTo p d m)) ∧
        (slideLoop W H d fuel b p).player = (if m = 0 then b.player else stepTo p d (m - 1)) ∧
        (∀ y x, (slideLoop W H d fuel b p).visited y x = true ↔
          (b.visited y x = true ∨ ∃ j, j < m ∧ stepTo p d j = ⟨x, y⟩)) ∧
        (slideLoop W H d fuel b p).wall = b.wall ∧
        (slideLoop W H d fuel b p).start = b.start ∧
        (slideLoop W H d fuel b p).nonWallCount = b.nonWallCount := by
  intro fuel
  induction fuel with
  | zero =>
    intro b p
    exact ⟨0, le_refl _, fun j hj => absurd hj (by omega), fun h => absurd h (by omega), rfl,
      fun y x => by simp [slideLoop], rfl, rfl, rfl⟩
  | succ k ih =>
    intro b p
    by_cases hf : Free W H b.wall b.visited p
    · have hob : isObstacleGame W H b p = false := (isObstacleGame_eq_false W H b p).2 hf
      obtain ⟨m, hm, hfree, hmax, hpl, hvis, hw, hs, hn⟩ :=
        ih { b with player := p, visited := setGrid b.visited p.y p.x true } (p + d)
      have hstep : slideLoop W H d (k + 1) b p = slideLoop W H d k
          { b with player := p, visited := setGrid b.visited p.y p.x true } (p + d) := by
        simp [slideLoop, hob]
      rw [hstep]
      refine ⟨m + 1, by omega, ?_, ?_, ?_, ?_, hw, hs, hn⟩
      · intro j hj
        rcases Nat.eq_zero_or_pos j with h0 | h0
        · subst h0; rw [stepTo_zero]; exact hf
        · obtain ⟨i, rfl⟩ : ∃ i, j = i + 1 := ⟨j - 1, by omega⟩
          have := hfree i (by omega)
          rw [stepTo_succ] at this
          obtain ⟨h1, h2, h3⟩ := this
          refine ⟨h1, h2, ?_⟩
          simp only [setGrid_apply] at h3
          split at h3
          · cases h3
          · exact h3
      · intro hlt hfr
        apply hmax (by omega)
        rw [stepTo_succ]
        obtain ⟨h1, h2, h3⟩ := hfr
        refine ⟨h1, h2, ?_⟩
        simp only [setGrid_apply]
        rw [if_neg, h3]
        rintro ⟨e1, e2⟩
        have e : stepTo p d (m + 1) = stepTo p d 0 := by
          rw [stepTo_zero]
          cases hq : stepTo p d (m + 1)
          rw [hq] at e1 e2
          simp only at e1 e2
          cases p
          simp only [Point.mk.injEq]
          exact ⟨e2, e1⟩
        have := stepTo_inj p d hd _ _ e
        omega
      · rw [hpl]
        simp only [Nat.add_sub_cancel, Nat.add_one_ne_zero, if_false]
        split
        · rename_i h0; subst h0; rw [stepTo_zero]
        · rw [stepTo_succ]
          congr 1
          omega
      · intro y x
        rw [hvis]
        simp only [setGrid_apply]
        constructor
        · rintro (h | ⟨j, hj, e⟩)
          · split at h
            · rename_i hc
              exact Or.inr ⟨0, by omega, by rw [stepTo_zero]; cases p; simp_all⟩
            · exact Or.inl h
          · exact Or.inr ⟨j + 1, by omega, by rw [← stepTo_succ]; exact e⟩
        · rintro (h | ⟨j, hj, e⟩)
          · left
            split
            · rfl
            · exact h
          · rcases Nat.eq_zero_or_pos j with h0 | h0
            · subst h0
              rw [stepTo_zero] at e
              left
              subst e
              simp
            · right
              refine ⟨j - 1, by omega, ?_⟩
              rw [stepTo_succ]
              have : j - 1 + 1 = j := by omega
              rw [this]
              exact e
    · have hob : isObstacleGame W H b p = true := by
        cases h : isObstacleGame W H b p
        · exact absurd ((isObstacleGame_eq_false W H b p).1 h) hf
        · rfl
      have hstep : slideLoop W H d (k + 1) b p = b := by
        simp [slideLoop, hob]
      rw [hstep]
      exact ⟨0, by omega, fun j hj => absurd hj (by omega),
        fun _ => by rw [stepTo_zero]; exact hf, rfl, fun y x => by simp, rfl, rfl, rfl⟩

end Snake

namespace Snake

/-! ## Reading the rows -/

theorem countP_and_le {α : Type} (p q : α → Bool) (l : List α) :
    l.countP (fun c => p c && q c) ≤ l.countP p := by
  apply List.countP_mono_left
  intro x _ h
  simp only [Bool.and_eq_true] at h
  exact h.1

theorem countP_and_eq {α : Type} (p q : α → Bool) :
    ∀ l : List α, l.countP (fun c => p c && q c) = l.countP p →
      ∀ c ∈ l, p c = true → q c = true := by
  intro l
  induction l with
  | nil => intro _ c hc; cases hc
  | cons a l ih =>
    intro h c hc hp
    have hle := countP_and_le p q l
    rw [List.countP_cons, List.countP_cons] at h
    have key : (p a = true → q a = true) ∧
        l.countP (fun c => p c && q c) = l.countP p := by
      cases hpa : p a <;> cases hqa : q a <;>
        simp only [hpa, hqa, Bool.and_false, Bool.and_true, Bool.false_and, if_true, if_false,
          Bool.false_eq_true] at h <;> simp <;> omega
    rcases List.mem_cons.1 hc with rfl | hc2
    · exact key.1 hp
    · exact ih key.2 c hc2 hp

theorem countP_and_of_all {α : Type} (p q : α → Bool) (l : List α)
    (h : ∀ c ∈ l, p c = true → q c = true) :
    l.countP (fun c => p c && q c) = l.countP p := by
  apply List.countP_congr
  intro x hx
  simp only [Bool.and_eq_true]
  exact ⟨fun h1 => h1.1, fun h1 => ⟨h1, h x hx h1⟩⟩

theorem scan_fold (rows : List (List Char)) :
    ∀ (l : List (Int × Int)) (st sc : Scan), l.foldlM (scanCell rows) st = some sc →
      sc.nonWall = st.nonWall +
        l.countP (fun c => charAt rows c.1.toNat c.2.toNat != some '#') ∧
      (∀ y x, sc.wall y x = true ↔ (st.wall y x = true ∨
        ((y, x) ∈ l ∧ charAt rows y.toNat x.toNat = some '#'))) ∧
      sc.start = (((l.filter (fun c => charAt rows c.1.toNat c.2.toNat == some 'S')).getLast?).map
        (fun c => (⟨c.2, c.1⟩ : Point))).getD st.start ∧
      (∀ c ∈ l, (charAt rows c.1.toNat c.2.toNat).isSome = true) := by
  intro l
  induction l with
  | nil =>
    intro st sc h
    simp only [List.foldlM_nil, pure, Option.some.injEq] at h
    subst h
    simp
  | cons a l ih =>
    intro st sc h
    rw [List.foldlM_cons] at h
    cases hc : charAt rows a.1.toNat a.2.toNat with
    | none => simp [scanCell, hc] at h
    | some ch =>
      by_cases hw : ch = '#'
      · subst hw
        have h1 : scanCell rows st a = some { st with wall := setGrid st.wall a.1 a.2 true } := by
          simp [scanCell, hc]
        rw [h1] at h
        obtain ⟨e1, e2, e3, e4⟩ := ih _ sc h
        refine ⟨?_, ?_, ?_, ?_⟩
        · rw [e1, List.countP_cons]
          simp [hc]
        · intro y x
          rw [e2]
          simp only [setGrid_apply, List.mem_cons]
          constructor
          · rintro (h2 | ⟨h2, h3⟩)
            · split at h2
              · rename_i hyx
                right
                refine ⟨Or.inl ?_, ?_⟩
                · rw [hyx.1, hyx.2]
                · rw [hyx.1, hyx.2]; exact hc
              · exact Or.inl h2
            · exact Or.inr ⟨Or.inr h2, h3⟩
          · rintro (h2 | ⟨h2 | h2, h3⟩)
            · left
              split
              · rfl
              · exact h2
            · left
              rw [if_pos]
              rw [← h2]
              exact ⟨rfl, rfl⟩
            · exact Or.inr ⟨h2, h3⟩
        · rw [e3, List.filter_cons]
          simp [hc]
        · intro c hm
          rcases List.mem_cons.1 hm with rfl | hm
          · simp [hc]
          · exact e4 c hm
      · have h1 : scanCell rows st a = some { st with
            nonWall := st.nonWall + 1
            start := if ch = 'S' then ⟨a.2, a.1⟩ else st.start } := by
          simp [scanCell, hc, hw]
        rw [h1] at h
        obtain ⟨e1, e2, e3, e4⟩ := ih _ sc h
        refine ⟨?_, ?_, ?_, ?_⟩
        · rw [e1, List.countP_cons]
          simp [hc, hw]
          omega
        · intro y x
          rw [e2]
          simp only [List.mem_cons]
          constructor
          · rintro (h2 | ⟨h2, h3⟩)
            · exact Or.inl h2
            · exact Or.inr ⟨Or.inr h2, h3⟩
          · rintro (h2 | ⟨h2 | h2, h3⟩)
            · exact Or.inl h2
            · exfalso
              rw [Prod.ext_iff] at h2
              simp only at h2
              rw [h2.1, h2.2, hc] at h3
              simp only [Option.some.injEq] at h3
              exact hw h3
            · exact Or.inr ⟨h2, h3⟩
        · rw [e3, List.filter_cons]
          by_cases hS : ch = 'S'
          · subst hS
            simp only [hc, beq_self_eq_true, if_true]
            cases hl : (l.filter (fun c => charAt rows c.1.toNat c.2.toNat == some 'S')).getLast? with
            | none =>
              rw [List.getLast?_eq_none_iff] at hl
              simp [hl]
            | some z =>
              rw [List.getLast?_cons, hl]
              simp
          · have : (charAt rows a.1.toNat a.2.toNat == some 'S') = false := by
              simp [hc, hS]
            simp only [this, hS, if_false, Bool.false_eq_true]
        · intro c hm
          rcases List.mem_cons.1 hm with rfl | hm
          · simp [hc]
          · exact e4 c hm

end Snake

namespace Snake

theorem isCleared_iff (W H : Nat) (b : Board)
    (hn : b.nonWallCount = (cells W H).countP (fun c => !b.wall c.1 c.2)) :
    isCleared W H b = true ↔
      ∀ p : Point, inBounds W H p = true → b.wall p.y p.x = false → b.visited p.y p.x = true := by
  unfold isCleared paintedCount
  rw [hn, beq_iff_eq]
  constructor
  · intro h p hp hw
    have := countP_and_eq (fun c : Int × Int => !b.wall c.1 c.2)
      (fun c : Int × Int => b.visited c.1 c.2) (cells W H) h (p.y, p.x)
      (by rw [mem_cells]; rw [inBounds_iff] at hp; omega) (by simp [hw])
    exact this
  · intro h
    apply countP_and_of_all
    rintro ⟨y, x⟩ hc hw
    rw [mem_cells] at hc
    exact h ⟨x, y⟩ (by rw [inBounds_iff]; simp only; omega) (by simpa using hw)

theorem slide_blocked (W H : Nat) (b : Board) (d : Point)
    (h : ¬ Free W H b.wall b.visited (b.player + d)) : slide W H b d = b := by
  have hob : isObstacleGame W H b (b.player + d) = true := by
    cases h2 : isObstacleGame W H b (b.player + d)
    · exact absurd ((isObstacleGame_eq_false W H b _).1 h2) h
    · rfl
  simp [slide, hob]

theorem slide_run (W H : Nat) (b : Board) (d : Point) (hd : d ∈ Dirs)
    (h : Free W H b.wall b.visited (b.player + d)) :
    ∃ n, 1 ≤ n ∧
      (∀ k, 1 ≤ k → k ≤ n → Free W H b.wall b.visited (stepTo b.player d k)) ∧
      ¬ Free W H b.wall b.visited (stepTo b.player d (n + 1)) ∧
      (slide W H b d).player = stepTo b.player d n ∧
      (∀ y x, (slide W H b d).visited y x = true ↔
        (b.visited y x = true ∨ ∃ k, 1 ≤ k ∧ k ≤ n ∧ stepTo b.player d k = ⟨x, y⟩)) ∧
      (slide W H b d).wall = b.wall ∧ (slide W H b d).start = b.start ∧
      (slide W H b d).nonWallCount = b.nonWallCount := by
  have hob : isObstacleGame W H b (b.player + d) = false :=
    (isObstacleGame_eq_false W H b _).2 h
  have hs : slide W H b d = slideLoop W H d (W + H) b (b.player + d) := by
    simp [slide, hob]
  obtain ⟨m, hm, hfree, hmax, hpl, hvis, hw, hst, hn⟩ :=
    slideLoop_spec W H d hd (W + H) b (b.player + d)
  have hm1 : 1 ≤ m := by
    rcases Nat.eq_zero_or_pos m with h0 | h0
    · subst h0
      have hWH : 0 < W + H := by
        obtain ⟨hb, _⟩ := h
        rw [inBounds_iff] at hb
        omega
      exact absurd (by rw [stepTo_zero]; exact h) (hmax hWH)
    · exact h0
  have hlt : m < W + H :=
    run_lt W H (b.player + d) d hd m hm1 (fun j hj => (hfree j hj).1)
  rw [hs]
  refine ⟨m, hm1, ?_, ?_, ?_, ?_, hw, hst, hn⟩
  · intro k hk1 hk2
    have := hfree (k - 1) (by omega)
    rw [stepTo_succ] at this
    have e : k - 1 + 1 = k := by omega
    rw [e] at this
    exact this
  · have := hmax hlt
    rw [stepTo_succ] at this
    exact this
  · rw [hpl, if_neg (by omega), stepTo_succ]
    congr 1
    omega
  · intro y x
    rw [hvis]
    constructor
    · rintro (h1 | ⟨j, hj, e⟩)
      · exact Or.inl h1
      · exact Or.inr ⟨j + 1, by omega, by omega, by rw [← stepTo_succ]; exact e⟩
    · rintro (h1 | ⟨k, hk1, hk2, e⟩)
      · exact Or.inl h1
      · refine Or.inr ⟨k - 1, by omega, ?_⟩
        rw [stepTo_succ]
        have e2 : k - 1 + 1 = k := by omega
        rw [e2]
        exact e

theorem arrowKey_eq_slide (W H : Nat) (b : Board) (d : Point)
    (hn : b.nonWallCount = (cells W H).countP (fun c => !b.wall c.1 c.2)) :
    arrowKey W H b d = slide W H b d := by
  unfold arrowKey
  split
  · rename_i hc
    rw [isCleared_iff W H b hn] at hc
    symm
    apply slide_blocked
    rintro ⟨h1, h2, h3⟩
    rw [hc _ h1 h2] at h3
    cases h3
  · rfl

/-- C5: a slide of the player in one of the four directions. If the neighbouring cell
is out of bounds, a wall or visited, nothing changes. Otherwise there is a run of
`n >= 1` cells in that direction, all in bounds, not walls and not visited, with the
cell after them not such a cell; the player ends on the last cell of the run, the
visited cells are exactly the old ones and those of the run, and `wall`, `start` and
`nonWallCount` are unchanged. When `nonWallCount` is the number of non-wall cells, the
`cleared` guard of `Main` makes no difference. -/
theorem slide_spec (W H : Nat) (b : Board) (d : Point) (hd : d ∈ Dirs) :
    (¬ Free W H b.wall b.visited (b.player + d) → slide W H b d = b) ∧
    (Free W H b.wall b.visited (b.player + d) →
      ∃ n, 1 ≤ n ∧
        (∀ k, 1 ≤ k → k ≤ n → Free W H b.wall b.visited (stepTo b.player d k)) ∧
        ¬ Free W H b.wall b.visited (stepTo b.player d (n + 1)) ∧
        (slide W H b d).player = stepTo b.player d n ∧
        (∀ y x, (slide W H b d).visited y x = true ↔
          (b.visited y x = true ∨ ∃ k, 1 ≤ k ∧ k ≤ n ∧ stepTo b.player d k = ⟨x, y⟩)) ∧
        (slide W H b d).wall = b.wall ∧ (slide W H b d).start = b.start ∧
        (slide W H b d).nonWallCount = b.nonWallCount) ∧
    (b.nonWallCount = (cells W H).countP (fun c => !b.wall c.1 c.2) →
      arrowKey W H b d = slide W H b d) :=
  ⟨slide_blocked W H b d, slide_run W H b d hd, arrowKey_eq_slide W H b d⟩

end Snake

namespace Snake

theorem slide_spec_witness :
    (⟨1, 0⟩ : Point) ∈ Dirs ∧ Free 2 2 board2x2.wall board2x2.visited (board2x2.player + ⟨1, 0⟩) ∧
      ∃ n, 1 ≤ n ∧ (slide 2 2 board2x2 ⟨1, 0⟩).player = stepTo board2x2.player ⟨1, 0⟩ n ∧
        (slide 2 2 board2x2 ⟨1, 0⟩).nonWallCount = 4 := by
  have hd : (⟨1, 0⟩ : Point) ∈ Dirs := by decide
  have hf : Free 2 2 board2x2.wall board2x2.visited (board2x2.player + ⟨1, 0⟩) := by decide
  obtain ⟨n, h1, _, _, h4, _, _, _, h8⟩ := (slide_spec 2 2 board2x2 ⟨1, 0⟩ hd).2.1 hf
  exact ⟨hd, hf, n, h1, h4, h8⟩

/-! ## The win condition -/

theorem setFromRows_spec (W H : Nat) (a b : Board) (rows : List (List Char))
    (h : setFromRows W H a rows = some b) :
    b.nonWallCount = (cells W H).countP (fun c => charAt rows c.1.toNat c.2.toNat != some '#') ∧
    (∀ y x, b.wall y x = true ↔ ((y, x) ∈ cells W H ∧ charAt rows y.toNat x.toNat = some '#')) ∧
    b.start = (startOf W H rows).getD a.start ∧
    inBounds W H b.start = true ∧
    b.player = b.start ∧
    b.visited = setGrid (fun _ _ => false) b.start.y b.start.x true ∧
    (∀ c ∈ cells W H, (charAt rows c.1.toNat c.2.toNat).isSome = true) := by
  unfold setFromRows at h
  cases hsc : scanRows W H rows ⟨fun _ _ => false, a.start, 0⟩ with
  | none => simp [hsc] at h
  | some sc =>
    simp only [hsc] at h
    by_cases hb : inBounds W H sc.start = true
    · simp only [hb, if_true, Option.some.injEq] at h
      subst h
      obtain ⟨e1, e2, e3, e4⟩ := scan_fold rows (cells W H) _ sc hsc
      refine ⟨by simpa using e1, ?_, ?_, hb, rfl, rfl, e4⟩
      · intro y x
        simp only
        rw [e2]
        simp
      · simp only
        rw [e3]
        rfl
    · simp [hb] at h

theorem setFromRows_count (W H : Nat) (a b : Board) (rows : List (List Char))
    (h : setFromRows W H a rows = some b) :
    b.nonWallCount = (cells W H).countP (fun c => !b.wall c.1 c.2) := by
  obtain ⟨e1, e2, _, _, _, _, e7⟩ := setFromRows_spec W H a b rows h
  rw [e1]
  apply List.countP_congr
  rintro ⟨y, x⟩ hc
  have := e2 y x
  cases hw : b.wall y x
  · rw [hw] at this
    simp only [Bool.false_eq_true, false_iff, not_and] at this
    have := this hc
    simp [this]
  · rw [hw] at this
    simp only [true_iff] at this
    simp [this.2]

theorem reach_inv (W H : Nat) (b0 b : Board) (hr : Reach W H b0 b)
    (h0 : b0.nonWallCount = (cells W H).countP (fun c => !b0.wall c.1 c.2)) :
    b.nonWallCount = b0.nonWallCount ∧ b.wall = b0.wall ∧ b.start = b0.start := by
  induction hr with
  | init => exact ⟨rfl, rfl, rfl⟩
  | slide b d _ hd ih =>
    obtain ⟨i1, i2, i3⟩ := ih
    by_cases hf : Free W H b.wall b.visited (b.player + d)
    · obtain ⟨n, _, _, _, _, _, hw, hs, hn⟩ := slide_run W H b d hd hf
      exact ⟨hn.trans i1, hw.trans i2, hs.trans i3⟩
    · rw [slide_blocked W H b d hf]
      exact ⟨i1, i2, i3⟩
  | arrowKey b d _ hd ih =>
    obtain ⟨i1, i2, i3⟩ := ih
    rw [arrowKey_eq_slide W H b d (by rw [i1, i2]; exact h0)]
    by_cases hf : Free W H b.wall b.visited (b.player + d)
    · obtain ⟨n, _, _, _, _, _, hw, hs, hn⟩ := slide_run W H b d hd hf
      exact ⟨hn.trans i1, hw.trans i2, hs.trans i3⟩
    · rw [slide_blocked W H b d hf]
      exact ⟨i1, i2, i3⟩
  | resetPaint b _ ih => exact ih

/-- C7: in every board state reached from the result `b0` of a `setFromRows` by slides
and `resetPaint` calls, `nonWallCount` is the value `setFromRows` stored (so are the
walls), it is the number of non-wall cells, that is the number of cells of the rows other
than `#`; `paintedCount()` is at most `nonWallCount`; and `isCleared()` holds exactly when
every non-wall cell is visited. -/
theorem win_condition (W H : Nat) (a b0 b : Board) (rows : List (List Char))
    (h0 : setFromRows W H a rows = some b0) (hr : Reach W H b0 b) :
    b.nonWallCount = b0.nonWallCount ∧ b.wall = b0.wall ∧
    b.nonWallCount = (cells W H).countP (fun c => !b.wall c.1 c.2) ∧
    b.nonWallCount =
      (cells W H).countP (fun c => charAt rows c.1.toNat c.2.toNat != some '#') ∧
    paintedCount W H b ≤ b.nonWallCount ∧
    (isCleared W H b = true ↔
      ∀ p : Point, inBounds W H p = true → b.wall p.y p.x = false →
        b.visited p.y p.x = true) := by
  have hc0 := setFromRows_count W H a b0 rows h0
  obtain ⟨i1, i2, _⟩ := reach_inv W H b0 b hr hc0
  have hc : b.nonWallCount = (cells W H).countP (fun c => !b.wall c.1 c.2) := by
    rw [i1, i2]; exact hc0
  refine ⟨i1, i2, hc, ?_, ?_, isCleared_iff W H b hc⟩
  · rw [i1]
    exact (setFromRows_spec W H a b0 rows h0).1
  · rw [hc]
    exact countP_and_le _ _ _

end Snake

namespace Snake

theorem win_condition_witness :
    ∃ b0, setFromRows 2 2 Board.empty rows2x2 = some b0 ∧
      (slide 2 2 b0 ⟨1, 0⟩).nonWallCount = b0.nonWallCount ∧
      paintedCount 2 2 (slide 2 2 b0 ⟨1, 0⟩) ≤ (slide 2 2 b0 ⟨1, 0⟩).nonWallCount := by
  have hs : (setFromRows 2 2 Board.empty rows2x2).isSome = true := by decide
  obtain ⟨b0, h0⟩ := Option.isSome_iff_exists.1 hs
  have hr : Reach 2 2 b0 (slide 2 2 b0 ⟨1, 0⟩) :=
    Reach.slide b0 ⟨1, 0⟩ Reach.init (by decide)
  have h := win_condition 2 2 Board.empty b0 (slide 2 2 b0 ⟨1, 0⟩) rows2x2 h0 hr
  exact ⟨b0, h0, h.1, h.2.2.2.2.1⟩

end Snake

namespace Snake

/-! ## The uniqueness verifier -/

theorem isObs_eq_false (W H : Nat) (wall vis : Int → Int → Bool) (p : Point) :
    isObs W H wall vis p = false ↔ Free W H wall vis p := by
  unfold isObs Free
  cases inBounds W H p <;> cases wall p.y p.x <;> cases vis p.y p.x <;> simp

theorem isObs_eq_true (W H : Nat) (wall vis : Int → Int → Bool) (p : Point) :
    isObs W H wall vis p = true ↔ ¬ Free W H wall vis p := by
  rw [← isObs_eq_false]
  cases isObs W H wall vis p <;> simp

theorem free_visOf (W H : Nat) (wall : Int → Int → Bool) (V : Finset Point) (p : Point) :
    Free W H wall (visOf V) p ↔ FreeIn W H wall V p := by
  unfold Free FreeIn visOf
  cases p
  simp

theorem sweep_spec (W H : Nat) (wall vis : Int → Int → Bool) (d : Point) :
    ∀ (fuel : Nat) (cur : Point),
      ∃ m, m ≤ fuel ∧ sweep W H wall vis d fuel cur = (List.range m).map (stepTo cur d) ∧
        (∀ j, j < m → Free W H wall vis (stepTo cur d j)) ∧
        (m < fuel → ¬ Free W H wall vis (stepTo cur d m)) := by
  intro fuel
  induction fuel with
  | zero =>
    intro cur
    exact ⟨0, le_refl _, rfl, fun j hj => absurd hj (by omega), fun h => absurd h (by omega)⟩
  | succ k ih =>
    intro cur
    by_cases hf : Free W H wall vis cur
    · have hob := (isObs_eq_false W H wall vis cur).2 hf
      obtain ⟨m, hm, hsw, hfree, hmax⟩ := ih (cur + d)
      refine ⟨m + 1, by omega, ?_, ?_, ?_⟩
      · simp only [sweep, hob, Bool.not_false, if_true, hsw]
        rw [List.range_succ_eq_map, List.map_cons, stepTo_zero, List.map_map]
        congr 1
        apply List.map_congr_left
        intro j _
        simp only [Function.comp, stepTo_succ]
      · intro j hj
        rcases Nat.eq_zero_or_pos j with h0 | h0
        · subst h0; rw [stepTo_zero]; exact hf
        · have := hfree (j - 1) (by omega)
          rw [stepTo_succ] at this
          have e : j - 1 + 1 = j := by omega
          rw [e] at this
          exact this
      · intro hlt
        have := hmax (by omega)
        rw [stepTo_succ] at this
        exact this
    · have hob := (isObs_eq_true W H wall vis cur).2 hf
      refine ⟨0, by omega, ?_, fun j hj => absurd hj (by omega), fun _ => ?_⟩
      · simp [sweep, hob]
      · rw [stepTo_zero]; exact hf

/-- What the search sweeps from `h` in direction `d`: the `runLen` cells after `h`,
all free, followed by a cell that is not. -/
theorem runLen_spec (W H : Nat) (wall : Int → Int → Bool) (V : Finset Point) (h d : Point)
    (hd : d ∈ Dirs) :
    sweep W H wall (visOf V) d (W + H) (h + d) =
      (List.range (runLen W H wall V h d)).map (fun i => stepTo h d (i + 1)) ∧
    (∀ k, 1 ≤ k → k ≤ runLen W H wall V h d → FreeIn W H wall V (stepTo h d k)) ∧
    ¬ FreeIn W H wall V (stepTo h d (runLen W H wall V h d + 1)) := by
  obtain ⟨m, hm, hsw, hfree, hmax⟩ := sweep_spec W H wall (visOf V) d (W + H) (h + d)
  have hlen : runLen W H wall V h d = m := by
    unfold runLen
    rw [hsw]
    simp
  rw [hlen]
  refine ⟨?_, ?_, ?_⟩
  · rw [hsw]
    apply List.map_congr_left
    intro j _
    rw [stepTo_succ]
  · intro k hk1 hk2
    have := hfree (k - 1) (by omega)
    rw [stepTo_succ, free_visOf] at this
    have e : k - 1 + 1 = k := by omega
    rw [e] at this
    exact this
  · rw [← free_visOf, ← stepTo_succ]
    rcases Nat.eq_zero_or_pos m with h0 | h0
    · subst h0
      rcases Nat.eq_zero_or_pos (W + H) with hz | hz
      · exact not_free_of_zero W H _ _ _ hz
      · exact hmax hz
    · exact hmax (run_lt W H (h + d) d hd m h0 (fun j hj => (hfree j hj).1))

theorem isMove_iff (W H : Nat) (wall : Int → Int → Bool) (V : Finset Point) (h d : Point)
    (n : Nat) :
    IsMove W H wall V h d n ↔ d ∈ Dirs ∧ 1 ≤ n ∧ n = runLen W H wall V h d := by
  constructor
  · rintro ⟨hd, h1, hfree, hmax⟩
    obtain ⟨_, hf2, hm2⟩ := runLen_spec W H wall V h d hd
    refine ⟨hd, h1, ?_⟩
    rcases Nat.lt_trichotomy n (runLen W H wall V h d) with hlt | heq | hgt
    · exact absurd (hf2 (n + 1) (by omega) (by omega)) hmax
    · exact heq
    · exact absurd (hfree (runLen W H wall V h d + 1) (by omega) (by omega)) hm2
  · rintro ⟨hd, h1, rfl⟩
    obtain ⟨_, hf2, hm2⟩ := runLen_spec W H wall V h d hd
    exact ⟨hd, h1, hf2, hm2⟩

end Snake

theorem nodup_cells (W H : Nat) : (cells W H).Nodup := by
  unfold cells
  rw [List.nodup_flatMap]
  constructor
  · intro y _
    apply List.Nodup.map
    · intro a b hab
      simp only [Prod.mk.injEq, Nat.cast_inj, true_and] at hab
      exact hab
    · exact List.nodup_range W
  · apply List.Pairwise.imp _ (List.nodup_range H)
    intro a b hab
    simp only [Function.onFun, List.disjoint_left, List.mem_map]
    rintro ⟨y, x⟩ ⟨i, _, hi⟩ ⟨j, _, hj⟩
    simp only [Prod.mk.injEq] at hi hj
    apply hab
    omega

namespace Snake

theorem mem_openCells (W H : Nat) (wall : Int → Int → Bool) (p : Point) :
    p ∈ openCells W H wall ↔ inBounds W H p = true ∧ wall p.y p.x = false := by
  unfold openCells
  rw [List.mem_toFinset, List.mem_map]
  constructor
  · rintro ⟨⟨y, x⟩, hc, rfl⟩
    rw [List.mem_filter, mem_cells] at hc
    rw [inBounds_iff]
    simp only at hc ⊢
    refine ⟨by omega, by simpa using hc.2⟩
  · rintro ⟨hb, hw⟩
    rw [inBounds_iff] at hb
    refine ⟨(p.y, p.x), ?_, rfl⟩
    rw [List.mem_filter, mem_cells]
    exact ⟨by omega, by simp [hw]⟩

theorem card_openCells (W H : Nat) (wall : Int → Int → Bool) :
    (openCells W H wall).card = (cells W H).countP (fun c => !wall c.1 c.2) := by
  unfold openCells
  rw [List.toFinset_card_of_nodup, List.length_map, List.countP_eq_length_filter]
  apply List.Nodup.map
  · rintro ⟨a, b⟩ ⟨c, e⟩ h
    simp only [Point.mk.injEq] at h
    rw [h.1, h.2]
  · exact (nodup_cells W H).filter _

theorem card_openCells_le (W H : Nat) (wall : Int → Int → Bool) :
    (openCells W H wall).card ≤ W * H := by
  rw [card_openCells]
  calc (cells W H).countP _ ≤ (cells W H).length := List.countP_le_length _
    _ = W * H := by rw [length_cells, Nat.mul_comm]

theorem markPath_apply (path : List Point) (v : Bool) :
    ∀ (vis : Int → Int → Bool) (y x : Int),
      markPath vis path v y x = if (⟨x, y⟩ : Point) ∈ path then v else vis y x := by
  induction path with
  | nil => intro vis y x; simp [markPath]
  | cons p ps ih =>
    intro vis y x
    have e : markPath vis (p :: ps) v = markPath (setGrid vis p.y p.x v) ps v := rfl
    rw [e, ih, setGrid_apply]
    by_cases h1 : (⟨x, y⟩ : Point) ∈ ps
    · simp [h1]
    · by_cases h2 : y = p.y ∧ x = p.x
      · have : (⟨x, y⟩ : Point) = p := by cases p; simp_all
        simp [h2, this]
      · have : (⟨x, y⟩ : Point) ≠ p := by
          intro e2
          apply h2
          rw [← e2]
          exact ⟨rfl, rfl⟩
        simp [h1, h2, this]

theorem markPath_true (V : Finset Point) (path : List Point) :
    markPath (visOf V) path true = visOf (V ∪ path.toFinset) := by
  funext y x
  rw [markPath_apply]
  simp only [visOf, Finset.mem_union, List.mem_toFinset]
  by_cases h1 : (⟨x, y⟩ : Point) ∈ path <;> simp [h1]

theorem markPath_false (V : Finset Point) (path : List Point)
    (hdis : ∀ p ∈ path, p ∉ V) :
    markPath (visOf (V ∪ path.toFinset)) path false = visOf V := by
  funext y x
  rw [markPath_apply]
  simp only [visOf, Finset.mem_union, List.mem_toFinset]
  by_cases h1 : (⟨x, y⟩ : Point) ∈ path
  · simp [h1, hdis _ h1]
  · simp [h1]

theorem toFinset_path (h d : Point) (n : Nat) :
    ((List.range n).map (fun i => stepTo h d (i + 1))).toFinset = sweptCells h d n := by
  ext p
  simp only [List.mem_toFinset, List.mem_map, List.mem_range, sweptCells, Finset.mem_image,
    Finset.mem_Icc]
  constructor
  · rintro ⟨i, hi, rfl⟩
    exact ⟨i + 1, by omega, rfl⟩
  · rintro ⟨k, hk, rfl⟩
    exact ⟨k - 1, by omega, by congr 1; omega⟩

theorem getLastD_path (h d : Point) (n : Nat) (hn : 1 ≤ n) :
    ((List.range n).map (fun i => stepTo h d (i + 1))).getLastD ⟨0, 0⟩ = stepTo h d n := by
  obtain ⟨m, rfl⟩ : ∃ m, n = m + 1 := ⟨n - 1, by omega⟩
  rw [List.range_succ, List.map_append]
  simp

theorem card_sweptCells (h d : Point) (hd : d ∈ Dirs) (n : Nat) : (sweptCells h d n).card = n := by
  unfold sweptCells
  rw [Finset.card_image_of_injective]
  · simp
  · intro j k e
    exact stepTo_inj h d hd j k e

theorem moves_eq (W H : Nat) (wall : Int → Int → Bool) (V : Finset Point) (h : Point) :
    moves W H wall (visOf V) h = Dirs.filterMap (fun d =>
      if runLen W H wall V h d = 0 then none
      else some ((List.range (runLen W H wall V h d)).map (fun i => stepTo h d (i + 1)))) := by
  unfold moves
  apply List.filterMap_congr
  intro d hd
  obtain ⟨hsw, hfree, hmax⟩ := runLen_spec W H wall V h d hd
  by_cases h0 : runLen W H wall V h d = 0
  · have hob : isObs W H wall (visOf V) (h + d) = true := by
      rw [isObs_eq_true, free_visOf, ← stepTo_one]
      rw [h0] at hmax
      exact hmax
    simp [hob, h0]
  · have hob : isObs W H wall (visOf V) (h + d) = false := by
      rw [isObs_eq_false, free_visOf, ← stepTo_one]
      exact hfree 1 (le_refl _) (by omega)
    simp only [hob, h0, if_false, Bool.false_eq_true]
    rw [hsw]
    have : ((List.range (runLen W H wall V h d)).map (fun i => stepTo h d (i + 1))).isEmpty
        = false := by
      cases hr : runLen W H wall V h d with
      | zero => exact absurd hr h0
      | succ m => simp [List.range_succ_eq_map]
    simp [this]

end Snake

namespace Snake

theorem swept_not_mem (W H : Nat) (wall : Int → Int → Bool) (V : Finset Point) (h d : Point)
    (hd : d ∈ Dirs) :
    ∀ p ∈ sweptCells h d (runLen W H wall V h d), p ∈ openCells W H wall ∧ p ∉ V := by
  intro p hp
  simp only [sweptCells, Finset.mem_image, Finset.mem_Icc] at hp
  obtain ⟨k, ⟨hk1, hk2⟩, rfl⟩ := hp
  obtain ⟨hb, hw, hv⟩ := (runLen_spec W H wall V h d hd).2.1 k hk1 hk2
  exact ⟨(mem_openCells W H wall _).2 ⟨hb, hw⟩, hv⟩

theorem card_union_swept (W H : Nat) (wall : Int → Int → Bool) (V : Finset Point) (h d : Point)
    (hd : d ∈ Dirs) :
    (V ∪ sweptCells h d (runLen W H wall V h d)).card = V.card + runLen W H wall V h d := by
  rw [Finset.card_union_of_disjoint, card_sweptCells h d hd]
  rw [Finset.disjoint_right]
  intro p hp
  exact (swept_not_mem W H wall V h d hd p hp).2

theorem movesLoop_count (W H : Nat) (wall : Int → Int → Bool)
    (call : Point → Nat → Search → Option Search) (k : Nat) (V : Finset Point) (h : Point)
    (hcall : ∀ d ∈ Dirs, runLen W H wall V h d ≠ 0 → ∀ s, s ≤ 2 →
      call (stepTo h d (runLen W H wall V h d))
        (V ∪ sweptCells h d (runLen W H wall V h d)).card
        ⟨visOf (V ∪ sweptCells h d (runLen W H wall V h d)), s⟩ =
      some ⟨visOf (V ∪ sweptCells h d (runLen W H wall V h d)),
        min 2 (s + (tours W H wall k (V ∪ sweptCells h d (runLen W H wall V h d))
          (stepTo h d (runLen W H wall V h d))).length)⟩) :
    ∀ L : List Point, (∀ d ∈ L, d ∈ Dirs) → ∀ s, s < 2 →
      movesLoop call (L.filterMap (fun d =>
        if runLen W H wall V h d = 0 then none
        else some ((List.range (runLen W H wall V h d)).map (fun i => stepTo h d (i + 1)))))
        V.card ⟨visOf V, s⟩ =
      some ⟨visOf V, min 2 (s + (L.flatMap (fun d =>
        if runLen W H wall V h d = 0 then []
        else (tours W H wall k (V ∪ sweptCells h d (runLen W H wall V h d))
          (stepTo h d (runLen W H wall V h d))).map (fun ds => d :: ds))).length)⟩ := by
  intro L
  induction L with
  | nil =>
    intro _ s hs
    simp only [List.filterMap_nil, movesLoop, List.flatMap_nil, List.length_nil, Nat.add_zero]
    rw [Nat.min_eq_right (by omega)]
  | cons d L ih =>
    intro hL s hs
    have hd : d ∈ Dirs := hL d (List.mem_cons_self _ _)
    have hL2 : ∀ e ∈ L, e ∈ Dirs := fun e he => hL e (List.mem_cons_of_mem _ he)
    by_cases h0 : runLen W H wall V h d = 0
    · rw [List.filterMap_cons_none (by simp [h0]), List.flatMap_cons]
      simp only [h0, if_true, List.nil_append]
      exact ih hL2 s hs
    · have hn : 1 ≤ runLen W H wall V h d := by omega
      rw [List.filterMap_cons, List.flatMap_cons]
      simp only [h0, if_false, List.length_append, List.length_map]
      rw [movesLoop]
      simp only [List.length_map, List.length_range]
      rw [getLastD_path h d _ hn, markPath_true, toFinset_path,
        ← card_union_swept W H wall V h d hd, hcall d hd h0 s (by omega)]
      simp only
      have hback : markPath (visOf (V ∪ sweptCells h d (runLen W H wall V h d)))
          ((List.range (runLen W H wall V h d)).map (fun i => stepTo h d (i + 1))) false
          = visOf V := by
        rw [← toFinset_path]
        apply markPath_false
        intro p hp
        have hp2 : p ∈ sweptCells h d (runLen W H wall V h d) := by
          rw [← toFinset_path]
          exact List.mem_toFinset.2 hp
        exact (swept_not_mem W H wall V h d hd p hp2).2
      rw [hback]
      by_cases hge : min 2 (s + (tours W H wall k (V ∪ sweptCells h d (runLen W H wall V h d))
          (stepTo h d (runLen W H wall V h d))).length) ≥ 2
      · rw [if_pos hge]
        congr 2
        omega
      · rw [if_neg hge]
        have hlt : s + (tours W H wall k (V ∪ sweptCells h d (runLen W H wall V h d))
          (stepTo h d (runLen W H wall V h d))).length < 2 := by omega
        rw [Nat.min_eq_right (by omega), ih hL2 _ hlt]
        congr 2
        omega

end Snake

namespace Snake

/-- The counter of the search: from a state with at most two solutions counted, `dfs`
restores `vis` and adds the number of tours from that state, capped at two. -/
theorem dfs_count (W H : Nat) (wall : Int → Int → Bool) :
    ∀ (fuel : Nat) (V : Finset Point) (h : Point) (s : Nat), V ⊆ openCells W H wall →
      (openCells W H wall).card - V.card < fuel → s ≤ 2 →
      dfs W H wall (openCells W H wall).card fuel h V.card ⟨visOf V, s⟩ =
        some ⟨visOf V, min 2 (s + (tours W H wall fuel V h).length)⟩ := by
  intro fuel
  induction fuel with
  | zero => intro V h s _ hlt _; omega
  | succ k ih =>
    intro V h s hV hlt hs
    rw [dfs]
    by_cases h2 : s ≥ 2
    · simp only [h2, if_true]
      congr 2
      omega
    · simp only [h2, if_false]
      by_cases hc : V.card = (openCells W H wall).card
      · simp only [hc, if_true, tours, List.length_singleton]
        congr 2
        omega
      · simp only [hc, if_false, tours]
        rw [moves_eq]
        apply movesLoop_count W H wall _ k V h _ Dirs (fun d hd => hd) s (by omega)
        intro d hd h0 s2 hs2
        have hsub : V ∪ sweptCells h d (runLen W H wall V h d) ⊆ openCells W H wall := by
          apply Finset.union_subset hV
          intro p hp
          exact (swept_not_mem W H wall V h d hd p hp).1
        have hcard := card_union_swept W H wall V h d hd
        have hle := Finset.card_le_card hsub
        exact ih _ _ s2 hsub (by omega) hs2

theorem tour_of_covered (W H : Nat) (wall : Int → Int → Bool) (V : Finset Point) (h : Point)
    (hV : V ⊆ openCells W H wall) (hc : V.card = (openCells W H wall).card)
    (ds : List Point) : Tour W H wall V h ds ↔ ds = [] := by
  have heq : V = openCells W H wall := Finset.eq_of_subset_of_card_le hV (by omega)
  constructor
  · intro ht
    cases ht with
    | done => rfl
    | move _ _ d n ds hm _ =>
      obtain ⟨_, h1, hfree, _⟩ := hm
      obtain ⟨hb, hw, hv⟩ := hfree 1 (le_refl _) h1
      exact absurd (heq ▸ (mem_openCells W H wall _).2 ⟨hb, hw⟩) hv
  · rintro rfl
    apply Tour.done
    intro p hb hw
    rw [heq]
    exact (mem_openCells W H wall p).2 ⟨hb, hw⟩

theorem not_done_of_card (W H : Nat) (wall : Int → Int → Bool) (V : Finset Point)
    (hV : V ⊆ openCells W H wall) (hc : V.card ≠ (openCells W H wall).card) :
    ¬ ∀ p : Point, inBounds W H p = true → wall p.y p.x = false → p ∈ V := by
  intro hall
  apply hc
  congr 1
  apply Finset.Subset.antisymm hV
  intro p hp
  obtain ⟨hb, hw⟩ := (mem_openCells W H wall p).1 hp
  exact hall p hb hw

theorem mem_tours (W H : Nat) (wall : Int → Int → Bool) :
    ∀ (fuel : Nat) (V : Finset Point) (h : Point) (ds : List Point),
      V ⊆ openCells W H wall → (openCells W H wall).card - V.card < fuel →
      (ds ∈ tours W H wall fuel V h ↔ Tour W H wall V h ds) := by
  intro fuel
  induction fuel with
  | zero => intro V h ds _ hlt; omega
  | succ k ih =>
    intro V h ds hV hlt
    rw [tours]
    by_cases hc : V.card = (openCells W H wall).card
    · simp only [hc, if_true, List.mem_singleton]
      exact (tour_of_covered W H wall V h hV hc ds).symm
    · simp only [hc, if_false, List.mem_flatMap]
      constructor
      · rintro ⟨d, hd, hm⟩
        by_cases h0 : runLen W H wall V h d = 0
        · simp [h0] at hm
        · simp only [h0, if_false, List.mem_map] at hm
          obtain ⟨ds2, hds2, rfl⟩ := hm
          have hsub : V ∪ sweptCells h d (runLen W H wall V h d) ⊆ openCells W H wall := by
            apply Finset.union_subset hV
            intro p hp
            exact (swept_not_mem W H wall V h d hd p hp).1
          have hcard := card_union_swept W H wall V h d hd
          have hle := Finset.card_le_card hsub
          exact Tour.move V h d _ ds2
            ((isMove_iff W H wall V h d _).2 ⟨hd, by omega, rfl⟩)
            ((ih _ _ ds2 hsub (by omega)).1 hds2)
      · intro ht
        cases ht with
        | done _ _ hall => exact absurd hall (not_done_of_card W H wall V hV hc)
        | move _ _ d n ds2 hm ht2 =>
          obtain ⟨hd, h1, rfl⟩ := (isMove_iff W H wall V h d n).1 hm
          have hsub : V ∪ sweptCells h d (runLen W H wall V h d) ⊆ openCells W H wall := by
            apply Finset.union_subset hV
            intro p hp
            exact (swept_not_mem W H wall V h d hd p hp).1
          have hcard := card_union_swept W H wall V h d hd
          have hle := Finset.card_le_card hsub
          refine ⟨d, hd, ?_⟩
          rw [if_neg (by omega), List.mem_map]
          exact ⟨ds2, (ih _ _ ds2 hsub (by omega)).2 ht2, rfl⟩

theorem nodup_tours (W H : Nat) (wall : Int → Int → Bool) :
    ∀ (fuel : Nat) (V : Finset Point) (h : Point), (tours W H wall fuel V h).Nodup := by
  intro fuel
  induction fuel with
  | zero => intro V h; simp [tours]
  | succ k ih =>
    intro V h
    rw [tours]
    split
    · simp
    · rw [List.nodup_flatMap]
      constructor
      · intro d _
        split
        · exact List.nodup_nil
        · exact (ih _ _).map (fun a b hab => (List.cons.inj hab).2)
      · have hnd : Dirs.Nodup := by decide
        apply List.Pairwise.imp _ hnd
        intro a b hab
        simp only [Function.onFun, List.disjoint_left]
        intro ds h1 h2
        split at h1
        · cases h1
        · split at h2
          · cases h2
          · rw [List.mem_map] at h1 h2
            obtain ⟨_, _, rfl⟩ := h1
            obtain ⟨_, _, e⟩ := h2
            exact hab (List.cons.inj e).1.symm

end Snake

namespace Snake

theorem charAt_isSome (W H : Nat) (rows : List (List Char)) (hsz : WellSized W H rows) :
    ∀ c ∈ cells W H, (charAt rows c.1.toNat c.2.toNat).isSome = true := by
  rintro ⟨y, x⟩ hc
  rw [mem_cells] at hc
  obtain ⟨hlen, hrow⟩ := hsz
  have hy : y.toNat < rows.length := by omega
  unfold charAt
  rw [List.getElem?_eq_getElem hy]
  have hx : x.toNat < (rows[y.toNat]).length := by
    rw [hrow _ (List.getElem_mem hy)]
    omega
  simp only [Option.some_bind]
  rw [List.getElem?_eq_getElem hx]
  rfl

theorem scan_total (rows : List (List Char)) :
    ∀ (l : List (Int × Int)) (st : Scan),
      (∀ c ∈ l, (charAt rows c.1.toNat c.2.toNat).isSome = true) →
      ∃ sc, l.foldlM (scanCell rows) st = some sc := by
  intro l
  induction l with
  | nil => intro st _; exact ⟨st, rfl⟩
  | cons a l ih =>
    intro st h
    rw [List.foldlM_cons]
    obtain ⟨ch, hch⟩ := Option.isSome_iff_exists.1 (h a (List.mem_cons_self _ _))
    have hl : ∀ c ∈ l, (charAt rows c.1.toNat c.2.toNat).isSome = true :=
      fun c hc => h c (List.mem_cons_of_mem _ hc)
    by_cases hw : ch = '#'
    · have : scanCell rows st a = some { st with wall := setGrid st.wall a.1 a.2 true } := by
        simp [scanCell, hch, hw]
      rw [this]
      exact ih _ hl
    · have : scanCell rows st a = some { st with
          nonWall := st.nonWall + 1
          start := if ch = 'S' then ⟨a.2, a.1⟩ else st.start } := by
        simp [scanCell, hch, hw]
      rw [this]
      exact ih _ hl

/-- What the double loop over well-sized rows computes, from a scan state without walls. -/
theorem scanRows_spec (W H : Nat) (rows : List (List Char)) (hsz : WellSized W H rows)
    (p0 : Point) :
    ∃ sc, scanRows W H rows ⟨fun _ _ => false, p0, 0⟩ = some sc ∧
      sc.wall = wallOf W H rows ∧
      sc.nonWall = (openCells W H (wallOf W H rows)).card ∧
      sc.start = (startOf W H rows).getD p0 := by
  obtain ⟨sc, hsc⟩ := scan_total rows (cells W H) ⟨fun _ _ => false, p0, 0⟩
    (charAt_isSome W H rows hsz)
  obtain ⟨e1, e2, e3, e4⟩ := scan_fold rows (cells W H) _ sc hsc
  have hwall : sc.wall = wallOf W H rows := by
    funext y x
    have := e2 y x
    simp only [Bool.false_eq_true, false_or] at this
    unfold wallOf
    cases hw : sc.wall y x
    · rw [hw] at this
      simp only [Bool.false_eq_true, false_iff, not_and] at this
      by_cases hb : inBounds W H ⟨x, y⟩ = true
      · have hc : (y, x) ∈ cells W H := by
          rw [mem_cells]; rw [inBounds_iff] at hb; simp only at hb; omega
        simp [hb, this hc]
      · simp [hb]
    · rw [hw] at this
      simp only [true_iff] at this
      have hb : inBounds W H ⟨x, y⟩ = true := by
        rw [inBounds_iff]
        have := (mem_cells W H y x).1 this.1
        simp only
        omega
      simp [hb, this.2]
  refine ⟨sc, hsc, hwall, ?_, ?_⟩
  · rw [card_openCells, e1]
    simp only [Nat.zero_add]
    apply List.countP_congr
    rintro ⟨y, x⟩ hc
    have hb : inBounds W H ⟨x, y⟩ = true := by
      rw [inBounds_iff]
      have := (mem_cells W H y x).1 hc
      simp only
      omega
    simp [wallOf, hb]
  · rw [e3]
    rfl

theorem startOf_spec (W H : Nat) (rows : List (List Char)) (start : Point)
    (hS : startOf W H rows = some start) :
    inBounds W H start = true ∧ charAt rows start.y.toNat start.x.toNat = some 'S' := by
  unfold startOf at hS
  rw [Option.map_eq_some'] at hS
  obtain ⟨⟨y, x⟩, hl, rfl⟩ := hS
  have hm := List.mem_of_getLast?_eq_some hl
  rw [List.mem_filter, mem_cells] at hm
  refine ⟨?_, by simpa using hm.2⟩
  rw [inBounds_iff]
  simp only
  omega

theorem length_one_iff {α : Type} (l : List α) (hnd : l.Nodup) :
    l.length = 1 ↔ ∃! a, a ∈ l := by
  constructor
  · intro h
    match l, h with
    | [a], _ => exact ⟨a, List.mem_singleton_self a, fun b hb => List.mem_singleton.1 hb⟩
  · rintro ⟨a, ha, huniq⟩
    match l, hnd, ha, huniq with
    | [x], _, _, _ => rfl
    | x :: y :: r, hnd, _, huniq =>
      have hx := huniq x (List.mem_cons_self _ _)
      have hy := huniq y (List.mem_cons_of_mem _ (List.mem_cons_self _ _))
      rw [List.nodup_cons] at hnd
      exact absurd (hx.trans hy.symm ▸ List.mem_cons_self _ _) hnd.1

/-- The verifier on well-sized rows with a start marker: the counter ends at the number
of solutions capped at two, the solutions being listed without repetition by `tours`. -/
theorem countSolutions_eq (W H : Nat) (rows : List (List Char)) (hsz : WellSized W H rows)
    (start : Point) (hS : startOf W H rows = some start) :
    countSolutions W H rows =
      some (min 2 (tours W H (wallOf W H rows) (W * H + 1) {start} start).length) ∧
    (tours W H (wallOf W H rows) (W * H + 1) {start} start).Nodup ∧
    ∀ ds, ds ∈ tours W H (wallOf W H rows) (W * H + 1) {start} start ↔
      IsSolution W H rows start ds := by
  obtain ⟨sc, hsc, hwall, hnw, hst⟩ := scanRows_spec W H rows hsz ⟨0, 0⟩
  rw [hS] at hst
  simp only [Option.getD_some] at hst
  obtain ⟨hb, hch⟩ := startOf_spec W H rows start hS
  have hopen : start ∈ openCells W H (wallOf W H rows) := by
    rw [mem_openCells]
    refine ⟨hb, ?_⟩
    simp [wallOf, hch]
  have hsub : ({start} : Finset Point) ⊆ openCells W H (wallOf W H rows) :=
    Finset.singleton_subset_iff.2 hopen
  have hfuel : (openCells W H (wallOf W H rows)).card - ({start} : Finset Point).card
      < W * H + 1 := by
    have := card_openCells_le W H (wallOf W H rows)
    omega
  have hvis : setGrid (fun _ _ => false) start.y start.x true = visOf {start} := by
    funext y x
    simp only [setGrid_apply, visOf, Finset.mem_singleton]
    by_cases h : y = start.y ∧ x = start.x
    · have : (⟨x, y⟩ : Point) = start := by cases start; simp_all
      simp [h, this]
    · have : (⟨x, y⟩ : Point) ≠ start := by
        intro e
        apply h
        rw [← e]
        exact ⟨rfl, rfl⟩
      simp [h, this]
  refine ⟨?_, nodup_tours W H _ _ _ _, fun ds => mem_tours W H _ _ _ _ ds hsub hfuel⟩
  unfold countSolutions
  rw [hsc]
  simp only [hst, hb, if_true, hwall, hnw, hvis]
  have h1 := dfs_count W H (wallOf W H rows) (W * H + 1) {start} start 0 hsub hfuel (by omega)
  rw [Finset.card_singleton] at h1
  rw [h1]
  simp

end Snake

namespace Snake

/-- C2: for a 6x6 row layout with a start marker (the start being the last `S` in
row-major order), the solutions, that is the sequences of legal sliding moves from the
start after which every non-wall cell is visited, are finitely many, listed without
repetition by `sols`; the counter of the verifier ends at `min 2 (number of solutions)`,
and `isUniqueSolution` returns true exactly when there is exactly one solution. -/
theorem unique_iff_one_tour (rows : List (List Char)) (hsz : WellSized 6 6 rows)
    (start : Point) (hS : startOf 6 6 rows = some start) :
    (∃ sols : List (List Point), sols.Nodup ∧
      (∀ ds, ds ∈ sols ↔ IsSolution 6 6 rows start ds) ∧
      countSolutions 6 6 rows = some (min 2 sols.length)) ∧
    (isUniqueSolution 6 6 rows = some true ↔ ∃! ds, IsSolution 6 6 rows start ds) := by
  obtain ⟨hcount, hnd, hmem⟩ := countSolutions_eq 6 6 rows hsz start hS
  refine ⟨⟨_, hnd, hmem, hcount⟩, ?_⟩
  unfold isUniqueSolution
  rw [hcount]
  simp only [Option.map_some', Option.some.injEq, beq_iff_eq]
  have hiff : (∃! ds, IsSolution 6 6 rows start ds) ↔
      ∃! ds, ds ∈ tours 6 6 (wallOf 6 6 rows) (6 * 6 + 1) {start} start := by
    apply existsUnique_congr
    intro ds
    exact (hmem ds).symm
  rw [hiff, ← length_one_iff _ hnd]
  omega

theorem unique_iff_one_tour_witness :
    WellSized 6 6 rowsSix ∧ startOf 6 6 rowsSix = some ⟨0, 0⟩ ∧
      ∃! ds, IsSolution 6 6 rowsSix ⟨0, 0⟩ ds := by
  have hsz : WellSized 6 6 rowsSix := ⟨rfl, by decide⟩
  have hS : startOf 6 6 rowsSix = some ⟨0, 0⟩ := by decide!
  have hu : isUniqueSolution 6 6 rowsSix = some true := by decide!
  exact ⟨hsz, hS, (unique_iff_one_tour rowsSix hsz ⟨0, 0⟩ hS).2.1 hu⟩

end Snake

namespace Snake

/-! ## The generator -/

theorem charAt_setChar (g : List (List Char)) (y x : Nat) (c : Char) (y2 x2 : Nat) :
    charAt (setChar g y x c) y2 x2 =
      if y2 = y ∧ x2 = x ∧ (charAt g y x).isSome = true then some c else charAt g y2 x2 := by
  unfold charAt setChar
  rw [List.getElem?_set]
  by_cases hy : y = y2
  · subst hy
    by_cases hlen : y < g.length
    · simp only [hlen, if_true, Option.some_bind, List.getElem?_eq_getElem hlen,
        List.getD_eq_getElem?_getD, Option.getD_some]
      rw [List.getElem?_set]
      by_cases hx : x = x2
      · subst hx
        by_cases hxl : x < (g[y]).length
        · simp [hxl]
        · have : (g[y])[x]? = none := List.getElem?_eq_none (by omega)
          simp [hxl, this]
      · have : ¬ (x2 = x) := fun e => hx e.symm
        simp [hx, this]
    · have : g[y]? = none := List.getElem?_eq_none (by omega)
      simp [hlen, this]
  · have : ¬ (y2 = y) := fun e => hy e.symm
    simp [hy, this]

theorem wellSized_setChar (W H : Nat) (g : List (List Char)) (y x : Nat) (c : Char)
    (h : WellSized W H g) : WellSized W H (setChar g y x c) := by
  unfold setChar
  by_cases hy : y < g.length
  · obtain ⟨hl, hr⟩ := h
    refine ⟨by rw [List.length_set]; exact hl, ?_⟩
    intro row hrow
    rcases List.mem_or_eq_of_mem_set hrow with h1 | h1
    · exact hr row h1
    · subst h1
      rw [List.length_set, List.getD_eq_getElem _ _ hy]
      exact hr _ (List.getElem_mem hy)
  · rw [List.set_eq_of_length_le (by omega)]
    exact h

theorem countP_lt_of {α : Type} (p q : α → Bool) (l : List α)
    (himp : ∀ x ∈ l, q x = true → p x = true) (a : α) (ha : a ∈ l) (hpa : p a = true)
    (hqa : q a = false) : l.countP q < l.countP p := by
  induction l with
  | nil => cases ha
  | cons b l ih =>
    have himp2 : ∀ x ∈ l, q x = true → p x = true :=
      fun x hx => himp x (List.mem_cons_of_mem _ hx)
    have hle : l.countP q ≤ l.countP p := List.countP_mono_left himp2
    rw [List.countP_cons, List.countP_cons]
    rcases List.mem_cons.1 ha with rfl | ha2
    · simp only [hpa, hqa, if_true, if_false, Bool.false_eq_true]
      omega
    · have := ih himp2 ha2
      have hb := himp b (List.mem_cons_self _ _)
      cases hqb : q b
      · simp only [Bool.false_eq_true, if_false]
        split <;> omega
      · simp only [hb hqb, if_true]
        omega

theorem wallCount_setChar_le (W H : Nat) (g : List (List Char)) (y x : Nat) :
    wallCount W H (setChar g y x '.') ≤ wallCount W H g := by
  unfold wallCount
  apply List.countP_mono_left
  intro c _ hc
  rw [charAt_setChar] at hc
  split at hc
  · simp at hc
  · exact hc

theorem wallCount_setChar_lt (W H : Nat) (g : List (List Char)) (p : Point)
    (hb : inBounds W H p = true) (hw : charAt g p.y.toNat p.x.toNat = some '#') :
    wallCount W H (setChar g p.y.toNat p.x.toNat '.') < wallCount W H g := by
  unfold wallCount
  rw [inBounds_iff] at hb
  apply countP_lt_of _ _ _ _ (p.y, p.x) (by rw [mem_cells]; omega)
  · simp [hw]
  · rw [charAt_setChar]
    simp [hw]
  · intro c _ hc
    rw [charAt_setChar] at hc
    split at hc
    · simp at hc
    · exact hc

end Snake

namespace Snake

theorem wallRun_spec (W H : Nat) (g : List (List Char)) (d : Point) :
    ∀ (fuel : Nat) (cur : Point) (j : Nat), j < wallRun W H g d fuel cur →
      inBounds W H (stepTo cur d j) = true ∧
      charAt g (stepTo cur d j).y.toNat (stepTo cur d j).x.toNat = some '#' := by
  intro fuel
  induction fuel with
  | zero => intro cur j hj; simp [wallRun] at hj
  | succ k ih =>
    intro cur j hj
    unfold wallRun at hj
    by_cases hc : (inBounds W H cur && (charAt g cur.y.toNat cur.x.toNat == some '#')) = true
    · rw [if_pos hc] at hj
      rcases Nat.eq_zero_or_pos j with h0 | h0
      · subst h0
        rw [stepTo_zero]
        simpa using hc
      · have := ih (cur + d) (j - 1) (by omega)
        rw [stepTo_succ] at this
        have e : j - 1 + 1 = j := by omega
        rw [e] at this
        exact this
    · rw [if_neg hc] at hj
      omega

theorem randomInt_range (v lo hi : Nat) (h : lo ≤ hi) :
    lo ≤ randomInt v lo hi ∧ randomInt v lo hi ≤ hi := by
  unfold randomInt
  have := Nat.mod_lt v (show 0 < hi - lo + 1 by omega)
  omega

theorem carveCells_spec (W H : Nat) (d : Point) :
    ∀ (L : Nat) (p : Point) (c : Carve), WellSized W H c.g →
      WellSized W H (carveCells d L p c).g ∧
      wallCount W H (carveCells d L p c).g ≤ wallCount W H c.g ∧
      (1 ≤ L → (carveCells d L p c).carved.getLastD ⟨0, 0⟩ = stepTo p d L) ∧
      (L = 0 → (carveCells d L p c).carved = c.carved) := by
  intro L
  induction L with
  | zero =>
    intro p c h
    exact ⟨h, le_refl _, fun h1 => absurd h1 (by omega), fun _ => rfl⟩
  | succ k ih =>
    intro p c h
    rw [carveCells]
    have h2 : WellSized W H (setChar c.g (p + d).y.toNat (p + d).x.toNat '.') :=
      wellSized_setChar W H _ _ _ _ h
    obtain ⟨i1, i2, i3, i4⟩ := ih (p + d)
      ⟨setChar c.g (p + d).y.toNat (p + d).x.toNat '.', c.carved ++ [p + d]⟩ h2
    refine ⟨i1, le_trans i2 (wallCount_setChar_le W H _ _ _), fun _ => ?_,
      fun h0 => absurd h0 (by omega)⟩
    rcases Nat.eq_zero_or_pos k with hk | hk
    · subst hk
      rw [i4 rfl]
      simp only [List.getLastD_concat]
      rw [← stepTo_one]
    · rw [i3 hk, stepTo_succ]

theorem carveCells_lt (W H : Nat) (d : Point) (L : Nat) (hL : 1 ≤ L) (p : Point) (c : Carve)
    (hb : inBounds W H (p + d) = true)
    (hw : charAt c.g (p + d).y.toNat (p + d).x.toNat = some '#') (h : WellSized W H c.g) :
    wallCount W H (carveCells d L p c).g < wallCount W H c.g := by
  obtain ⟨k, rfl⟩ : ∃ k, L = k + 1 := ⟨L - 1, by omega⟩
  rw [carveCells]
  have h2 : WellSized W H (setChar c.g (p + d).y.toNat (p + d).x.toNat '.') :=
    wellSized_setChar W H _ _ _ _ h
  obtain ⟨_, i2, _, _⟩ := carveCells_spec W H d k (p + d)
    ⟨setChar c.g (p + d).y.toNat (p + d).x.toNat '.', c.carved ++ [p + d]⟩ h2
  exact lt_of_le_of_lt i2 (wallCount_setChar_lt W H c.g (p + d) hb hw)

theorem tryDirs_spec (W H : Nat) (v : Nat) :
    ∀ (ds : List Point) (c c2 : Carve), CarveInv W H c → tryDirs W H v ds c = some c2 →
      CarveInv W H c2 ∧ wallCount W H c2.g < wallCount W H c.g := by
  intro ds
  induction ds with
  | nil => intro c c2 _ h; simp [tryDirs] at h
  | cons d ds ih =>
    intro c c2 hinv h
    unfold tryDirs at h
    simp only at h
    by_cases h0 : wallRun W H c.g d (W + H) (c.carved.getLastD ⟨0, 0⟩ + d) = 0
    · rw [if_pos h0] at h
      exact ih c c2 hinv h
    · rw [if_neg h0] at h
      simp only [Option.some.injEq] at h
      subst h
      have hr := randomInt_range v 1 (wallRun W H c.g d (W + H) (c.carved.getLastD ⟨0, 0⟩ + d))
        (by omega)
      have hfirst := wallRun_spec W H c.g d (W + H) (c.carved.getLastD ⟨0, 0⟩ + d) 0 (by omega)
      rw [stepTo_zero] at hfirst
      obtain ⟨i1, _, i3, _⟩ := carveCells_spec W H d
        (randomInt v 1 (wallRun W H c.g d (W + H) (c.carved.getLastD ⟨0, 0⟩ + d)))
        (c.carved.getLastD ⟨0, 0⟩) c hinv.1
      refine ⟨⟨i1, ?_⟩, carveCells_lt W H d _ hr.1 _ c hfirst.1 hfirst.2 hinv.1⟩
      rw [i3 hr.1]
      have := (wallRun_spec W H c.g d (W + H) (c.carved.getLastD ⟨0, 0⟩ + d)
        (randomInt v 1 (wallRun W H c.g d (W + H) (c.carved.getLastD ⟨0, 0⟩ + d)) - 1)
        (by omega)).1
      rw [stepTo_succ] at this
      have e : randomInt v 1 (wallRun W H c.g d (W + H) (c.carved.getLastD ⟨0, 0⟩ + d)) - 1 + 1
          = randomInt v 1 (wallRun W H c.g d (W + H) (c.carved.getLastD ⟨0, 0⟩ + d)) := by
        omega
      rw [e] at this
      exact this

/-- The carving loop ends within its fuel: each iteration either carves a wall or
raises `stuck`. -/
theorem carveLoop_total (W H : Nat) :
    ∀ (fuel stuck : Nat) (c : Carve) (r : Nat → Nat), CarveInv W H c →
      wallCount W H c.g + (12 - stuck) ≤ fuel →
      ∃ c2 r2, carveLoop W H fuel stuck c r = some (c2, r2) ∧ CarveInv W H c2 := by
  intro fuel
  induction fuel with
  | zero =>
    intro stuck c r hinv hm
    refine ⟨c, r, ?_, hinv⟩
    unfold carveLoop
    rw [if_neg (by omega)]
  | succ k ih =>
    intro stuck c r hinv hm
    unfold carveLoop
    by_cases hs : stuck < 12
    · rw [if_pos hs]
      cases ht : tryDirs W H (r 1) (shuffle (r 0) Dirs) c with
      | none =>
        simp only
        exact ih (stuck + 1) c _ hinv (by omega)
      | some c2 =>
        simp only
        obtain ⟨hinv2, hlt⟩ := tryDirs_spec W H (r 1) _ c c2 hinv ht
        exact ih stuck c2 _ hinv2 (by omega)
    · rw [if_neg hs]
      exact ⟨c, r, rfl, hinv⟩

end Snake

namespace Snake

theorem startOf_isSome (W H : Nat) (rows : List (List Char)) (p : Point)
    (hb : inBounds W H p = true) (hS : charAt rows p.y.toNat p.x.toNat = some 'S') :
    ∃ start, startOf W H rows = some start := by
  unfold startOf
  have hm : (p.y, p.x) ∈ (cells W H).filter
      (fun c => charAt rows c.1.toNat c.2.toNat == some 'S') := by
    rw [List.mem_filter, mem_cells]
    rw [inBounds_iff] at hb
    exact ⟨by omega, by simp [hS]⟩
  cases hl : ((cells W H).filter
      (fun c => charAt rows c.1.toNat c.2.toNat == some 'S')).getLast? with
  | none =>
    rw [List.getLast?_eq_none_iff] at hl
    rw [hl] at hm
    cases hm
  | some c => exact ⟨_, rfl⟩

theorem countNonWall_setChar_ge (W H : Nat) (g : List (List Char)) (y x : Nat) :
    countNonWall W H g ≤ countNonWall W H (setChar g y x 'S') := by
  unfold countNonWall
  apply List.countP_mono_left
  intro c _ hc
  rw [charAt_setChar]
  split
  · simp
  · exact hc

/-- On a grid with at least one cell `generateOnce` returns, and the rows it writes
have the size of the grid, hold a start marker and pass the coverage test. -/
theorem generateOnce_spec (W H : Nat) (hW : 0 < W) (hH : 0 < H) (ratio : ℚ) (r : Nat → Nat) :
    ∃ res r2, generateOnce W H ratio r = some (res, r2) ∧
      ∀ rows, res = some rows → WellSized W H rows ∧
        (∃ start, startOf W H rows = some start) ∧
        truncToInt (ratio * ((W * H : Nat) : ℚ)) ≤ (countNonWall W H rows : Int) := by
  have hg0 : WellSized W H (List.replicate H (List.replicate W '#')) := by
    refine ⟨List.length_replicate _ _, ?_⟩
    intro row hrow
    rw [List.eq_of_mem_replicate hrow, List.length_replicate]
  have hgx := randomInt_range (r 0) 0 (W - 1) (by omega)
  have hgy := randomInt_range (r 1) 0 (H - 1) (by omega)
  have hinv0 : CarveInv W H
      ⟨setChar (List.replicate H (List.replicate W '#'))
        (Point.mk (randomInt (r 0) 0 (W - 1) : Nat) (randomInt (r 1) 0 (H - 1) : Nat)).y.toNat
        (Point.mk (randomInt (r 0) 0 (W - 1) : Nat) (randomInt (r 1) 0 (H - 1) : Nat)).x.toNat
        '.',
       [Point.mk (randomInt (r 0) 0 (W - 1) : Nat) (randomInt (r 1) 0 (H - 1) : Nat)]⟩ := by
    refine ⟨wellSized_setChar W H _ _ _ _ hg0, ?_⟩
    simp only [List.getLastD_cons, List.getLastD_nil]
    rw [inBounds_iff]
    simp only
    omega
  have hm : wallCount W H (setChar (List.replicate H (List.replicate W '#'))
      (Point.mk (randomInt (r 0) 0 (W - 1) : Nat) (randomInt (r 1) 0 (H - 1) : Nat)).y.toNat
      (Point.mk (randomInt (r 0) 0 (W - 1) : Nat) (randomInt (r 1) 0 (H - 1) : Nat)).x.toNat
      '.') + (12 - 0) ≤ W * H + 12 := by
    have : wallCount W H (setChar (List.replicate H (List.replicate W '#'))
      (Point.mk (randomInt (r 0) 0 (W - 1) : Nat) (randomInt (r 1) 0 (H - 1) : Nat)).y.toNat
      (Point.mk (randomInt (r 0) 0 (W - 1) : Nat) (randomInt (r 1) 0 (H - 1) : Nat)).x.toNat
      '.') ≤ (cells W H).length := List.countP_le_length _
    rw [length_cells, Nat.mul_comm] at this
    omega
  obtain ⟨c, r2, hloop, hinv⟩ := carveLoop_total W H (W * H + 12) 0 _ (fun n => r (n + 2))
    hinv0 hm
  unfold generateOnce
  simp only [hloop]
  by_cases hcov : (countNonWall W H c.g : Int) < truncToInt (ratio * ((W * H : Nat) : ℚ))
  · rw [if_pos hcov]
    exact ⟨none, r2, rfl, fun rows h => by cases h⟩
  · rw [if_neg hcov]
    refine ⟨_, r2, rfl, ?_⟩
    intro rows hrows
    simp only [Option.some.injEq] at hrows
    subst hrows
    refine ⟨wellSized_setChar W H _ _ _ _ hinv.1, ?_, ?_⟩
    · apply startOf_isSome W H _ (c.carved.getLastD ⟨0, 0⟩) hinv.2
      rw [charAt_setChar]
      have hsome := charAt_isSome W H c.g hinv.1
        ((c.carved.getLastD ⟨0, 0⟩).y, (c.carved.getLastD ⟨0, 0⟩).x)
        (by rw [mem_cells]; have := (inBounds_iff W H _).1 hinv.2; omega)
      simp only at hsome
      rw [if_pos ⟨rfl, rfl, hsome⟩]
    · have := countNonWall_setChar_ge W H c.g (c.carved.getLastD ⟨0, 0⟩).y.toNat
        (c.carved.getLastD ⟨0, 0⟩).x.toNat
      omega

end Snake

namespace Snake

theorem setFromRows_total (W H : Nat) (b : Board) (rows : List (List Char))
    (hsz : WellSized W H rows) (start : Point) (hS : startOf W H rows = some start) :
    ∃ b2, setFromRows W H b rows = some b2 ∧ b2.start = start ∧
      b2.wall = wallOf W H rows := by
  obtain ⟨sc, hsc, hwall, _, hst⟩ := scanRows_spec W H rows hsz b.start
  rw [hS] at hst
  simp only [Option.getD_some] at hst
  obtain ⟨hb, _⟩ := startOf_spec W H rows start hS
  refine ⟨Board.mk sc.wall (setGrid (fun _ _ => false) sc.start.y sc.start.x true)
    sc.start sc.start sc.nonWall, ?_, hst, hwall⟩
  unfold setFromRows
  rw [hsc]
  simp only [hst, hb, if_true]

theorem isUniqueSolution_total (W H : Nat) (rows : List (List Char))
    (hsz : WellSized W H rows) (start : Point) (hS : startOf W H rows = some start) :
    ∃ u, isUniqueSolution W H rows = some u := by
  unfold isUniqueSolution
  rw [(countSolutions_eq W H rows hsz start hS).1]
  exact ⟨_, rfl⟩

theorem attemptRng_succ (W H : Nat) (ratio : ℚ) (r : Nat → Nat) :
    ∀ k, attemptRng W H ratio r (k + 1) =
      attemptRng W H ratio (attemptRng W H ratio r 1) k := by
  intro k
  induction k with
  | zero => rfl
  | succ k ih =>
    rw [attemptRng, ih]
    rfl

theorem passing_succ (W H : Nat) (ratio : ℚ) (r : Nat → Nat) (k : Nat) :
    passing W H ratio r (k + 1) = passing W H ratio (attemptRng W H ratio r 1) k := by
  unfold passing
  rw [attemptRng_succ]

/-- The retry loop on a grid with at least one cell: it returns; the counter `t` grows
by at most `left`; without a passing attempt it returns false after `left` more
attempts and with the board untouched; otherwise it returns true right after the first
passing attempt, with the board `setFromRows` makes of that candidate. -/
theorem generateLoop_spec (W H : Nat) (hW : 0 < W) (hH : 0 < H) (ratio : ℚ) (b : Board) :
    ∀ (left t : Nat) (r : Nat → Nat),
      ∃ g, generateLoop W H ratio b left t r = some g ∧ t ≤ g.tries ∧ g.tries ≤ t + left ∧
        ((∀ k, k < left → passing W H ratio r k = none) →
          g.ok = false ∧ g.tries = t + left ∧ g.board = b) ∧
        (∀ k rows, k < left → passing W H ratio r k = some rows →
          (∀ j, j < k → passing W H ratio r j = none) →
          g.ok = true ∧ g.tries = t + k + 1 ∧ setFromRows W H b rows = some g.board) ∧
        (g.ok = true → ∃ rows start, WellSized W H rows ∧ startOf W H rows = some start ∧
          isUniqueSolution W H rows = some true ∧
          setFromRows W H b rows = some g.board) := by
  intro left
  induction left with
  | zero =>
    intro t r
    refine ⟨⟨false, b, t, r⟩, rfl, le_refl _, le_refl _, fun _ => ⟨rfl, rfl, rfl⟩, ?_, ?_⟩
    · intro k rows hk
      omega
    · intro h
      cases h
  | succ n ih =>
    intro t r
    obtain ⟨res, r2, hgen, hres⟩ := generateOnce_spec W H hW hH ratio r
    have hr1 : attemptRng W H ratio r 1 = r2 := by
      simp [attemptRng, hgen]
    have hp0 : passing W H ratio r 0 = match res with
        | some rows => if isUniqueSolution W H rows = some true then some rows else none
        | none => none := by
      unfold passing
      simp only [attemptRng, hgen]
      cases res <;> rfl
    -- the case where attempt 0 does not pass
    have hfail : passing W H ratio r 0 = none →
        generateLoop W H ratio b (n + 1) t r = generateLoop W H ratio b n (t + 1) r2 →
        ∃ g, generateLoop W H ratio b (n + 1) t r = some g ∧ t ≤ g.tries ∧
          g.tries ≤ t + (n + 1) ∧
          ((∀ k, k < n + 1 → passing W H ratio r k = none) →
            g.ok = false ∧ g.tries = t + (n + 1) ∧ g.board = b) ∧
          (∀ k rows, k < n + 1 → passing W H ratio r k = some rows →
            (∀ j, j < k → passing W H ratio r j = none) →
            g.ok = true ∧ g.tries = t + k + 1 ∧ setFromRows W H b rows = some g.board) ∧
          (g.ok = true → ∃ rows start, WellSized W H rows ∧ startOf W H rows = some start ∧
            isUniqueSolution W H rows = some true ∧
            setFromRows W H b rows = some g.board) := by
      intro hp hstep
      obtain ⟨g, hg, h1, h2, h3, h4, h5⟩ := ih (t + 1) r2
      rw [hstep]
      refine ⟨g, hg, by omega, by omega, ?_, ?_, h5⟩
      · intro hall
        have := h3 (fun k hk => by
          rw [← hr1, ← passing_succ]
          exact hall (k + 1) (by omega))
        exact ⟨this.1, by omega, this.2.2⟩
      · intro k rows hk hpass hprev
        rcases Nat.eq_zero_or_pos k with h0 | h0
        · subst h0
          rw [hp] at hpass
          cases hpass
        · obtain ⟨j, rfl⟩ : ∃ j, k = j + 1 := ⟨k - 1, by omega⟩
          rw [passing_succ, hr1] at hpass
          have := h4 j rows (by omega) hpass (fun i hi => by
            rw [← hr1, ← passing_succ]
            exact hprev (i + 1) (by omega))
          exact ⟨this.1, by omega, this.2.2⟩
    cases res with
    | none =>
      apply hfail
      · rw [hp0]
      · rw [generateLoop]
        simp only [hgen]
    | some rows =>
      obtain ⟨hsz, ⟨start, hS⟩, _⟩ := hres rows rfl
      obtain ⟨u, hu⟩ := isUniqueSolution_total W H rows hsz start hS
      cases u with
      | false =>
        apply hfail
        · rw [hp0]
          simp [hu]
        · rw [generateLoop]
          simp only [hgen, hu]
      | true =>
        obtain ⟨b2, hb2, _, _⟩ := setFromRows_total W H b rows hsz start hS
        have hp : passing W H ratio r 0 = some rows := by
          rw [hp0]
          simp [hu]
        refine ⟨⟨true, b2, t + 1, r2⟩, ?_, by simp, by simp, ?_, ?_, ?_⟩
        · rw [generateLoop]
          simp only [hgen, hu, hb2, Option.map_some']
        · intro hall
          rw [hall 0 (by omega)] at hp
          cases hp
        · intro k rows2 hk hpass hprev
          rcases Nat.eq_zero_or_pos k with h0 | h0
          · subst h0
            rw [hp] at hpass
            simp only [Option.some.injEq] at hpass
            subst hpass
            exact ⟨rfl, rfl, hb2⟩
          · rw [hprev 0 h0] at hp
            cases hp
        · intro _
          exact ⟨rows, start, hsz, hS, hu, hb2⟩

end Snake

namespace Snake

/-- C6: `generateRandom` on the 6x6 board returns for every board, ratio, retry bound
and random source; it makes at most `maxReseedTries` attempts (none when the bound is
not positive); when no attempt passes both `generateOnce` and `isUniqueSolution` it
returns false after exactly `maxReseedTries` attempts and the board is the one before the
call; when attempt `k` is the first to pass, it returns true after `k + 1` attempts and
the board is what `setFromRows` makes of that candidate. -/
theorem generateRandom_bounded (b : Board) (ratio : ℚ) (maxReseedTries : Int)
    (r : Nat → Nat) :
    ∃ g, generateRandom 6 6 b ratio maxReseedTries r = some g ∧
      (g.tries : Int) ≤ max maxReseedTries 0 ∧
      (maxReseedTries ≤ 0 → g.tries = 0 ∧ g.ok = false ∧ g.board = b) ∧
      ((∀ k : Nat, (k : Int) < maxReseedTries → passing 6 6 ratio r k = none) →
        g.ok = false ∧ (g.tries : Int) = max maxReseedTries 0 ∧ g.board = b) ∧
      (∀ (k : Nat) rows, (k : Int) < maxReseedTries → passing 6 6 ratio r k = some rows →
        (∀ j : Nat, j < k → passing 6 6 ratio r j = none) →
        g.ok = true ∧ g.tries = k + 1 ∧ setFromRows 6 6 b rows = some g.board) := by
  obtain ⟨g, hg, h1, h2, h3, h4, _⟩ :=
    generateLoop_spec 6 6 (by omega) (by omega) ratio b maxReseedTries.toNat 0 r
  refine ⟨g, hg, by omega, ?_, ?_, ?_⟩
  · intro hn
    have h0 : maxReseedTries.toNat = 0 := by omega
    have := h3 (fun k hk => by omega)
    exact ⟨by omega, this.1, this.2.2⟩
  · intro hall
    have := h3 (fun k hk => hall k (by omega))
    exact ⟨this.1, by omega, this.2.2⟩
  · intro k rows hk hpass hprev
    have := h4 k rows (by omega) hpass hprev
    exact ⟨this.1, by omega, this.2.2⟩

theorem filter_eq_singleton {α : Type} [DecidableEq α] (a : α) :
    ∀ l : List α, l.Nodup → a ∈ l → l.filter (fun c => decide (c = a)) = [a] := by
  intro l
  induction l with
  | nil => intro _ h; cases h
  | cons b l ih =>
    intro hnd hm
    rw [List.nodup_cons] at hnd
    rw [List.filter_cons]
    by_cases hb : b = a
    · subst hb
      simp only [decide_True, if_true, List.cons.injEq, true_and]
      rw [List.filter_eq_nil_iff]
      intro c hc
      simp only [decide_eq_true_eq]
      rintro rfl
      exact hnd.1 hc
    · simp only [hb, decide_False, Bool.false_eq_true, if_false]
      rcases List.mem_cons.1 hm with h | h
      · exact absurd h.symm hb
      · exact ih hnd.2 h

theorem wellSized_readBack (W H : Nat) (b : Board) : WellSized W H (readBack W H b) := by
  unfold readBack
  refine ⟨by simp, ?_⟩
  intro row hrow
  rw [List.mem_map] at hrow
  obtain ⟨y, _, rfl⟩ := hrow
  simp

theorem charAt_readBack (W H : Nat) (b : Board) (y x : Nat) (hy : y < H) (hx : x < W) :
    charAt (readBack W H b) y x =
      some (if (⟨(x : Int), (y : Int)⟩ : Point) = b.start then 'S'
        else if b.wall (y : Int) (x : Int) then '#' else '.') := by
  unfold charAt readBack
  rw [List.getElem?_map, List.getElem?_range hy]
  simp only [Option.map_some', Option.some_bind]
  rw [List.getElem?_map, List.getElem?_range hx]
  rfl

theorem charAt_readBack_cell (W H : Nat) (b : Board) (y x : Int)
    (hc : (y, x) ∈ cells W H) :
    charAt (readBack W H b) y.toNat x.toNat =
      some (if (⟨x, y⟩ : Point) = b.start then 'S' else if b.wall y x then '#' else '.') := by
  rw [mem_cells] at hc
  rw [charAt_readBack W H b y.toNat x.toNat (by omega) (by omega)]
  have h1 : ((y.toNat : Nat) : Int) = y := by omega
  have h2 : ((x.toNat : Nat) : Int) = x := by omega
  rw [h1, h2]

theorem startOf_readBack (W H : Nat) (b : Board) (hb : inBounds W H b.start = true) :
    startOf W H (readBack W H b) = some b.start := by
  unfold startOf
  have hf : (cells W H).filter
      (fun c => charAt (readBack W H b) c.1.toNat c.2.toNat == some 'S') =
      (cells W H).filter (fun c => decide (c = (b.start.y, b.start.x))) := by
    apply List.filter_congr
    rintro ⟨y, x⟩ hc
    rw [charAt_readBack_cell W H b y x hc]
    by_cases h : (⟨x, y⟩ : Point) = b.start
    · have : (y, x) = (b.start.y, b.start.x) := by rw [← h]
      simp [h, this]
    · have : (y, x) ≠ (b.start.y, b.start.x) := by
        intro e
        apply h
        simp only [Prod.mk.injEq] at e
        cases hs : b.start
        rw [hs] at e
        simp only [Point.mk.injEq]
        exact ⟨e.2, e.1⟩
      by_cases hw : b.wall y x = true
      · simp [h, this, hw]
      · simp [h, this, hw]
  rw [hf, filter_eq_singleton _ _ (nodup_cells W H)
    (by rw [mem_cells]; have := (inBounds_iff W H _).1 hb; omega)]
  rfl

theorem wallOf_readBack (W H : Nat) (b : Board) (rows : List (List Char))
    (hw : b.wall = wallOf W H rows)
    (hS : charAt rows b.start.y.toNat b.start.x.toNat = some 'S') :
    wallOf W H (readBack W H b) = wallOf W H rows := by
  funext y x
  by_cases hb : inBounds W H ⟨x, y⟩ = true
  · have hc : (y, x) ∈ cells W H := by
      rw [mem_cells]; have := (inBounds_iff W H _).1 hb; simp only at this; omega
    have e1 : wallOf W H (readBack W H b) y x =
        decide (charAt (readBack W H b) y.toNat x.toNat = some '#') := by
      simp [wallOf, hb]
    rw [e1, charAt_readBack_cell W H b y x hc]
    by_cases h : (⟨x, y⟩ : Point) = b.start
    · have e2 : wallOf W H rows y x = false := by
        have hy : y = b.start.y := by rw [← h]
        have hx : x = b.start.x := by rw [← h]
        simp [wallOf, hy, hx, hS]
      simp [h, e2]
    · rw [← hw]
      by_cases hwall : b.wall y x = true
      · simp [h, hwall]
      · simp [h, hwall]
  · simp [wallOf, hb]

/-- C3: whenever `generateRandom` returns true, `isUniqueSolution` run on the layout read
back from the committed board (its walls, with `S` on `board.start`) returns true. -/
theorem committed_board_unique (b : Board) (ratio : ℚ) (maxReseedTries : Int)
    (r : Nat → Nat) (g : Generated)
    (hg : generateRandom 6 6 b ratio maxReseedTries r = some g) (hok : g.ok = true) :
    isUniqueSolution 6 6 (readBack 6 6 g.board) = some true := by
  obtain ⟨g2, hg2, _, _, _, _, h5⟩ :=
    generateLoop_spec 6 6 (by omega) (by omega) ratio b maxReseedTries.toNat 0 r
  have e : g2 = g := by
    unfold generateRandom at hg
    rw [hg2] at hg
    exact Option.some.inj hg
  subst e
  obtain ⟨rows, start, hsz, hS, hu, hset⟩ := h5 hok
  obtain ⟨b2, hb2, hstart, hwall⟩ := setFromRows_total 6 6 b rows hsz start hS
  rw [hset] at hb2
  have eb : g2.board = b2 := Option.some.inj hb2
  obtain ⟨hin, hch⟩ := startOf_spec 6 6 rows start hS
  have hstart2 : g2.board.start = start := by rw [eb]; exact hstart
  have hwall2 : g2.board.wall = wallOf 6 6 rows := by rw [eb]; exact hwall
  have hS2 : startOf 6 6 (readBack 6 6 g2.board) = some start := by
    rw [startOf_readBack 6 6 g2.board (by rw [hstart2]; exact hin), hstart2]
  have hw2 : wallOf 6 6 (readBack 6 6 g2.board) = wallOf 6 6 rows :=
    wallOf_readBack 6 6 g2.board rows hwall2 (by rw [hstart2]; exact hch)
  have c1 := (countSolutions_eq 6 6 rows hsz start hS).1
  have c2 := (countSolutions_eq 6 6 (readBack 6 6 g2.board) (wellSized_readBack 6 6 _)
    start hS2).1
  rw [hw2] at c2
  unfold isUniqueSolution at hu ⊢
  rw [c2, ← c1]
  exact hu

end Snake

namespace Snake

theorem committed_board_unique_witness :
    ∃ g, generateRandom 6 6 Board.empty (18 / 25) 1 (tape draws25) = some g ∧ g.ok = true ∧
      isUniqueSolution 6 6 (readBack 6 6 g.board) = some true := by
  have hs : (generateRandom 6 6 Board.empty (18 / 25) 1 (tape draws25)).map (fun g => g.ok)
      = some true := by decide!
  rw [Option.map_eq_some'] at hs
  obtain ⟨g, hg, hok⟩ := hs
  exact ⟨g, hg, hok, committed_board_unique Board.empty (18 / 25) 1 (tape draws25) g hg hok⟩

/-- C4 fails on the code: on the call `generateRandom(0.72, 1000000)` of `Main`, with the
draws `draws25`, `generateOnce` accepts a layout with 25 open cells and `generateRandom`
commits it at the first attempt, although 25/36 is less than 0.72: the threshold the
code compares with is `static_cast<int>(0.72 * 36) = 25`. -/
theorem coverage_truncated :
    (generateOnce 6 6 (18 / 25) (tape draws25)).map (fun p => p.1) = some (some rows25) ∧
    countNonWall 6 6 rows25 = 25 ∧
    (generateRandom 6 6 Board.empty (18 / 25) 1000000 (tape draws25)).map
      (fun g => (g.ok, g.tries, g.board.nonWallCount)) = some (true, 1, 25) ∧
    truncToInt ((18 / 25 : ℚ) * ((6 * 6 : Nat) : ℚ)) = 25 ∧
    ((25 : ℚ) / ((6 * 6 : Nat) : ℚ) < 18 / 25) := by
  refine ⟨by decide!, by decide!, by decide!, by decide!, by norm_num⟩

end Snake

/-! ## The fuel of the remaining loops is enough -/

namespace FloodFill

/-- The loop `while (top.dir < 4)` is left without a push only when `top.dir` has
reached 4: the fuel 4 is never what ends it. -/
theorem scanDirs_none (W H : Nat) (g : Int → Int → Cell) (p : Point) :
    ∀ (fuel dir dir2 : Nat), 4 ≤ dir + fuel → scanDirs W H g p fuel dir = (dir2, none) →
      4 ≤ dir2 := by
  intro fuel
  induction fuel with
  | zero =>
    intro dir dir2 h0 h
    simp only [scanDirs, Prod.mk.injEq, and_true] at h
    omega
  | succ k ih =>
    intro dir dir2 h0 h
    unfold scanDirs at h
    by_cases hd : dir < 4
    · rw [if_pos hd] at h
      simp only at h
      split at h
      · exact ih _ _ (by omega) h
      · split at h
        · exact ih _ _ (by omega) h
        · split at h
          · exact ih _ _ (by omega) h
          · simp at h
    · rw [if_neg hd] at h
      simp only [Prod.mk.injEq, and_true] at h
      omega

end FloodFill

namespace Snake

theorem mem_arrange {α : Type} :
    ∀ (fuel v : Nat) (l : List α) (a : α), a ∈ arrange fuel v l → a ∈ l := by
  intro fuel
  induction fuel with
  | zero => intro v l a h; simp [arrange] at h
  | succ k ih =>
    intro v l a h
    unfold arrange at h
    cases hi : l[v % l.length]? with
    | none => simp [hi] at h
    | some b =>
      simp only [hi, List.mem_cons] at h
      rcases h with rfl | h
      · exact List.getElem?_mem hi
      · exact List.mem_of_mem_eraseIdx (ih _ _ _ h)

/-- Every direction of a shuffled `Dirs` is one of the four. -/
theorem mem_shuffle_dirs (v : Nat) (d : Point) (h : d ∈ shuffle v Dirs) : d ∈ Dirs :=
  mem_arrange _ _ _ _ h

theorem wallRun_stop (W H : Nat) (g : List (List Char)) (d : Point) :
    ∀ (fuel : Nat) (cur : Point), wallRun W H g d fuel cur ≤ fuel ∧
      (wallRun W H g d fuel cur < fuel →
        ¬ (inBounds W H (stepTo cur d (wallRun W H g d fuel cur)) = true ∧
          charAt g (stepTo cur d (wallRun W H g d fuel cur)).y.toNat
            (stepTo cur d (wallRun W H g d fuel cur)).x.toNat = some '#')) := by
  intro fuel
  induction fuel with
  | zero => intro cur; exact ⟨le_refl _, fun h => absurd h (by simp [wallRun])⟩
  | succ k ih =>
    intro cur
    unfold wallRun
    by_cases hc : (inBounds W H cur && (charAt g cur.y.toNat cur.x.toNat == some '#')) = true
    · rw [if_pos hc]
      obtain ⟨h1, h2⟩ := ih (cur + d)
      refine ⟨by omega, fun hlt => ?_⟩
      rw [← stepTo_succ]
      exact h2 (by omega)
    · rw [if_neg hc]
      refine ⟨by omega, fun _ => ?_⟩
      rw [stepTo_zero]
      simpa using hc

/-- The loop measuring `maxLen` ends on a cell that is out of bounds or not a wall: the
fuel `W + H` is never what ends it. -/
theorem wallRun_maximal (W H : Nat) (g : List (List Char)) (d : Point) (hd : d ∈ Dirs)
    (cur : Point) :
    ¬ (inBounds W H (stepTo cur d (wallRun W H g d (W + H) cur)) = true ∧
      charAt g (stepTo cur d (wallRun W H g d (W + H) cur)).y.toNat
        (stepTo cur d (wallRun W H g d (W + H) cur)).x.toNat = some '#') := by
  obtain ⟨h1, h2⟩ := wallRun_stop W H g d (W + H) cur
  rcases Nat.eq_zero_or_pos (wallRun W H g d (W + H) cur) with h0 | h0
  · rcases Nat.eq_zero_or_pos (W + H) with hz | hz
    · rintro ⟨hb, _⟩
      rw [inBounds_iff] at hb
      omega
    · exact h2 (by omega)
  · exact h2 (run_lt W H cur d hd _ h0
      (fun j hj => (wallRun_spec W H g d (W + H) cur j hj).1))

end Snake

namespace FloodFill

/-! ## Steps of the explorer, case by case -/

/-- Every successful call of `stepExplore` is one of the seven steps. -/
theorem step_of_stepExplore (W H hue : Nat) (s t : Explorer)
    (h : stepExplore W H hue s = some t) : Step W H hue s t := by
  unfold stepExplore at h
  by_cases ha : s.dfsActive = true
  · rw [if_pos ha] at h
    cases hl : s.callStack.getLast? with
    | none =>
      simp only [hl] at h
      cases h
      exact Step.deactivate s ha hl
    | some top =>
      simp only [hl] at h
      by_cases hj : s.justPushed = true
      · rw [if_pos hj] at h
        by_cases hb : inBounds W H top.p = true
        · rw [if_pos hb] at h
          cases h
          exact Step.confirm s top ha hl hj hb
        · rw [if_neg hb] at h
          cases h
      · rw [if_neg hj] at h
        have hj2 : s.justPushed = false := by simpa using hj
        cases hsd : scanDirs W H s.grid top.p 4 top.dir with
        | mk dir r =>
          cases r with
          | none =>
            simp only [hsd] at h
            cases h
            exact Step.pop s top dir ha hl hj2 hsd
          | some np =>
            simp only [hsd] at h
            cases h
            exact Step.push s top dir np ha hl hj2 hsd
  · rw [if_neg ha] at h
    have ha2 : s.dfsActive = false := by simpa using ha
    by_cases hs : s.scanIndex ≥ W * H
    · rw [if_pos hs] at h
      cases h
      exact Step.done s ha2 hs
    · rw [if_neg hs] at h
      simp only at h
      by_cases hb : inBounds W H ⟨((s.scanIndex % H : Nat) : Int), ((s.scanIndex / H : Nat) : Int)⟩
          = true
      · rw [if_pos hb] at h
        by_cases hc : (s.grid ((s.scanIndex / H : Nat) : Int)
            ((s.scanIndex % H : Nat) : Int)).wall = false ∧
            (s.grid ((s.scanIndex / H : Nat) : Int)
              ((s.scanIndex % H : Nat) : Int)).visited = false
        · rw [if_pos (by rw [hc.1, hc.2]; rfl)] at h
          cases h
          exact Step.root s ha2 (by omega) hb hc.1 hc.2
        · have hc2 : (!(s.grid ((s.scanIndex / H : Nat) : Int)
              ((s.scanIndex % H : Nat) : Int)).wall &&
              !(s.grid ((s.scanIndex / H : Nat) : Int)
                ((s.scanIndex % H : Nat) : Int)).visited) = false := by
            cases h1 : (s.grid ((s.scanIndex / H : Nat) : Int)
              ((s.scanIndex % H : Nat) : Int)).wall <;>
            cases h2 : (s.grid ((s.scanIndex / H : Nat) : Int)
              ((s.scanIndex % H : Nat) : Int)).visited <;> simp_all
          rw [if_neg (by rw [hc2]; exact Bool.false_ne_true)] at h
          cases h
          exact Step.advance s ha2 (by omega) hb hc
      · rw [if_neg hb] at h
        cases h

/-- Each of the seven steps is what `stepExplore` does. -/
theorem stepExplore_of_step (W H hue : Nat) (s t : Explorer) (h : Step W H hue s t) :
    stepExplore W H hue s = some t := by
  cases h with
  | deactivate ha hl => unfold stepExplore; simp [ha, hl]
  | confirm top ha hl hj hb => unfold stepExplore; simp [ha, hl, hj, hb]
  | push top dir np ha hl hj hsd => unfold stepExplore; simp [ha, hl, hj, hsd]
  | pop top dir ha hl hj hsd => unfold stepExplore; simp [ha, hl, hj, hsd]
  | done ha hs => unfold stepExplore; simp [ha, hs]
  | root ha hs hb hw hv =>
    unfold stepExplore
    have hns : ¬ (s.scanIndex ≥ W * H) := by omega
    simp only [scanPoint] at hb hw hv
    rw [if_neg (by rw [ha]; exact Bool.false_ne_true), if_neg hns]
    simp only
    rw [if_pos hb, if_pos (by rw [hw, hv]; rfl)]
    rfl
  | advance ha hs hb hc =>
    unfold stepExplore
    have hns : ¬ (s.scanIndex ≥ W * H) := by omega
    simp only [scanPoint] at hb hc
    have hc2 : (!(s.grid ((s.scanIndex / H : Nat) : Int)
        ((s.scanIndex % H : Nat) : Int)).wall &&
        !(s.grid ((s.scanIndex / H : Nat) : Int)
          ((s.scanIndex % H : Nat) : Int)).visited) = false := by
      cases h1 : (s.grid ((s.scanIndex / H : Nat) : Int)
        ((s.scanIndex % H : Nat) : Int)).wall <;>
      cases h2 : (s.grid ((s.scanIndex / H : Nat) : Int)
        ((s.scanIndex % H : Nat) : Int)).visited <;> simp_all
    rw [if_neg (by rw [ha]; exact Bool.false_ne_true), if_neg hns]
    simp only
    rw [if_pos hb, if_neg (by rw [hc2]; exact Bool.false_ne_true)]

end FloodFill

namespace FloodFill

/-- The invariant is kept by every successful call of `stepExplore`, whatever the grid
dimensions, and the walls stay as they are. -/
theorem inv_step (W H hue : Nat) (s t : Explorer) (hinv : Inv W H s)
    (h : stepExplore W H hue s = some t) :
    Inv W H t ∧ ∀ y x, (t.grid y x).wall = (s.grid y x).wall := by
  have hstep := step_of_stepExplore W H hue s t h
  cases hstep with
  | deactivate ha hl =>
    obtain ⟨u, hu, hi, _, _, hw⟩ := step_idle_of_empty W H hue s hinv ha hl
    rw [h] at hu
    cases hu
    exact ⟨hi, hw⟩
  | confirm top ha hl hj hb =>
    obtain ⟨u, hu, hi, _, _, hw⟩ := step_confirm W H hue s hinv ha top hl hj
    rw [h] at hu
    cases hu
    exact ⟨hi, hw⟩
  | push top dir np ha hl hj hsd =>
    obtain ⟨u, hu, hi, _, _, hw⟩ := step_search W H hue s hinv ha top hl hj
    rw [h] at hu
    cases hu
    exact ⟨hi, hw⟩
  | pop top dir ha hl hj hsd =>
    obtain ⟨u, hu, hi, _, _, hw⟩ := step_search W H hue s hinv ha top hl hj
    rw [h] at hu
    cases hu
    exact ⟨hi, hw⟩
  | done ha hs =>
    exact ⟨⟨hinv.visited_open, hinv.scanned, hinv.idle, hinv.pushed⟩, fun _ _ => rfl⟩
  | root ha hs hb hw hv =>
    refine ⟨⟨hinv.visited_open, hinv.scanned, fun h0 => by simp at h0, fun _ => ?_⟩,
      fun _ _ => rfl⟩
    exact ⟨_, rfl, hb, hw, hv⟩
  | advance ha hs hb hc =>
    obtain ⟨_, hj⟩ := hinv.idle ha
    refine ⟨⟨hinv.visited_open, ?_, fun h0 => hinv.idle h0, fun h0 => by simp [hj] at h0⟩,
      fun _ _ => rfl⟩
    intro i hi hi2
    simp only at hi
    rcases Nat.lt_succ_iff_lt_or_eq.1 hi with h1 | h1
    · exact hinv.scanned i h1 hi2
    · subst h1
      show (s.grid ((s.scanIndex / H : Nat) : Int) ((s.scanIndex % H : Nat) : Int)).wall
          = true ∨
        (s.grid ((s.scanIndex / H : Nat) : Int) ((s.scanIndex % H : Nat) : Int)).visited
          = true
      simp only [scanPoint] at hc
      cases h1 : (s.grid ((s.scanIndex / H : Nat) : Int)
        ((s.scanIndex % H : Nat) : Int)).wall
      · cases h2 : (s.grid ((s.scanIndex / H : Nat) : Int)
          ((s.scanIndex % H : Nat) : Int)).visited
        · exact absurd ⟨h1, h2⟩ hc
        · exact Or.inr rfl
      · exact Or.inl rfl

theorem inv_resetVisit (W H : Nat) (s : Explorer) : Inv W H (resetVisit s) := by
  refine ⟨?_, ?_, fun _ => ⟨rfl, rfl⟩, ?_⟩
  · intro p _ h
    simp [resetVisit] at h
  · intro i hi
    simp [resetVisit] at hi
  · intro h
    simp [resetVisit] at h

/-- Every state reached from a reset satisfies the invariant. -/
theorem reached_inv (W H : Nat) (s : Explorer) (h : Reached W H s) : Inv W H s := by
  induction h with
  | reset s0 => exact inv_resetVisit W H s0
  | step s t hue _ hst ih => exact (inv_step W H hue s t ih hst).1

theorem runExplore_succ (W H : Nat) :
    ∀ (n : Nat) (hues : Nat → Nat) (s : Explorer),
      runExplore W H hues (n + 1) s =
        (runExplore W H hues n s).bind (stepExplore W H (hues n)) := by
  intro n
  induction n with
  | zero =>
    intro hues s
    simp [runExplore]
  | succ k ih =>
    intro hues s
    rw [runExplore]
    cases hst : stepExplore W H (hues 0) s with
    | none => simp [runExplore, hst]
    | some t =>
      simp only [Option.some_bind]
      rw [ih (fun j => hues (j + 1)) t]
      conv_rhs => rw [runExplore, hst]
      simp only [Option.some_bind]

/-- The states of a run from a reset are reached states. -/
theorem reached_run (W H : Nat) (s0 : Explorer) (hues : Nat → Nat) :
    ∀ (n : Nat) (s : Explorer), runExplore W H hues n (resetVisit s0) = some s →
      Reached W H s := by
  intro n
  induction n with
  | zero =>
    intro s h
    simp only [runExplore, Option.some.injEq] at h
    subst h
    exact Reached.reset s0
  | succ k ih =>
    intro s h
    rw [runExplore_succ] at h
    cases hk : runExplore W H hues k (resetVisit s0) with
    | none => rw [hk] at h; cases h
    | some u =>
      rw [hk] at h
      exact Reached.step u s (hues k) (ih u hk) h

end FloodFill

namespace FloodFill

/-! ## Reset, and the stack of an inactive explorer -/

/-- C12: `resetVisit s` is the fresh state of the walls of `s`: every cell keeps its wall
flag, is unvisited and white, the scan cursor is 0, the explorer is inactive, the call
stack is empty and `justPushed` is false (`phase` and `currentColor`, which `resetVisit`
does not assign, stay as in `s`). Two states with the same wall flags give the same grid,
cursor, activity, stack and `justPushed`; the walls are preserved; and resetting twice
gives the same state as resetting once. -/
theorem resetVisit_fresh (s : Explorer) :
    resetVisit s =
      { grid := fun y x => { wall := (s.grid y x).wall, visited := false, color := Color.white }
        phase := s.phase
        scanIndex := 0
        dfsActive := false
        callStack := []
        justPushed := false
        currentColor := s.currentColor } ∧
    (∀ y x, ((resetVisit s).grid y x).wall = (s.grid y x).wall ∧
      ((resetVisit s).grid y x).visited = false) ∧
    (∀ s2 : Explorer, (∀ y x, (s2.grid y x).wall = (s.grid y x).wall) →
      (resetVisit s2).grid = (resetVisit s).grid ∧
      (resetVisit s2).scanIndex = (resetVisit s).scanIndex ∧
      (resetVisit s2).dfsActive = (resetVisit s).dfsActive ∧
      (resetVisit s2).callStack = (resetVisit s).callStack ∧
      (resetVisit s2).justPushed = (resetVisit s).justPushed) ∧
    resetVisit (resetVisit s) = resetVisit s := by
  refine ⟨rfl, fun _ _ => ⟨rfl, rfl⟩, ?_, rfl⟩
  intro s2 hw
  refine ⟨?_, rfl, rfl, rfl, rfl⟩
  funext y x
  simp only [resetVisit, hw y x]

theorem corner_three_steps :
    ∃ s, runExplore 8 8 (fun _ => 0) 3 (resetVisit (initial cornerGrid)) = some s ∧
      s.callStack = [] ∧ s.dfsActive = true := by
  have h : (runExplore 8 8 (fun _ => 0) 3 (resetVisit (initial cornerGrid))).map
      (fun s => (s.callStack, s.dfsActive)) = some ([], true) := by decide!
  rw [Option.map_eq_some'] at h
  obtain ⟨s, hs, hp⟩ := h
  simp only [Prod.mk.injEq] at hp
  exact ⟨s, hs, hp.1, hp.2⟩

/-- C14, as stated, fails: on the 8x8 grid whose only walls are (1,0) and (0,1), three
calls of `stepExplore` from the reset state (root push of (0,0), its confirm, its pop)
reach a state with an empty call stack in which the explorer is still active. -/
theorem active_with_empty_stack :
    ∃ s, runExplore 8 8 (fun _ => 0) 3 (resetVisit (initial cornerGrid)) = some s ∧
      Reached 8 8 s ∧ s.callStack = [] ∧ s.dfsActive = true ∧
      ¬ (s.callStack = [] ↔ s.dfsActive = false) := by
  obtain ⟨s, hs, h1, h2⟩ := corner_three_steps
  refine ⟨s, hs, reached_run 8 8 _ _ 3 s hs, h1, h2, ?_⟩
  rw [h1, h2]
  simp

/-- C14, amended: in every state reached from a reset by `stepExplore` calls, an inactive
explorer has an empty call stack (so a non-empty stack means an active explorer); and
when the stack is empty while the explorer is active, the next call does nothing but
deactivate it. -/
theorem inactive_stack_empty (W H : Nat) (s : Explorer) (h : Reached W H s) :
    (s.dfsActive = false → s.callStack = []) ∧
    (s.callStack ≠ [] → s.dfsActive = true) ∧
    (s.callStack = [] → s.dfsActive = true →
      ∀ hue, stepExplore W H hue s = some { s with dfsActive := false }) := by
  have hinv := reached_inv W H s h
  refine ⟨fun ha => (hinv.idle ha).1, ?_, ?_⟩
  · intro hne
    cases ha : s.dfsActive
    · exact absurd (hinv.idle ha).1 hne
    · rfl
  · intro hcs ha hue
    exact stepExplore_of_step W H hue s _
      (Step.deactivate s ha (by rw [hcs]; rfl))

theorem inactive_stack_empty_witness :
    ∃ s, runExplore 8 8 (fun _ => 0) 3 (resetVisit (initial cornerGrid)) = some s ∧
      stepExplore 8 8 0 s = some { s with dfsActive := false } := by
  obtain ⟨s, hs, hcs, ha⟩ := corner_three_steps
  exact ⟨s, hs, (inactive_stack_empty 8 8 s (reached_run 8 8 _ _ 3 s hs)).2.2 hcs ha 0⟩

end FloodFill

namespace FloodFill

/-! ## Push and confirm -/

theorem length_of_getLast {α : Type} (l : List α) (a : α) (h : l.getLast? = some a) :
    l.dropLast.length + 1 = l.length := by
  have := List.dropLast_append_getLast? a (by simpa using h)
  conv_rhs => rw [← this]
  simp

/-- A call that makes the stack one frame longer is a push, from the scan or of a
neighbour: afterwards the explorer is active, `justPushed` is set and the new top frame
is an unvisited cell of the grid. -/
theorem push_shape (W H hue : Nat) (s t : Explorer)
    (hst : stepExplore W H hue s = some t)
    (hlen : t.callStack.length = s.callStack.length + 1) :
    t.dfsActive = true ∧ t.justPushed = true ∧ t.grid = s.grid ∧
      ∃ f, t.callStack.getLast? = some f ∧ inBounds W H f.p = true ∧
        (t.grid f.p.y f.p.x).visited = false := by
  have hstep := step_of_stepExplore W H hue s t hst
  cases hstep with
  | deactivate ha hl => simp at hlen
  | confirm top ha hl hj hb => simp at hlen
  | push top dir np ha hl hj hsd =>
    obtain ⟨_, _, hb, _, hv⟩ := scanDirs_some W H s.grid top.p 4 top.dir dir np hsd
    exact ⟨ha, rfl, rfl, ⟨np, 0⟩, by simp, hb, hv⟩
  | pop top dir ha hl hj hsd =>
    have := length_of_getLast s.callStack top hl
    simp only at hlen
    omega
  | done ha hs => simp at hlen
  | root ha hs hb hw hv => exact ⟨rfl, rfl, rfl, _, rfl, hb, hv⟩
  | advance ha hs hb hc => simp at hlen

/-- A call changes the grid only when it is a confirm: `justPushed` was set. -/
theorem grid_change (W H hue : Nat) (s t : Explorer) (hst : stepExplore W H hue s = some t)
    (hne : t.grid ≠ s.grid) : s.justPushed = true ∧ s.dfsActive = true := by
  have hstep := step_of_stepExplore W H hue s t hst
  cases hstep with
  | deactivate ha hl => exact absurd rfl hne
  | confirm top ha hl hj hb => exact ⟨hj, ha⟩
  | push top dir np ha hl hj hsd => exact absurd rfl hne
  | pop top dir ha hl hj hsd => exact absurd rfl hne
  | done ha hs => exact absurd rfl hne
  | root ha hs hb hw hv => exact absurd rfl hne
  | advance ha hs hb hc => exact absurd rfl hne

/-- In a reached state `justPushed` is set only right after a push. -/
theorem justPushed_after_push (W H : Nat) (s : Explorer) (hr : Reached W H s)
    (hj : s.justPushed = true) :
    ∃ s0 hue0, Reached W H s0 ∧ stepExplore W H hue0 s0 = some s ∧
      s.callStack.length = s0.callStack.length + 1 := by
  cases hr with
  | reset s0 => simp [resetVisit] at hj
  | step s0 _ hue0 hr0 hst =>
    refine ⟨s0, hue0, hr0, hst, ?_⟩
    have hinv := reached_inv W H s0 hr0
    have hstep := step_of_stepExplore W H hue0 s0 s hst
    cases hstep with
    | deactivate ha hl =>
      simp only at hj
      obtain ⟨top, h1, _⟩ := hinv.pushed hj
      rw [hl] at h1
      cases h1
    | confirm top ha hl hj2 hb => simp at hj
    | push top dir np ha hl hj2 hsd =>
      have := length_of_getLast s0.callStack top hl
      simp only [List.length_append, List.length_singleton]
      omega
    | pop top dir ha hl hj2 hsd =>
      simp only at hj
      rw [hj2] at hj
      cases hj
    | done ha hs =>
      simp only at hj
      rw [(hinv.idle ha).2] at hj
      cases hj
    | root ha hs hb hw hv =>
      simp only [(hinv.idle ha).1, List.length_singleton, List.length_nil]
    | advance ha hs hb hc =>
      simp only at hj
      rw [(hinv.idle ha).2] at hj
      cases hj

/-- C11: in a state reached from a reset, when a call of `stepExplore` pushes a frame
(the stack gets one frame longer, from the scan or from a neighbour), the frame's cell is
not yet visited and the very next call succeeds, marks exactly that cell visited (with
the current colour), leaves the call stack and the scan cursor as they are and clears
`justPushed`; and a call changes a visited flag only when the call before it was a push. -/
theorem push_then_confirm (W H hue : Nat) (s t : Explorer) (hr : Reached W H s)
    (hst : stepExplore W H hue s = some t) :
    (t.callStack.length = s.callStack.length + 1 →
      ∃ f, t.callStack.getLast? = some f ∧ (t.grid f.p.y f.p.x).visited = false ∧
        ∀ hue2, ∃ u, stepExplore W H hue2 t = some u ∧
          u.grid = markVisited t.grid f.p t.currentColor ∧
          (∀ y x, (u.grid y x).visited =
            (decide (y = f.p.y ∧ x = f.p.x) || (t.grid y x).visited)) ∧
          u.callStack = t.callStack ∧ u.scanIndex = t.scanIndex ∧
          u.justPushed = false ∧ u.dfsActive = true) ∧
    ((∃ y x, (t.grid y x).visited ≠ (s.grid y x).visited) →
      ∃ s0 hue0, Reached W H s0 ∧ stepExplore W H hue0 s0 = some s ∧
        s.callStack.length = s0.callStack.length + 1) := by
  constructor
  · intro hlen
    obtain ⟨ha, hj, _, f, hf, hb, hv⟩ := push_shape W H hue s t hst hlen
    refine ⟨f, hf, hv, fun hue2 => ?_⟩
    refine ⟨{ t with grid := markVisited t.grid f.p t.currentColor, justPushed := false },
      stepExplore_of_step W H hue2 t _ (Step.confirm t f ha hf hj hb), rfl,
      fun y x => markVisited_visited _ _ _ y x, rfl, rfl, rfl, ha⟩
  · rintro ⟨y, x, hne⟩
    have hg : t.grid ≠ s.grid := by
      intro e
      apply hne
      rw [e]
    exact justPushed_after_push W H s hr (grid_change W H hue s t hst hg).1

theorem push_then_confirm_witness :
    ∃ s t, Reached 2 1 s ∧ stepExplore 2 1 0 s = some t ∧
      t.callStack.length = s.callStack.length + 1 ∧
      ∃ f u, t.callStack.getLast? = some f ∧ stepExplore 2 1 0 t = some u ∧
        u.callStack = t.callStack ∧ u.justPushed = false := by
  have hr : Reached 2 1 (resetVisit (initial openGrid)) := Reached.reset _
  have hs : (stepExplore 2 1 0 (resetVisit (initial openGrid))).map
      (fun t => t.callStack.length) = some 1 := by decide
  rw [Option.map_eq_some'] at hs
  obtain ⟨t, ht, hlen⟩ := hs
  have hl : t.callStack.length = (resetVisit (initial openGrid)).callStack.length + 1 := by
    rw [hlen]
    rfl
  obtain ⟨f, hf, _, hnext⟩ :=
    (push_then_confirm 2 1 0 (resetVisit (initial openGrid)) t hr ht).1 hl
  obtain ⟨u, hu, _, _, hcs, _, hj, _⟩ := hnext 0
  exact ⟨_, t, hr, ht, hl, f, u, hf, hu, hcs, hj⟩

end FloodFill

namespace FloodFill

/-! ## The session -/

theorem step_phase (W H hue : Nat) (s t : Explorer) (hst : stepExplore W H hue s = some t) :
    t.phase = s.phase ∨ t.phase = Phase.Done := by
  have hstep := step_of_stepExplore W H hue s t hst
  cases hstep with
  | deactivate ha hl => exact Or.inl rfl
  | confirm top ha hl hj hb => exact Or.inl rfl
  | push top dir np ha hl hj hsd => exact Or.inl rfl
  | pop top dir ha hl hj hsd => exact Or.inl rfl
  | done ha hs => exact Or.inr rfl
  | root ha hs hb hw hv => exact Or.inl rfl
  | advance ha hs hb hc => exact Or.inl rfl

theorem inv_of_unvisited (W H : Nat) (s : Explorer) (hs : s.scanIndex = 0)
    (hj : s.justPushed = false) (hcs : s.callStack = [])
    (hv : ∀ y x, (s.grid y x).visited = false) : Inv W H s := by
  refine ⟨?_, ?_, fun _ => ⟨hcs, hj⟩, ?_⟩
  · intro p _ h
    rw [hv] at h
    cases h
  · intro i hi
    omega
  · intro h
    rw [hj] at h
    cases h

/-- What holds in every state of a session: the invariant of the explorer, and during
the preparation phase nothing is visited and the explorer is at rest. -/
theorem session_inv (W H : Nat) (s : Explorer) (h : Session W H s) :
    Inv W H s ∧ (s.phase = Phase.Prep → s.scanIndex = 0 ∧ s.justPushed = false ∧
      s.callStack = [] ∧ ∀ y x, (s.grid y x).visited = false) := by
  induction h with
  | start =>
    have hv : ∀ y x : Int, ((initial openGrid).grid y x).visited = false := fun _ _ => rfl
    exact ⟨inv_of_unvisited W H _ rfl rfl rfl hv, fun _ => ⟨rfl, rfl, rfl, hv⟩⟩
  | paint s p _ hp _ ih =>
    obtain ⟨h1, h2, h3, h4⟩ := ih.2 hp
    have hv : ∀ y x : Int, (setWall s.grid p.y p.x true y x).visited = false := by
      intro y x
      unfold setWall
      split
      · exact h4 y x
      · exact h4 y x
    exact ⟨inv_of_unvisited W H _ h1 h2 h3 hv, fun _ => ⟨h1, h2, h3, hv⟩⟩
  | erase s p _ hp _ ih =>
    obtain ⟨h1, h2, h3, h4⟩ := ih.2 hp
    have hv : ∀ y x : Int, (setWall s.grid p.y p.x false y x).visited = false := by
      intro y x
      unfold setWall
      split
      · exact h4 y x
      · exact h4 y x
    exact ⟨inv_of_unvisited W H _ h1 h2 h3 hv, fun _ => ⟨h1, h2, h3, hv⟩⟩
  | confirm s _ hp _ =>
    refine ⟨inv_confirm W H s, fun h => ?_⟩
    simp [confirm, resetVisit] at h
  | explore s t hue _ hp hst ih =>
    refine ⟨(inv_step W H hue s t ih.1 hst).1, fun h => ?_⟩
    rcases step_phase W H hue s t hst with e | e
    · rw [e, hp] at h
      cases h
    · rw [e] at h
      cases h
  | reset s _ _ _ =>
    exact ⟨inv_resetVisit W H _, fun _ => ⟨rfl, rfl, rfl, fun _ _ => rfl⟩⟩

/-- C13: in every state of a session (clicks that set or clear a wall while in `Prep`,
confirm, `stepExplore` while in `Explore`, reset with R while in `Done`), no cell of the
grid is both a wall and visited. -/
theorem session_wall_not_visited (W H : Nat) (s : Explorer) (h : Session W H s)
    (p : Point) (hp : inBounds W H p = true) :
    ¬ ((s.grid p.y p.x).wall = true ∧ (s.grid p.y p.x).visited = true) := by
  rintro ⟨hw, hv⟩
  have := (session_inv W H s h).1.visited_open p hp hv
  rw [hw] at this
  cases this

theorem session_wall_not_visited_witness :
    ∃ s, Session 8 8 s ∧ (s.grid 0 1).wall = true ∧
      ¬ ((s.grid 0 1).wall = true ∧ (s.grid 0 1).visited = true) := by
  have h1 : Session 8 8 { initial openGrid with
      grid := setWall (initial openGrid).grid 0 1 true } :=
    Session.paint (initial openGrid) ⟨1, 0⟩ Session.start rfl (by decide)
  have h2 := Session.confirm _ h1 rfl
  exact ⟨_, h2, by decide, session_wall_not_visited 8 8 _ h2 ⟨1, 0⟩ (by decide)⟩

end FloodFill

namespace FloodFill

/-! ## The cell under the scan cursor -/

/-- What a call of `stepExplore` does when the explorer is inactive and the cursor is
inside `W * H`: it reads the cell `scanPoint H i`, and fails when that cell is outside
the grid. -/
theorem stepExplore_scan (W H hue : Nat) (s : Explorer) (ha : s.dfsActive = false)
    (hs : s.scanIndex < W * H) :
    stepExplore W H hue s =
      if inBounds W H (scanPoint H s.scanIndex) = true then
        if (s.grid (scanPoint H s.scanIndex).y (scanPoint H s.scanIndex).x).wall = false ∧
            (s.grid (scanPoint H s.scanIndex).y (scanPoint H s.scanIndex).x).visited = false
        then some { s with
          currentColor := Color.hsv hue
          callStack := [⟨scanPoint H s.scanIndex, 0⟩]
          dfsActive := true
          justPushed := true }
        else some { s with scanIndex := s.scanIndex + 1 }
      else none := by
  by_cases hb : inBounds W H (scanPoint H s.scanIndex) = true
  · rw [if_pos hb]
    by_cases hc : (s.grid (scanPoint H s.scanIndex).y (scanPoint H s.scanIndex).x).wall = false ∧
        (s.grid (scanPoint H s.scanIndex).y (scanPoint H s.scanIndex).x).visited = false
    · rw [if_pos hc]
      exact stepExplore_of_step W H hue s _ (Step.root s ha hs hb hc.1 hc.2)
    · rw [if_neg hc]
      exact stepExplore_of_step W H hue s _ (Step.advance s ha hs hb hc)
  · rw [if_neg hb]
    cases hst : stepExplore W H hue s with
    | none => rfl
    | some t =>
      have hstep := step_of_stepExplore W H hue s t hst
      cases hstep with
      | deactivate ha2 hl => rw [ha] at ha2; cases ha2
      | confirm top ha2 hl hj hb2 => rw [ha] at ha2; cases ha2
      | push top dir np ha2 hl hj hsd => rw [ha] at ha2; cases ha2
      | pop top dir ha2 hl hj hsd => rw [ha] at ha2; cases ha2
      | done ha2 hs2 => omega
      | root ha2 hs2 hb2 hw hv => exact absurd hb2 hb
      | advance ha2 hs2 hb2 hc => exact absurd hb2 hb

/-- Where the division by `H` is harmless: for all dimensions the cell read for cursor
`i < W * H` is `(x, y) = (i mod H, i div H)`; on a square grid `W = H = N`, such as the
8x8 grid the source is built with, this is the `i`-th cell in row-major order,
`(i mod N, i div N)`, it is in bounds, and the call of an inactive explorer succeeds: it
pushes that cell when it is open and unvisited, and advances the cursor otherwise. -/
theorem scan_square (N i : Nat) (hi : i < N * N) :
    (∀ W H : Nat, scanPoint H i = ⟨((i % H : Nat) : Int), ((i / H : Nat) : Int)⟩ ∧
      ∀ hue s, s.dfsActive = false → s.scanIndex = i → i < W * H →
        inBounds W H (scanPoint H i) = false → stepExplore W H hue s = none) ∧
    scanPoint N i = ⟨((i % N : Nat) : Int), ((i / N : Nat) : Int)⟩ ∧
    inBounds N N (scanPoint N i) = true ∧
    ∀ hue s, s.dfsActive = false → s.scanIndex = i →
      stepExplore N N hue s =
        if (s.grid (scanPoint N i).y (scanPoint N i).x).wall = false ∧
            (s.grid (scanPoint N i).y (scanPoint N i).x).visited = false
        then some { s with
          currentColor := Color.hsv hue
          callStack := [⟨scanPoint N i, 0⟩]
          dfsActive := true
          justPushed := true }
        else some { s with scanIndex := i + 1 } := by
  have hN : 0 < N := by
    rcases Nat.eq_zero_or_pos N with h | h
    · subst h; simp at hi
    · exact h
  have hb : inBounds N N (scanPoint N i) = true := by
    rw [inBounds_iff]
    exact ⟨Int.natCast_nonneg _, Int.ofNat_lt.2 (Nat.mod_lt _ hN), Int.natCast_nonneg _,
      Int.ofNat_lt.2 (Nat.div_lt_of_lt_mul hi)⟩
  refine ⟨fun W H => ⟨rfl, ?_⟩, rfl, hb, ?_⟩
  · intro hue s ha hs hlt hout
    subst hs
    rw [stepExplore_scan W H hue s ha hlt, if_neg (by rw [hout]; exact Bool.false_ne_true)]
  · intro hue s ha hs
    subst hs
    rw [stepExplore_scan N N hue s ha hi, if_pos hb]

theorem scan_square_witness :
    (3 : Nat) < 8 * 8 ∧ scanPoint 8 3 = ⟨3, 0⟩ ∧ inBounds 8 8 (scanPoint 8 3) = true := by
  have h := scan_square 8 3 (by decide)
  exact ⟨by decide, h.2.1, h.2.2.1⟩

end FloodFill

namespace Snake

/-! ## Rows without a start marker, rows of another size -/

/-- C17, as stated, fails: on six rows of six open cells without a start marker
`setFromRows` reports nothing and produces a board whose start and player are the start
the board had before, (2,3) here, a cell not taken from the rows; and seven rows of seven
characters are accepted as well, the seventh row and column being ignored. -/
theorem setFromRows_no_failure :
    startOf 6 6 rowsNoStart = none ∧
    (setFromRows 6 6 { Board.empty with start := ⟨2, 3⟩ } rowsNoStart).map
      (fun b => (b.start, b.player, b.nonWallCount)) = some (⟨2, 3⟩, ⟨2, 3⟩, 36) ∧
    ¬ WellSized 6 6 rowsSeven ∧
    (setFromRows 6 6 Board.empty rowsSeven).map
      (fun b => (b.start, b.player, b.nonWallCount)) = some (⟨1, 1⟩, ⟨1, 1⟩, 36) := by
  refine ⟨by decide!, by decide!, ?_, by decide!⟩
  rintro ⟨h, _⟩
  revert h
  decide

/-- C17, amended: `setFromRows` validates nothing. When every cell of the `W` by `H`
block can be read from the rows (in particular for `H` rows of `W` characters) and the
board's previous start is a cell of the grid, it produces a board, whose start is the
last `S` of the block if there is one and the previous start otherwise; when some cell
of the block cannot be read, the source reads outside the rows (`none` here) instead of
reporting a failure. -/
theorem setFromRows_unvalidated (W H : Nat) (b : Board) (rows : List (List Char)) :
    ((∀ c ∈ cells W H, (charAt rows c.1.toNat c.2.toNat).isSome = true) →
      inBounds W H b.start = true →
      ∃ b2, setFromRows W H b rows = some b2 ∧
        b2.start = (startOf W H rows).getD b.start ∧ b2.player = b2.start) ∧
    (WellSized W H rows → ∀ c ∈ cells W H, (charAt rows c.1.toNat c.2.toNat).isSome = true) ∧
    ((∃ c ∈ cells W H, charAt rows c.1.toNat c.2.toNat = none) →
      setFromRows W H b rows = none) := by
  refine ⟨?_, charAt_isSome W H rows, ?_⟩
  · intro hread hb
    obtain ⟨sc, hsc⟩ := scan_total rows (cells W H) ⟨fun _ _ => false, b.start, 0⟩ hread
    obtain ⟨_, _, e3, _⟩ := scan_fold rows (cells W H) _ sc hsc
    have hst : sc.start = (startOf W H rows).getD b.start := by
      rw [e3]
      rfl
    have hin : inBounds W H sc.start = true := by
      rw [hst]
      cases hS : startOf W H rows with
      | none => exact hb
      | some st => exact (startOf_spec W H rows st hS).1
    refine ⟨Board.mk sc.wall (setGrid (fun _ _ => false) sc.start.y sc.start.x true)
      sc.start sc.start sc.nonWall, ?_, hst, rfl⟩
    unfold setFromRows
    have hsc2 : scanRows W H rows ⟨fun _ _ => false, b.start, 0⟩ = some sc := hsc
    rw [hsc2]
    simp only [hin, if_true]
  · rintro ⟨c, hc, hnone⟩
    cases hres : setFromRows W H b rows with
    | none => rfl
    | some b2 =>
      have := (setFromRows_spec W H b b2 rows hres).2.2.2.2.2.2 c hc
      rw [hnone] at this
      cases this

theorem setFromRows_unvalidated_witness :
    ∃ b2, setFromRows 6 6 { Board.empty with start := ⟨2, 3⟩ } rowsNoStart = some b2 ∧
      b2.start = (startOf 6 6 rowsNoStart).getD ⟨2, 3⟩ ∧ b2.player = b2.start := by
  have hsz : WellSized 6 6 rowsNoStart := ⟨rfl, by decide⟩
  have h := setFromRows_unvalidated 6 6 { Board.empty with start := ⟨2, 3⟩ } rowsNoStart
  exact h.1 (h.2.1 hsz) (by decide)

/-! ## A candidate without a solution -/

/-- C15 fails on the code: on the call `generateOnce(rows, 0.72)`, with the draws
`draws28`, the layout produced has 28 open cells, so it passes the coverage test, and the
exhaustive search of `isUniqueSolution` ends with `solutions = 0`; indeed no sequence of
legal sliding moves from its start (0,5) visits every open cell. -/
theorem candidate_without_solution :
    (generateOnce 6 6 (18 / 25) (tape draws28)).map (fun p => p.1) = some (some rows28) ∧
    countNonWall 6 6 rows28 = 28 ∧
    countSolutions 6 6 rows28 = some 0 ∧
    isUniqueSolution 6 6 rows28 = some false ∧
    startOf 6 6 rows28 = some ⟨0, 5⟩ ∧
    ∀ ds, ¬ IsSolution 6 6 rows28 ⟨0, 5⟩ ds := by
  have hc : countSolutions 6 6 rows28 = some 0 := by decide!
  have hS : startOf 6 6 rows28 = some ⟨0, 5⟩ := by decide!
  have hsz : WellSized 6 6 rows28 := ⟨rfl, by decide⟩
  refine ⟨by decide!, by decide!, hc, ?_, hS, ?_⟩
  · unfold isUniqueSolution
    rw [hc]
    rfl
  · intro ds hds
    obtain ⟨h1, _, h3⟩ := countSolutions_eq 6 6 rows28 hsz ⟨0, 5⟩ hS
    rw [hc] at h1
    have hlen : (tours 6 6 (wallOf 6 6 rows28) (6 * 6 + 1) {⟨0, 5⟩} ⟨0, 5⟩).length = 0 := by
      have := Option.some.inj h1
      omega
    have hm := (h3 ds).2 hds
    rw [List.length_eq_zero] at hlen
    rw [hlen] at hm
    cases hm

end Snake

namespace Snake

/-! ## The board of a generated layout -/

theorem generateOnce_eq (W H : Nat) (ratio : ℚ) (r : Nat → Nat) :
    generateOnce W H ratio r =
      match carveResult W H r with
      | none => none
      | some (c, r2) =>
        if (countNonWall W H c.g : Int) < truncToInt (ratio * ((W * H : Nat) : ℚ)) then
          some (none, r2)
        else
          some (some (setChar c.g (c.carved.getLastD ⟨0, 0⟩).y.toNat
            (c.carved.getLastD ⟨0, 0⟩).x.toNat 'S'), r2) := rfl

theorem carveInv_start (W H : Nat) (hW : 0 < W) (hH : 0 < H) (r : Nat → Nat) :
    CarveInv W H (carveStart W H r) := by
  have hg0 : WellSized W H (List.replicate H (List.replicate W '#')) := by
    refine ⟨List.length_replicate _ _, ?_⟩
    intro row hrow
    rw [List.eq_of_mem_replicate hrow, List.length_replicate]
  have hgx := randomInt_range (r 0) 0 (W - 1) (by omega)
  have hgy := randomInt_range (r 1) 0 (H - 1) (by omega)
  refine ⟨wellSized_setChar W H _ _ _ _ hg0, ?_⟩
  simp only [carveStart, List.getLastD_cons, List.getLastD_nil]
  rw [inBounds_iff]
  simp only
  omega

theorem noStart_setChar (g : List (List Char)) (y x : Nat) (h : NoStart g) :
    NoStart (setChar g y x '.') := by
  intro y2 x2
  rw [charAt_setChar]
  split
  · simp
  · exact h y2 x2

theorem noStart_start (W H : Nat) (r : Nat → Nat) : NoStart (carveStart W H r).g := by
  apply noStart_setChar
  intro y x
  unfold charAt
  rw [List.getElem?_replicate]
  split
  · simp only [Option.some_bind]
    rw [List.getElem?_replicate]
    split <;> simp
  · simp

theorem noStart_carveCells (d : Point) :
    ∀ (L : Nat) (p : Point) (c : Carve), NoStart c.g → NoStart (carveCells d L p c).g := by
  intro L
  induction L with
  | zero => intro p c h; exact h
  | succ k ih =>
    intro p c h
    rw [carveCells]
    exact ih _ _ (noStart_setChar _ _ _ h)

theorem noStart_tryDirs (W H v : Nat) :
    ∀ (ds : List Point) (c c2 : Carve), tryDirs W H v ds c = some c2 → NoStart c.g →
      NoStart c2.g := by
  intro ds
  induction ds with
  | nil => intro c c2 h; simp [tryDirs] at h
  | cons d ds ih =>
    intro c c2 h hn
    unfold tryDirs at h
    simp only at h
    split at h
    · exact ih c c2 h hn
    · simp only [Option.some.injEq] at h
      subst h
      exact noStart_carveCells d _ _ c hn

theorem noStart_carveLoop (W H : Nat) :
    ∀ (fuel stuck : Nat) (c : Carve) (r : Nat → Nat) (c2 : Carve) (r2 : Nat → Nat),
      carveLoop W H fuel stuck c r = some (c2, r2) → NoStart c.g → NoStart c2.g := by
  intro fuel
  induction fuel with
  | zero =>
    intro stuck c r c2 r2 h hn
    unfold carveLoop at h
    split at h
    · cases h
    · simp only [Option.some.injEq, Prod.mk.injEq] at h
      rw [← h.1]
      exact hn
  | succ k ih =>
    intro stuck c r c2 r2 h hn
    unfold carveLoop at h
    split at h
    · cases ht : tryDirs W H (r 1) (shuffle (r 0) Dirs) c with
      | none =>
        rw [ht] at h
        exact ih _ _ _ _ _ h hn
      | some c3 =>
        rw [ht] at h
        exact ih _ _ _ _ _ h (noStart_tryDirs W H _ _ c c3 ht hn)
    · simp only [Option.some.injEq, Prod.mk.injEq] at h
      rw [← h.1]
      exact hn

/-- What a successful `generateOnce` wrote: the carved rows with `S` put on the last
carved cell, which is a cell of the grid, and no other `S`. -/
theorem generateOnce_rows (W H : Nat) (hW : 0 < W) (hH : 0 < H) (ratio : ℚ)
    (r r2 : Nat → Nat) (rows : List (List Char))
    (h : generateOnce W H ratio r = some (some rows, r2)) :
    ∃ c, carveResult W H r = some (c, r2) ∧ CarveInv W H c ∧ NoStart c.g ∧
      rows = setChar c.g (c.carved.getLastD ⟨0, 0⟩).y.toNat
        (c.carved.getLastD ⟨0, 0⟩).x.toNat 'S' ∧
      WellSized W H rows ∧
      startOf W H rows = some (c.carved.getLastD ⟨0, 0⟩) := by
  rw [generateOnce_eq] at h
  cases hres : carveResult W H r with
  | none => simp [hres] at h
  | some p =>
    obtain ⟨c, r3⟩ := p
    simp only [hres] at h
    split at h
    · cases h
    · simp only [Option.some.injEq, Prod.mk.injEq] at h
      obtain ⟨hrows, hr⟩ := h
      subst hr
      have hinv : CarveInv W H c := by
        obtain ⟨c2, r4, hloop, hi⟩ := carveLoop_total W H (W * H + 12) 0 (carveStart W H r)
          (fun n => r (n + 2)) (carveInv_start W H hW hH r) (by
            have : wallCount W H (carveStart W H r).g ≤ (cells W H).length :=
              List.countP_le_length _
            rw [length_cells, Nat.mul_comm] at this
            omega)
        unfold carveResult at hres
        rw [hres] at hloop
        simp only [Option.some.injEq, Prod.mk.injEq] at hloop
        rw [hloop.1]
        exact hi
      have hns : NoStart c.g :=
        noStart_carveLoop W H _ _ _ _ c _ hres (noStart_start W H r)
      have hb := (inBounds_iff W H _).1 hinv.2
      have hsome := charAt_isSome W H c.g hinv.1
        ((c.carved.getLastD ⟨0, 0⟩).y, (c.carved.getLastD ⟨0, 0⟩).x)
        (by rw [mem_cells]; omega)
      simp only at hsome
      refine ⟨c, rfl, hinv, hns, hrows.symm, ?_, ?_⟩
      · rw [← hrows]
        exact wellSized_setChar W H _ _ _ _ hinv.1
      · rw [← hrows]
        unfold startOf
        have hf : (cells W H).filter (fun q =>
            charAt (setChar c.g (c.carved.getLastD ⟨0, 0⟩).y.toNat
              (c.carved.getLastD ⟨0, 0⟩).x.toNat 'S') q.1.toNat q.2.toNat == some 'S') =
            (cells W H).filter (fun q => decide (q =
              ((c.carved.getLastD ⟨0, 0⟩).y, (c.carved.getLastD ⟨0, 0⟩).x))) := by
          apply List.filter_congr
          rintro ⟨y, x⟩ hq
          rw [mem_cells] at hq
          rw [charAt_setChar]
          by_cases hyx : y.toNat = (c.carved.getLastD ⟨0, 0⟩).y.toNat ∧
              x.toNat = (c.carved.getLastD ⟨0, 0⟩).x.toNat
          · have e : (y, x) = ((c.carved.getLastD ⟨0, 0⟩).y, (c.carved.getLastD ⟨0, 0⟩).x) := by
              rw [Prod.mk.injEq]
              omega
            rw [if_pos ⟨hyx.1, hyx.2, hsome⟩]
            simp [e]
          · have e : (y, x) ≠ ((c.carved.getLastD ⟨0, 0⟩).y, (c.carved.getLastD ⟨0, 0⟩).x) := by
              intro e2
              rw [Prod.mk.injEq] at e2
              apply hyx
              rw [e2.1, e2.2]
              exact ⟨rfl, rfl⟩
            rw [if_neg (fun hh => hyx ⟨hh.1, hh.2.1⟩)]
            have h1 : (charAt c.g y.toNat x.toNat == some 'S') = false := by
              simpa using hns y.toNat x.toNat
            rw [h1]
            exact (decide_eq_false e).symm
        rw [hf, filter_eq_singleton _ _ (nodup_cells W H) (by rw [mem_cells]; omega)]
        rfl

end Snake

namespace Snake

/-- C16: for rows written by a successful `generateOnce` (with `carved` the path it
carved), `setFromRows` yields a board `b0` whose walls are exactly the `#` cells of the
grid, whose start is the last carved cell, the one cell marked `S`, and is not a wall,
whose visited grid is true at the start and nowhere else, and whose player is the start;
and in any state reached from `b0` by slides, the walls, the start and `nonWallCount` are
those of `b0`, and `resetPaint` restores the visited grid and the player of `b0` without
changing `wall`, `start` or `nonWallCount`. -/
theorem fresh_board (ratio : ℚ) (r r2 : Nat → Nat) (rows : List (List Char)) (a : Board)
    (hgen : generateOnce 6 6 ratio r = some (some rows, r2)) :
    ∃ c b0, carveResult 6 6 r = some (c, r2) ∧ setFromRows 6 6 a rows = some b0 ∧
      (∀ y x, b0.wall y x = true ↔
        ((y, x) ∈ cells 6 6 ∧ charAt rows y.toNat x.toNat = some '#')) ∧
      b0.start = c.carved.getLastD ⟨0, 0⟩ ∧
      (∀ y x, (y, x) ∈ cells 6 6 →
        (charAt rows y.toNat x.toNat = some 'S' ↔ (⟨x, y⟩ : Point) = b0.start)) ∧
      inBounds 6 6 b0.start = true ∧ b0.wall b0.start.y b0.start.x = false ∧
      (∀ y x, b0.visited y x = true ↔ (y = b0.start.y ∧ x = b0.start.x)) ∧
      b0.player = b0.start ∧
      ∀ b, Reach 6 6 b0 b →
        b.wall = b0.wall ∧ b.start = b0.start ∧ b.nonWallCount = b0.nonWallCount ∧
        (resetPaint b).visited = b0.visited ∧ (resetPaint b).player = b0.player ∧
        (resetPaint b).wall = b.wall ∧ (resetPaint b).start = b.start ∧
        (resetPaint b).nonWallCount = b.nonWallCount := by
  obtain ⟨c, hres, hinv, hns, hrows, hsz, hS⟩ :=
    generateOnce_rows 6 6 (by omega) (by omega) ratio r r2 rows hgen
  obtain ⟨b0, hb0, hstart, _⟩ := setFromRows_total 6 6 a rows hsz _ hS
  obtain ⟨_, e2, _, e4, e5, e6, _⟩ := setFromRows_spec 6 6 a b0 rows hb0
  have hb := (inBounds_iff 6 6 _).1 hinv.2
  have hsome := charAt_isSome 6 6 c.g hinv.1
    ((c.carved.getLastD ⟨0, 0⟩).y, (c.carved.getLastD ⟨0, 0⟩).x)
    (by rw [mem_cells]; omega)
  simp only at hsome
  have hSiff : ∀ y x, (y, x) ∈ cells 6 6 →
      (charAt rows y.toNat x.toNat = some 'S' ↔ (⟨x, y⟩ : Point) = b0.start) := by
    intro y x hq
    rw [mem_cells] at hq
    rw [hstart, hrows, charAt_setChar]
    constructor
    · intro h
      split at h
      · rename_i hyx
        cases hc : c.carved.getLastD ⟨0, 0⟩ with
        | mk sx sy =>
          rw [hc] at hyx hb
          simp only at hyx hb
          simp only [Point.mk.injEq]
          omega
      · exact absurd h (hns _ _)
    · intro h
      rw [← h]
      rw [← h] at hsome
      simp only at hsome ⊢
      simp [hsome]
  have hwallS : b0.wall b0.start.y b0.start.x = false := by
    cases hw : b0.wall b0.start.y b0.start.x
    · rfl
    · obtain ⟨hq, hch⟩ := (e2 _ _).1 hw
      have := (hSiff _ _ hq).2 rfl
      rw [this] at hch
      exact absurd hch (by decide)
  refine ⟨c, b0, hres, hb0, e2, hstart, hSiff, e4, hwallS, ?_, e5, ?_⟩
  · intro y x
    rw [e6, setGrid_apply]
    by_cases h : y = b0.start.y ∧ x = b0.start.x
    · simp [h]
    · simp [h]
  · intro b hr
    obtain ⟨i1, i2, i3⟩ := reach_inv 6 6 b0 b hr (setFromRows_count 6 6 a b0 rows hb0)
    refine ⟨i2, i3, i1, ?_, ?_, rfl, rfl, rfl⟩
    · simp only [resetPaint, i3, e6]
    · simp only [resetPaint, i3, e5]

theorem fresh_board_witness :
    ∃ rows r2 c b0, generateOnce 6 6 (18 / 25) (tape draws25) = some (some rows, r2) ∧
      carveResult 6 6 (tape draws25) = some (c, r2) ∧
      setFromRows 6 6 Board.empty rows = some b0 ∧ b0.start = c.carved.getLastD ⟨0, 0⟩ ∧
      b0.player = b0.start := by
  have hs : (generateOnce 6 6 (18 / 25) (tape draws25)).map (fun p => p.1.isSome)
      = some true := by decide!
  rw [Option.map_eq_some'] at hs
  obtain ⟨⟨res, r2⟩, hgen, hsome⟩ := hs
  obtain ⟨rows, hrows⟩ := Option.isSome_iff_exists.1 hsome
  simp only at hrows
  subst hrows
  obtain ⟨c, b0, h1, h2, _, h4, _, _, _, _, h9, _⟩ :=
    fresh_board (18 / 25) (tape draws25) r2 rows Board.empty hgen
  exact ⟨rows, r2, c, b0, hgen, h1, h2, h4, h9⟩

end Snake

/-! ## The carving loop, iteration by iteration -/

namespace Snake

theorem tryDirs_none_iff (W H : Nat) (v : Nat) (c : Carve) :
    ∀ ds : List Point, tryDirs W H v ds c = none ↔
      ∀ d ∈ ds, wallRun W H c.g d (W + H) (c.carved.getLastD ⟨0, 0⟩ + d) = 0 := by
  intro ds
  induction ds with
  | nil => simp [tryDirs]
  | cons d ds ih =>
    unfold tryDirs
    simp only
    by_cases h0 : wallRun W H c.g d (W + H) (c.carved.getLastD ⟨0, 0⟩ + d) = 0
    · rw [if_pos h0, ih]
      constructor
      · intro h e he
        rcases List.mem_cons.1 he with rfl | he2
        · exact h0
        · exact h e he2
      · intro h e he
        exact h e (List.mem_cons_of_mem _ he)
    · rw [if_neg h0]
      constructor
      · intro h
        exact absurd h (by simp)
      · intro h
        exact absurd (h d (List.mem_cons_self _ _)) h0

theorem mem_arrange_of_mem {α : Type} :
    ∀ (fuel v : Nat) (l : List α) (a : α), l.length ≤ fuel → a ∈ l → a ∈ arrange fuel v l := by
  intro fuel
  induction fuel with
  | zero =>
    intro v l a hl ha
    have : l = [] := List.length_eq_zero.1 (by omega)
    subst this
    simp at ha
  | succ k ih =>
    intro v l a hl ha
    have hpos : 0 < l.length := List.length_pos_of_mem ha
    have hlt : v % l.length < l.length := Nat.mod_lt _ hpos
    unfold arrange
    rw [List.getElem?_eq_getElem hlt]
    simp only
    by_cases e : a = l[v % l.length]
    · rw [← e]; exact List.mem_cons_self _ _
    · refine List.mem_cons_of_mem _ (ih _ _ a ?_ ?_)
      · rw [List.length_eraseIdx]
        rw [if_pos hlt]
        omega
      · rw [List.mem_eraseIdx_iff_getElem]
        obtain ⟨i, hi, hia⟩ := List.getElem_of_mem ha
        refine ⟨i, hi, ?_, hia⟩
        intro hik
        subst hik
        exact e hia.symm

theorem moved_false_none (W H : Nat) (s : CarveState) :
    moved W H s = false ↔ tryDirs W H (s.r 1) (shuffle (s.r 0) Dirs) s.c = none := by
  unfold moved
  cases tryDirs W H (s.r 1) (shuffle (s.r 0) Dirs) s.c <;> simp

/-- Whether an iteration fails depends on the grid and the head only, not on the draws. -/
theorem moved_false_iff (W H : Nat) (s : CarveState) :
    moved W H s = false ↔
      ∀ d ∈ Dirs, wallRun W H s.c.g d (W + H) (s.c.carved.getLastD ⟨0, 0⟩ + d) = 0 := by
  rw [moved_false_none, tryDirs_none_iff]
  constructor
  · intro h d hd
    exact h d (mem_arrange_of_mem _ _ _ _ (le_refl _) hd)
  · intro h d hd
    exact h d (mem_shuffle_dirs _ _ hd)

theorem carveBody_failed (W H : Nat) (s : CarveState) (h : moved W H s = false) :
    (carveBody W H s).stuck = s.stuck + 1 ∧ (carveBody W H s).c = s.c ∧
      moved W H (carveBody W H s) = false := by
  have hn : tryDirs W H (s.r 1) (shuffle (s.r 0) Dirs) s.c = none :=
    (moved_false_none W H s).1 h
  have hb : carveBody W H s = ⟨s.stuck + 1, s.c, fun n => s.r (n + 1)⟩ := by
    unfold carveBody
    rw [hn]
  refine ⟨by rw [hb], by rw [hb], ?_⟩
  rw [moved_false_iff] at h ⊢
  rw [hb]
  exact h

theorem carveBody_moved (W H : Nat) (s : CarveState) (h : moved W H s = true) :
    ∃ c2, tryDirs W H (s.r 1) (shuffle (s.r 0) Dirs) s.c = some c2 ∧
      carveBody W H s = ⟨s.stuck, c2, fun n => s.r (n + 2)⟩ := by
  unfold moved at h
  obtain ⟨c2, hc2⟩ := Option.isSome_iff_exists.1 h
  refine ⟨c2, hc2, ?_⟩
  unfold carveBody
  rw [hc2]

theorem carveIter_succ (W H : Nat) :
    ∀ (n : Nat) (s : CarveState),
      carveIter W H (n + 1) s = carveIter W H n (carveBody W H s) := by
  intro n
  induction n with
  | zero => intro s; rfl
  | succ k ih =>
    intro s
    rw [carveIter, ih]
    rfl

theorem carveIter_add (W H : Nat) (m : Nat) :
    ∀ (n : Nat) (s : CarveState),
      carveIter W H (m + n) s = carveIter W H n (carveIter W H m s) := by
  intro n
  induction n with
  | zero => intro s; rfl
  | succ k ih =>
    intro s
    rw [← Nat.add_assoc, carveIter, ih]
    rfl

/-- After a failed iteration every later one fails, and only `stuck` moves. -/
theorem carveIter_failed (W H : Nat) (s : CarveState) (h : moved W H s = false) :
    ∀ j, (carveIter W H j s).stuck = s.stuck + j ∧ (carveIter W H j s).c = s.c ∧
      moved W H (carveIter W H j s) = false := by
  intro j
  induction j with
  | zero => exact ⟨rfl, rfl, h⟩
  | succ k ih =>
    obtain ⟨i1, i2, i3⟩ := ih
    obtain ⟨b1, b2, b3⟩ := carveBody_failed W H _ i3
    rw [carveIter]
    refine ⟨by rw [b1, i1]; omega, by rw [b2, i2], b3⟩

theorem carveLoop_body (W H : Nat) (f : Nat) (s : CarveState) (h0 : s.stuck < 12) :
    carveLoop W H (f + 1) s.stuck s.c s.r
      = carveLoop W H f (carveBody W H s).stuck (carveBody W H s).c (carveBody W H s).r := by
  conv_lhs => unfold carveLoop
  rw [if_pos h0]
  unfold carveBody
  cases tryDirs W H (s.r 1) (shuffle (s.r 0) Dirs) s.c <;> rfl

/-- The loop `carveLoop` returns the variables of the first iterate with `stuck >= 12`. -/
theorem carveLoop_eq_iter (W H : Nat) :
    ∀ (n fuel : Nat) (s : CarveState), n ≤ fuel →
      (∀ i, i < n → (carveIter W H i s).stuck < 12) →
      ¬ (carveIter W H n s).stuck < 12 →
      carveLoop W H fuel s.stuck s.c s.r
        = some ((carveIter W H n s).c, (carveIter W H n s).r) := by
  intro n
  induction n with
  | zero =>
    intro fuel s _ _ hn
    simp only [carveIter] at hn ⊢
    cases fuel with
    | zero => unfold carveLoop; rw [if_neg hn]
    | succ f => unfold carveLoop; rw [if_neg hn]
  | succ k ih =>
    intro fuel s hf hlt hn
    have h0 : s.stuck < 12 := hlt 0 (by omega)
    obtain ⟨f, rfl⟩ : ∃ f, fuel = f + 1 := ⟨fuel - 1, by omega⟩
    rw [carveIter_succ] at hn ⊢
    have hlt2 : ∀ i, i < k → (carveIter W H i (carveBody W H s)).stuck < 12 := by
      intro i hi
      rw [← carveIter_succ]
      exact hlt (i + 1) (by omega)
    have := ih f (carveBody W H s) (by omega) hlt2 hn
    rw [← this]
    exact carveLoop_body W H f s h0

end Snake

namespace Snake

theorem opened_refl (W H : Nat) (g : List (List Char)) : Opened W H g g :=
  fun _ _ h => absurd rfl h

theorem opened_carveCells (W H : Nat) (d : Point) (g0 : List (List Char)) :
    ∀ (L : Nat) (p : Point) (c : Carve),
      (∀ j, j < L → inBounds W H (stepTo p d (j + 1)) = true ∧
        charAt g0 (stepTo p d (j + 1)).y.toNat (stepTo p d (j + 1)).x.toNat = some '#') →
      Opened W H g0 c.g → Opened W H g0 (carveCells d L p c).g := by
  intro L
  induction L with
  | zero => intro p c _ hc; exact hc
  | succ k ih =>
    intro p c h hc
    rw [carveCells]
    apply ih
    · intro j hj
      rw [stepTo_succ]
      exact h (j + 1) (by omega)
    · intro y x hne
      have h0 := h 0 (by omega)
      rw [Nat.zero_add, stepTo_one] at h0
      have hb := (inBounds_iff W H _).1 h0.1
      simp only at hne ⊢
      rw [charAt_setChar] at hne ⊢
      by_cases hyx : y = (p + d).y.toNat ∧ x = (p + d).x.toNat ∧
          (charAt c.g (p + d).y.toNat (p + d).x.toNat).isSome = true
      · rw [if_pos hyx]
        obtain ⟨hy, hx, _⟩ := hyx
        subst hy
        subst hx
        refine ⟨by omega, by omega, h0.2, rfl⟩
      · rw [if_neg hyx] at hne ⊢
        exact hc y x hne

theorem opened_tryDirs (W H : Nat) (v : Nat) :
    ∀ (ds : List Point) (c c2 : Carve), tryDirs W H v ds c = some c2 →
      Opened W H c.g c2.g := by
  intro ds
  induction ds with
  | nil => intro c c2 h; simp [tryDirs] at h
  | cons d ds ih =>
    intro c c2 h
    unfold tryDirs at h
    simp only at h
    by_cases h0 : wallRun W H c.g d (W + H) (c.carved.getLastD ⟨0, 0⟩ + d) = 0
    · rw [if_pos h0] at h
      exact ih c c2 h
    · rw [if_neg h0] at h
      simp only [Option.some.injEq] at h
      subst h
      have hr := randomInt_range v 1 (wallRun W H c.g d (W + H) (c.carved.getLastD ⟨0, 0⟩ + d))
        (by omega)
      apply opened_carveCells
      · intro j hj
        have := wallRun_spec W H c.g d (W + H) (c.carved.getLastD ⟨0, 0⟩ + d) j (by omega)
        rw [stepTo_succ] at this
        exact this
      · exact opened_refl W H c.g

/-- A successful iteration: `stuck` is left alone, at least one wall is opened, and only
cells of the board that were walls change, to `.`. -/
theorem carveBody_opened (W H : Nat) (s : CarveState) (hinv : CarveInv W H s.c)
    (h : moved W H s = true) :
    (carveBody W H s).stuck = s.stuck ∧ CarveInv W H (carveBody W H s).c ∧
      wallCount W H (carveBody W H s).c.g < wallCount W H s.c.g ∧
      Opened W H s.c.g (carveBody W H s).c.g := by
  obtain ⟨c2, hc2, hb⟩ := carveBody_moved W H s h
  obtain ⟨i1, i2⟩ := tryDirs_spec W H _ _ s.c c2 hinv hc2
  rw [hb]
  exact ⟨rfl, i1, i2, opened_tryDirs W H _ _ s.c c2 hc2⟩

/-- The successful iterations come first: there are at most as many as walls. -/
theorem carve_successes (W H : Nat) :
    ∀ (m : Nat) (s : CarveState), CarveInv W H s.c → wallCount W H s.c.g ≤ m →
      ∃ k, k ≤ m ∧
        (∀ i, i < k → moved W H (carveIter W H i s) = true ∧
          (carveIter W H i s).stuck = s.stuck ∧ CarveInv W H (carveIter W H i s).c) ∧
        moved W H (carveIter W H k s) = false ∧ (carveIter W H k s).stuck = s.stuck := by
  intro m
  induction m with
  | zero =>
    intro s hinv hm
    refine ⟨0, le_refl _, fun i hi => absurd hi (by omega), ?_, rfl⟩
    cases hmv : moved W H s
    · exact hmv
    · have := (carveBody_opened W H s hinv hmv).2.2.1
      omega
  | succ n ih =>
    intro s hinv hm
    cases hmv : moved W H s
    · exact ⟨0, by omega, fun i hi => absurd hi (by omega), hmv, rfl⟩
    · obtain ⟨b1, b2, b3, _⟩ := carveBody_opened W H s hinv hmv
      obtain ⟨k, hk, hall, hlast, hst⟩ := ih (carveBody W H s) b2 (by omega)
      refine ⟨k + 1, by omega, ?_, ?_, ?_⟩
      · intro i hi
        cases i with
        | zero => exact ⟨hmv, rfl, hinv⟩
        | succ j =>
          rw [carveIter_succ]
          obtain ⟨a1, a2, a3⟩ := hall j (by omega)
          exact ⟨a1, by rw [a2, b1], a3⟩
      · rw [carveIter_succ]; exact hlast
      · rw [carveIter_succ, hst, b1]

theorem wallCount_start (W H : Nat) (hW : 0 < W) (hH : 0 < H) (r : Nat → Nat) :
    wallCount W H (carveStart W H r).g + 1 ≤ W * H := by
  have hgx := randomInt_range (r 0) 0 (W - 1) (by omega)
  have hgy := randomInt_range (r 1) 0 (H - 1) (by omega)
  have hle : wallCount W H (List.replicate H (List.replicate W '#')) ≤ W * H := by
    unfold wallCount
    refine le_trans (List.countP_le_length _) ?_
    rw [length_cells, Nat.mul_comm]
  have hlt := wallCount_setChar_lt W H (List.replicate H (List.replicate W '#'))
    ⟨(randomInt (r 0) 0 (W - 1) : Nat), (randomInt (r 1) 0 (H - 1) : Nat)⟩
    (by rw [inBounds_iff]; simp only; omega)
    (by
      simp only [Int.toNat_ofNat]
      unfold charAt
      rw [List.getElem?_replicate, if_pos (by omega)]
      simp only [Option.some_bind]
      rw [List.getElem?_replicate, if_pos (by omega)])
  have e : (carveStart W H r).g = setChar (List.replicate H (List.replicate W '#'))
      (Point.mk (randomInt (r 0) 0 (W - 1) : Nat) (randomInt (r 1) 0 (H - 1) : Nat)).y.toNat
      (Point.mk (randomInt (r 0) 0 (W - 1) : Nat) (randomInt (r 1) 0 (H - 1) : Nat)).x.toNat
      '.' := rfl
  rw [e]
  omega

/-- C20: the carving loop of `generateOnce` on the 6x6 board, for every random source:
it runs `k + 12 <= 47` iterations and then returns (the loop condition holds before each
of them and fails after the last; this is the result of `carveLoop`); each of the first
`k` iterations moves, starts and ends with `stuck = 0`, lowers the number of walls and
changes only cells of the board that were `#`, to `.`; each of the last 12 iterations
fails, changes nothing and starts with `stuck` equal to the number of failures so far,
so the failures are consecutive. -/
theorem carving_terminates (r : Nat → Nat) :
    ∃ k, k + 12 ≤ 47 ∧
      (∀ i, i < k + 12 → (carveIter 6 6 i (carveInit 6 6 r)).stuck < 12) ∧
      (carveIter 6 6 (k + 12) (carveInit 6 6 r)).stuck = 12 ∧
      carveResult 6 6 r = some ((carveIter 6 6 (k + 12) (carveInit 6 6 r)).c,
        (carveIter 6 6 (k + 12) (carveInit 6 6 r)).r) ∧
      (∀ i, i < k →
        moved 6 6 (carveIter 6 6 i (carveInit 6 6 r)) = true ∧
        (carveIter 6 6 i (carveInit 6 6 r)).stuck = 0 ∧
        (carveIter 6 6 (i + 1) (carveInit 6 6 r)).stuck = 0 ∧
        wallCount 6 6 (carveIter 6 6 (i + 1) (carveInit 6 6 r)).c.g
          < wallCount 6 6 (carveIter 6 6 i (carveInit 6 6 r)).c.g ∧
        Opened 6 6 (carveIter 6 6 i (carveInit 6 6 r)).c.g
          (carveIter 6 6 (i + 1) (carveInit 6 6 r)).c.g) ∧
      (∀ i, k ≤ i → i < k + 12 →
        moved 6 6 (carveIter 6 6 i (carveInit 6 6 r)) = false ∧
        (carveIter 6 6 i (carveInit 6 6 r)).stuck = i - k ∧
        (carveIter 6 6 (i + 1) (carveInit 6 6 r)).c
          = (carveIter 6 6 i (carveInit 6 6 r)).c) := by
  have hinv : CarveInv 6 6 (carveInit 6 6 r).c := carveInv_start 6 6 (by omega) (by omega) r
  have hwc : wallCount 6 6 (carveInit 6 6 r).c.g ≤ 35 := by
    have := wallCount_start 6 6 (by omega) (by omega) r
    show wallCount 6 6 (carveStart 6 6 r).g ≤ 35
    omega
  obtain ⟨k, hk, hall, hlast, hst⟩ := carve_successes 6 6 35 (carveInit 6 6 r) hinv hwc
  have hs0 : (carveInit 6 6 r).stuck = 0 := rfl
  have hfail : ∀ j, (carveIter 6 6 (k + j) (carveInit 6 6 r)).stuck = j ∧
      (carveIter 6 6 (k + j) (carveInit 6 6 r)).c = (carveIter 6 6 k (carveInit 6 6 r)).c ∧
      moved 6 6 (carveIter 6 6 (k + j) (carveInit 6 6 r)) = false := by
    intro j
    obtain ⟨f1, f2, f3⟩ := carveIter_failed 6 6 _ hlast j
    rw [carveIter_add]
    refine ⟨by rw [f1, hst, hs0]; omega, f2, f3⟩
  have hlt : ∀ i, i < k + 12 → (carveIter 6 6 i (carveInit 6 6 r)).stuck < 12 := by
    intro i hi
    by_cases hik : i < k
    · rw [(hall i hik).2.1, hs0]; omega
    · obtain ⟨j, rfl⟩ : ∃ j, i = k + j := ⟨i - k, by omega⟩
      rw [(hfail j).1]; omega
  refine ⟨k, by omega, hlt, (hfail 12).1, ?_, ?_, ?_⟩
  · have := carveLoop_eq_iter 6 6 (k + 12) (6 * 6 + 12) (carveInit 6 6 r) (by omega) hlt
      (by rw [(hfail 12).1]; omega)
    exact this
  · intro i hi
    obtain ⟨a1, a2, a3⟩ := hall i hi
    obtain ⟨b1, _, b3, b4⟩ := carveBody_opened 6 6 _ a3 a1
    rw [hs0] at a2
    refine ⟨a1, a2, ?_, b3, b4⟩
    rw [carveIter, b1, a2]
  · intro i hki hi
    obtain ⟨j, rfl⟩ : ∃ j, i = k + j := ⟨i - k, by omega⟩
    obtain ⟨f1, f2, f3⟩ := hfail j
    refine ⟨f3, by rw [f1]; omega, ?_⟩
    rw [Nat.add_assoc, (hfail (j + 1)).2.1, f2]

end Snake

/-! ## One search paints one region -/

namespace FloodFill

theorem blocked_mono (W H : Nat) (g g2 : Int → Int → Cell) (q : Point)
    (hw : ∀ y x, (g2 y x).wall = (g y x).wall)
    (hv : ∀ y x, (g y x).visited = true → (g2 y x).visited = true)
    (h : Blocked W H g q) : Blocked W H g2 q := by
  rcases h with h | h | h
  · exact Or.inl h
  · exact Or.inr (Or.inl (by rw [hw]; exact h))
  · exact Or.inr (Or.inr (hv _ _ h))

theorem blocked_of_not (W H : Nat) (g : Int → Int → Cell) (q : Point)
    (h : ¬ (inBounds W H q = true ∧ (g q.y q.x).wall = false ∧ (g q.y q.x).visited = false)) :
    Blocked W H g q := by
  unfold Blocked
  cases hb : inBounds W H q
  · exact Or.inl rfl
  · cases hw : (g q.y q.x).wall
    · cases hv : (g q.y q.x).visited
      · exact absurd ⟨hb, hw, hv⟩ h
      · exact Or.inr (Or.inr rfl)
    · exact Or.inr (Or.inl rfl)

/-- The directions the loop skips before a push lead to no cell left to enter, and the
pushed cell is the neighbour in the last direction read. -/
theorem scanDirs_some_blocked (W H : Nat) (g : Int → Int → Cell) (p : Point) :
    ∀ (fuel dir dir2 : Nat) (np : Point), scanDirs W H g p fuel dir = (dir2, some np) →
      np = p + Dirs.getD (dir2 - 1) ⟨0, 0⟩ ∧
      ∀ j, dir ≤ j → j + 1 < dir2 → Blocked W H g (p + Dirs.getD j ⟨0, 0⟩) := by
  intro fuel
  induction fuel with
  | zero => intro dir dir2 np h; simp [scanDirs] at h
  | succ k ih =>
    intro dir dir2 np h
    unfold scanDirs at h
    by_cases hd : dir < 4
    · rw [if_pos hd] at h
      simp only at h
      by_cases hfree : inBounds W H (p + Dirs.getD dir ⟨0, 0⟩) = true ∧
          (g (p + Dirs.getD dir ⟨0, 0⟩).y (p + Dirs.getD dir ⟨0, 0⟩).x).wall = false ∧
          (g (p + Dirs.getD dir ⟨0, 0⟩).y (p + Dirs.getD dir ⟨0, 0⟩).x).visited = false
      · obtain ⟨hb, hw, hv⟩ := hfree
        simp only [hb, hw, hv, Bool.not_true, Bool.false_eq_true, if_false, Prod.mk.injEq,
          Option.some.injEq] at h
        obtain ⟨h1, h2⟩ := h
        subst h1 h2
        refine ⟨by simp, ?_⟩
        intro j h1 h2
        omega
      · have hrec : scanDirs W H g p k (dir + 1) = (dir2, some np) := by
          split at h
          · exact h
          · split at h
            · exact h
            · split at h
              · exact h
              · rename_i h1 h2 h3
                exfalso
                apply hfree
                refine ⟨by simpa using h1, by simpa using h2, by simpa using h3⟩
        obtain ⟨e, hj⟩ := ih _ _ _ hrec
        refine ⟨e, ?_⟩
        intro j h1 h2
        by_cases hjd : j = dir
        · subst hjd
          exact blocked_of_not W H g _ hfree
        · exact hj j (by omega) h2
    · rw [if_neg hd] at h
      simp at h

/-- When the loop ends without a push, every direction it read leads to no cell left
to enter. -/
theorem scanDirs_none_blocked (W H : Nat) (g : Int → Int → Cell) (p : Point) :
    ∀ (fuel dir dir2 : Nat), scanDirs W H g p fuel dir = (dir2, none) →
      ∀ j, dir ≤ j → j < 4 → j < dir + fuel → Blocked W H g (p + Dirs.getD j ⟨0, 0⟩) := by
  intro fuel
  induction fuel with
  | zero => intro dir dir2 _ j h1 _ h3; omega
  | succ k ih =>
    intro dir dir2 h j h1 h2 h3
    unfold scanDirs at h
    by_cases hd : dir < 4
    · rw [if_pos hd] at h
      simp only at h
      by_cases hfree : inBounds W H (p + Dirs.getD dir ⟨0, 0⟩) = true ∧
          (g (p + Dirs.getD dir ⟨0, 0⟩).y (p + Dirs.getD dir ⟨0, 0⟩).x).wall = false ∧
          (g (p + Dirs.getD dir ⟨0, 0⟩).y (p + Dirs.getD dir ⟨0, 0⟩).x).visited = false
      · obtain ⟨hb, hw, hv⟩ := hfree
        simp only [hb, hw, hv, Bool.not_true, Bool.false_eq_true, if_false,
          Prod.mk.injEq] at h
        exact absurd h.2 (by simp)
      · have hrec : scanDirs W H g p k (dir + 1) = (dir2, none) := by
          split at h
          · exact h
          · split at h
            · exact h
            · split at h
              · exact h
              · simp at h
        by_cases hjd : j = dir
        · subst hjd
          exact blocked_of_not W H g _ hfree
        · exact ih _ _ hrec j (by omega) h2 (by omega)
    · omega

theorem dirs_getD_mem (j : Nat) (h : j < 4) : Dirs.getD j ⟨0, 0⟩ ∈ Dirs := by
  have : j = 0 ∨ j = 1 ∨ j = 2 ∨ j = 3 := by omega
  rcases this with rfl | rfl | rfl | rfl <;> simp [Dirs]

theorem dirs_mem_getD (d : Point) (h : d ∈ Dirs) : ∃ j, j < 4 ∧ Dirs.getD j ⟨0, 0⟩ = d := by
  simp only [Dirs, List.mem_cons, List.mem_singleton, List.not_mem_nil, or_false] at h
  rcases h with rfl | rfl | rfl | rfl
  · exact ⟨0, by omega, rfl⟩
  · exact ⟨1, by omega, rfl⟩
  · exact ⟨2, by omega, rfl⟩
  · exact ⟨3, by omega, rfl⟩

theorem dirs_back (q d : Point) (h : d ∈ Dirs) : ∃ e ∈ Dirs, (q + d) + e = q := by
  cases q with
  | mk qx qy =>
    simp only [Dirs, List.mem_cons, List.mem_singleton, List.not_mem_nil, or_false] at h
    rcases h with rfl | rfl | rfl | rfl
    · exact ⟨⟨-1, 0⟩, by simp [Dirs], by simp [Point.add_mk]⟩
    · exact ⟨⟨0, -1⟩, by simp [Dirs], by simp [Point.add_mk]⟩
    · exact ⟨⟨1, 0⟩, by simp [Dirs], by simp [Point.add_mk]⟩
    · exact ⟨⟨0, 1⟩, by simp [Dirs], by simp [Point.add_mk]⟩

theorem joined_open (W H : Nat) (g : Int → Int → Cell) (r p : Point)
    (h : Joined W H g r p) : inBounds W H p = true ∧ (g p.y p.x).wall = false := by
  cases h with
  | root hb hw => exact ⟨hb, hw⟩
  | next q d _ _ hb hw => exact ⟨hb, hw⟩

end FloodFill

namespace FloodFill

theorem point_eq (p q : Point) (hx : p.x = q.x) (hy : p.y = q.y) : p = q := by
  cases p
  cases q
  simp only at hx hy
  rw [hx, hy]

theorem closed_resetVisit (W H : Nat) (s : Explorer) : Closed W H (resetVisit s) := by
  refine ⟨?_, ?_⟩
  · intro p _ hv
    have hv2 : false = true := hv
    cases hv2
  · intro f hf
    have hf2 : f ∈ ([] : List Frame) := hf
    cases hf2

/-- Every step keeps the visited cells closed up to the work on the stack. -/
theorem closed_step (W H hue : Nat) (s t : Explorer) (hinv : Inv W H s)
    (hc : Closed W H s) (h : Step W H hue s t) : Closed W H t := by
  cases h with
  | deactivate ha hl => exact ⟨hc.finished, hc.tried⟩
  | done ha hs => exact ⟨hc.finished, hc.tried⟩
  | advance ha hs hb hcell => exact ⟨hc.finished, hc.tried⟩
  | confirm top ha hl hj hb =>
    have hmono : ∀ q, Blocked W H s.grid q →
        Blocked W H (markVisited s.grid top.p s.currentColor) q :=
      fun q => blocked_mono W H _ _ q (fun y x => markVisited_wall _ _ _ y x)
        (fun y x hv => by rw [markVisited_visited, hv, Bool.or_true])
    have htop : top ∈ s.callStack := List.mem_of_getLast?_eq_some hl
    refine ⟨?_, ?_⟩
    · intro p hp hv
      have hv2 : (markVisited s.grid top.p s.currentColor p.y p.x).visited = true := hv
      rw [markVisited_visited] at hv2
      by_cases e : p.y = top.p.y ∧ p.x = top.p.x
      · exact Or.inl ⟨top, htop, (point_eq _ _ e.2 e.1).symm⟩
      · have hv3 : (s.grid p.y p.x).visited = true := by
          rw [decide_eq_false e, Bool.false_or] at hv2
          exact hv2
        rcases hc.finished p hp hv3 with h1 | h1
        · exact Or.inl h1
        · exact Or.inr (fun d hd => hmono _ (h1 d hd))
    · intro f hf j hj1 hj2
      left
      show Blocked W H (markVisited s.grid top.p s.currentColor) _
      rcases hc.tried f hf j hj1 hj2 with h1 | ⟨_, top2, hl2, e⟩
      · exact hmono _ h1
      · rw [hl] at hl2
        simp only [Option.some.injEq] at hl2
        subst hl2
        right
        right
        rw [markVisited_visited, ← e]
        simp
  | push top dir np ha hl hj hsd =>
    obtain ⟨hnp, hskip⟩ := scanDirs_some_blocked W H s.grid top.p 4 top.dir dir np hsd
    obtain ⟨hlt, hle, _, _, _⟩ := scanDirs_some W H s.grid top.p 4 top.dir dir np hsd
    have htop : top ∈ s.callStack := List.mem_of_getLast?_eq_some hl
    have hsplit : s.callStack.dropLast ++ [top] = s.callStack :=
      List.dropLast_append_getLast? top (by simpa using hl)
    refine ⟨?_, ?_⟩
    · intro p hp hv
      have hv2 : (s.grid p.y p.x).visited = true := hv
      rcases hc.finished p hp hv2 with ⟨f, hf, e⟩ | h1
      · left
        show ∃ f ∈ s.callStack.dropLast ++ [({ top with dir := dir } : Frame)] ++ [(⟨np, 0⟩ : Frame)], f.p = p
        rw [← hsplit] at hf
        rcases List.mem_append.1 hf with hf1 | hf1
        · exact ⟨f, List.mem_append_left _ (List.mem_append_left _ hf1), e⟩
        · have hft : f = top := by simpa using hf1
          subst hft
          exact ⟨{ f with dir := dir },
            List.mem_append_left _ (List.mem_append_right _ (List.mem_singleton_self _)), e⟩
      · exact Or.inr h1
    · intro f hf j hj1 hj2
      have hf2 : f ∈ s.callStack.dropLast ++ [({ top with dir := dir } : Frame)] ++ [(⟨np, 0⟩ : Frame)] := hf
      show Blocked W H s.grid _ ∨ (true = true ∧ ∃ top2,
        (s.callStack.dropLast ++ [({ top with dir := dir } : Frame)] ++ [(⟨np, 0⟩ : Frame)]).getLast? = some top2 ∧
          top2.p = f.p + Dirs.getD j ⟨0, 0⟩)
      rw [List.mem_append, List.mem_append] at hf2
      rcases hf2 with (hf1 | hf1) | hf1
      · have hfs : f ∈ s.callStack := by
          rw [← hsplit]; exact List.mem_append_left _ hf1
        rcases hc.tried f hfs j hj1 hj2 with h1 | ⟨hjp, _⟩
        · exact Or.inl h1
        · rw [hj] at hjp; cases hjp
      · have e : f = { top with dir := dir } := by simpa using hf1
        subst e
        have hj1b : j < dir := hj1
        show Blocked W H s.grid (top.p + Dirs.getD j ⟨0, 0⟩) ∨ (true = true ∧ ∃ top2,
          (s.callStack.dropLast ++ [({ top with dir := dir } : Frame)] ++ [(⟨np, 0⟩ : Frame)]).getLast?
            = some top2 ∧ top2.p = top.p + Dirs.getD j ⟨0, 0⟩)
        by_cases hjl : j < top.dir
        · rcases hc.tried top htop j hjl hj2 with h1 | ⟨hjp, _⟩
          · exact Or.inl h1
          · rw [hj] at hjp; cases hjp
        · by_cases hjd : j + 1 < dir
          · exact Or.inl (hskip j (by omega) hjd)
          · right
            refine ⟨rfl, ⟨np, 0⟩, List.getLast?_concat _, ?_⟩
            have ej : dir - 1 = j := by omega
            rw [← ej]
            exact hnp
      · have e : f = ⟨np, 0⟩ := by simpa using hf1
        subst e
        exact absurd hj1 (by simp)
  | pop top dir ha hl hj hsd =>
    have hnb := scanDirs_none_blocked W H s.grid top.p 4 top.dir dir hsd
    have htop : top ∈ s.callStack := List.mem_of_getLast?_eq_some hl
    have hsplit : s.callStack.dropLast ++ [top] = s.callStack :=
      List.dropLast_append_getLast? top (by simpa using hl)
    have hall : ∀ d ∈ Dirs, Blocked W H s.grid (top.p + d) := by
      intro d hd
      obtain ⟨j, hj4, rfl⟩ := dirs_mem_getD d hd
      by_cases hjl : j < top.dir
      · rcases hc.tried top htop j hjl hj4 with h1 | ⟨hjp, _⟩
        · exact h1
        · rw [hj] at hjp; cases hjp
      · exact hnb j (by omega) hj4 (by omega)
    refine ⟨?_, ?_⟩
    · intro p hp hv
      have hv2 : (s.grid p.y p.x).visited = true := hv
      show (∃ f ∈ s.callStack.dropLast, f.p = p) ∨ ∀ d ∈ Dirs, Blocked W H s.grid (p + d)
      rcases hc.finished p hp hv2 with ⟨f, hf, e⟩ | h1
      · rw [← hsplit] at hf
        rcases List.mem_append.1 hf with hf1 | hf1
        · exact Or.inl ⟨f, hf1, e⟩
        · have hft : f = top := by simpa using hf1
          subst hft
          subst e
          exact Or.inr hall
      · exact Or.inr h1
    · intro f hf j hj1 hj2
      have hf2 : f ∈ s.callStack.dropLast := hf
      have hfs : f ∈ s.callStack := by
        rw [← hsplit]; exact List.mem_append_left _ hf2
      left
      show Blocked W H s.grid _
      rcases hc.tried f hfs j hj1 hj2 with h1 | ⟨hjp, _⟩
      · exact h1
      · rw [hj] at hjp; cases hjp
  | root ha hs hb hw hv =>
    obtain ⟨hst, _⟩ := hinv.idle ha
    refine ⟨?_, ?_⟩
    · intro p hp hv2
      have hv3 : (s.grid p.y p.x).visited = true := hv2
      rcases hc.finished p hp hv3 with ⟨f, hf, _⟩ | h1
      · rw [hst] at hf
        cases hf
      · exact Or.inr h1
    · intro f hf j hj1 _
      have hf2 : f ∈ [(⟨scanPoint H s.scanIndex, 0⟩ : Frame)] := hf
      rw [List.mem_singleton] at hf2
      subst hf2
      exact absurd hj1 (by simp)

/-- In every reached state the visited cells are closed up to the work on the stack. -/
theorem reached_closed (W H : Nat) (s : Explorer) (h : Reached W H s) : Closed W H s := by
  induction h with
  | reset s0 => exact closed_resetVisit W H s0
  | step s t hue hr hst ih =>
    exact closed_step W H hue s t (reached_inv W H s hr) ih (step_of_stepExplore W H hue s t hst)

theorem region_wall (W H : Nat) (g0 : Int → Int → Cell) (r : Point) (col : Color)
    (u : Explorer) (h : Region W H g0 r col u) (y x : Int) :
    (u.grid y x).wall = (g0 y x).wall := by
  rcases h.cells y x with h1 | ⟨_, h1⟩
  · rw [h1]
  · rw [h1]

/-- While the explorer is active, every step keeps the search inside the region. -/
theorem region_step (W H hue : Nat) (g0 : Int → Int → Cell) (r : Point) (col : Color)
    (s t : Explorer) (hr : Region W H g0 r col s) (ha : s.dfsActive = true)
    (h : Step W H hue s t) : Region W H g0 r col t := by
  cases h with
  | deactivate _ hl => exact ⟨hr.cells, hr.stack, hr.colour, hr.root⟩
  | done ha2 _ => rw [ha] at ha2; cases ha2
  | advance ha2 _ _ _ => rw [ha] at ha2; cases ha2
  | root ha2 _ _ _ _ => rw [ha] at ha2; cases ha2
  | confirm top _ hl hj hb =>
    have htop : top ∈ s.callStack := List.mem_of_getLast?_eq_some hl
    refine ⟨?_, hr.stack, hr.colour, ?_⟩
    · intro y x
      show markVisited s.grid top.p s.currentColor y x = g0 y x ∨
        (Joined W H g0 r ⟨x, y⟩ ∧ markVisited s.grid top.p s.currentColor y x
          = { g0 y x with visited := true, color := col })
      unfold markVisited
      by_cases e : y = top.p.y ∧ x = top.p.x
      · rw [if_pos e]
        right
        have hjn : Joined W H g0 r ⟨x, y⟩ := by
          have h1 := hr.stack top htop
          have h2 : (⟨x, y⟩ : Point) = top.p := point_eq _ _ e.2 e.1
          rw [h2]
          exact h1
        refine ⟨hjn, ?_⟩
        rw [hr.colour]
        rcases hr.cells y x with h1 | ⟨_, h1⟩
        · rw [h1]
        · rw [h1]
      · rw [if_neg e]
        exact hr.cells y x
    · left
      show (markVisited s.grid top.p s.currentColor r.y r.x).visited = true
      rw [markVisited_visited]
      rcases hr.root with h1 | ⟨_, h1⟩
      · rw [h1, Bool.or_true]
      · rw [h1] at hl
        simp only [List.getLast?_singleton, Option.some.injEq] at hl
        subst hl
        simp
  | push top dir np _ hl hj hsd =>
    obtain ⟨hnp, _⟩ := scanDirs_some_blocked W H s.grid top.p 4 top.dir dir np hsd
    obtain ⟨hlt, hle, hb, hw, _⟩ := scanDirs_some W H s.grid top.p 4 top.dir dir np hsd
    have htop : top ∈ s.callStack := List.mem_of_getLast?_eq_some hl
    have hsplit : s.callStack.dropLast ++ [top] = s.callStack :=
      List.dropLast_append_getLast? top (by simpa using hl)
    refine ⟨hr.cells, ?_, hr.colour, ?_⟩
    · intro f hf
      have hf2 : f ∈ s.callStack.dropLast ++ [({ top with dir := dir } : Frame)] ++ [(⟨np, 0⟩ : Frame)] := hf
      rw [List.mem_append, List.mem_append] at hf2
      rcases hf2 with (hf1 | hf1) | hf1
      · exact hr.stack f (by rw [← hsplit]; exact List.mem_append_left _ hf1)
      · have e : f = { top with dir := dir } := by simpa using hf1
        rw [e]
        exact hr.stack top htop
      · have e : f = ⟨np, 0⟩ := by simpa using hf1
        rw [e]
        show Joined W H g0 r np
        have hw0 : (g0 np.y np.x).wall = false := by
          rw [← region_wall W H g0 r col s hr]
          exact hw
        rw [hnp] at hb hw0 ⊢
        exact Joined.next _ _ (hr.stack top htop) (dirs_getD_mem _ (by omega)) hb hw0
    · left
      rcases hr.root with h1 | ⟨h1, _⟩
      · exact h1
      · rw [hj] at h1; cases h1
  | pop top dir _ hl hj hsd =>
    have hsplit : s.callStack.dropLast ++ [top] = s.callStack :=
      List.dropLast_append_getLast? top (by simpa using hl)
    refine ⟨hr.cells, ?_, hr.colour, ?_⟩
    · intro f hf
      have hf2 : f ∈ s.callStack.dropLast := hf
      exact hr.stack f (by rw [← hsplit]; exact List.mem_append_left _ hf2)
    · left
      rcases hr.root with h1 | ⟨h1, _⟩
      · exact h1
      · rw [hj] at h1; cases h1

end FloodFill

namespace FloodFill

/-- An active explorer on a square grid becomes inactive after finitely many steps, all
states before that being active, and the search stays inside its region meanwhile. -/
theorem dfs_segment (N : Nat) (g0 : Int → Int → Cell) (r : Point) (col : Color) :
    ∀ (m : Nat) (hues : Nat → Nat) (u : Explorer), Inv N N u → Closed N N u →
      Region N N g0 r col u → u.dfsActive = true → potential N N u ≤ m →
      ∃ n t, runExplore N N hues (n + 1) u = some t ∧ t.dfsActive = false ∧
        (∀ k, k ≤ n → ∃ v, runExplore N N hues k u = some v ∧ v.dfsActive = true) ∧
        Inv N N t ∧ Closed N N t ∧ Region N N g0 r col t := by
  intro m
  induction m with
  | zero =>
    intro hues u hinv hc hr ha hm
    obtain ⟨t1, _, _, hlt, _⟩ := step_progress N (hues 0) u hinv (by rw [ha]; simp)
    omega
  | succ m ih =>
    intro hues u hinv hc hr ha hm
    obtain ⟨t1, hst, hinv1, hlt, _, _⟩ :=
      step_progress N (hues 0) u hinv (by rw [ha]; simp)
    have hstep := step_of_stepExplore N N (hues 0) u t1 hst
    have hc1 := closed_step N N (hues 0) u t1 hinv hc hstep
    have hr1 := region_step N N (hues 0) g0 r col u t1 hr ha hstep
    by_cases ha1 : t1.dfsActive = true
    · obtain ⟨n, t, hrun, hta, hmid, hinvt, hct, hrt⟩ :=
        ih (fun k => hues (k + 1)) t1 hinv1 hc1 hr1 ha1 (by omega)
      refine ⟨n + 1, t, ?_, hta, ?_, hinvt, hct, hrt⟩
      · show (stepExplore N N (hues 0) u).bind
          (runExplore N N (fun k => hues (k + 1)) (n + 1)) = some t
        rw [hst]
        exact hrun
      · intro k hk
        cases k with
        | zero => exact ⟨u, rfl, ha⟩
        | succ k2 =>
          obtain ⟨v, hv, hva⟩ := hmid k2 (by omega)
          refine ⟨v, ?_, hva⟩
          show (stepExplore N N (hues 0) u).bind
            (runExplore N N (fun k => hues (k + 1)) k2) = some v
          rw [hst]
          exact hv
    · have ha2 : t1.dfsActive = false := by simpa using ha1
      refine ⟨0, t1, ?_, ha2, ?_, hinv1, hc1, hr1⟩
      · show (stepExplore N N (hues 0) u).bind
          (runExplore N N (fun k => hues (k + 1)) 0) = some t1
        rw [hst]
        rfl
      · intro k hk
        have hk0 : k = 0 := by omega
        subst hk0
        exact ⟨u, rfl, ha⟩

theorem scanPoint_inBounds (N i : Nat) (h : i < N * N) :
    inBounds N N (scanPoint N i) = true := by
  have hN : 0 < N := by
    rcases Nat.eq_zero_or_pos N with h0 | h0
    · subst h0; simp at h
    · exact h0
  have h1 : i % N < N := Nat.mod_lt _ hN
  have h2 : i / N < N := Nat.div_lt_of_lt_mul h
  rw [inBounds_iff]
  have e1 : (scanPoint N i).x = ((i % N : Nat) : Int) := rfl
  have e2 : (scanPoint N i).y = ((i / N : Nat) : Int) := rfl
  rw [e1, e2]
  exact ⟨Int.natCast_nonneg _, by exact_mod_cast h1, Int.natCast_nonneg _,
    by exact_mod_cast h2⟩

/-- In a reached inactive state no cell joined to an unvisited open cell is visited. -/
theorem joined_unvisited (W H : Nat) (s : Explorer) (hr : Reached W H s)
    (ha : s.dfsActive = false) (r : Point)
    (hv : (s.grid r.y r.x).visited = false) :
    ∀ p, Joined W H s.grid r p → (s.grid p.y p.x).visited = false := by
  have hstack : s.callStack = [] := ((reached_inv W H s hr).idle ha).1
  have hc := reached_closed W H s hr
  intro p h
  induction h with
  | root _ _ => exact hv
  | next q d hq hd hb hw ih =>
    cases hvis : (s.grid (q + d).y (q + d).x).visited
    · rfl
    · exfalso
      rcases hc.finished (q + d) hb hvis with ⟨f, hf, _⟩ | h1
      · rw [hstack] at hf
        cases hf
      · obtain ⟨e, he, hqe⟩ := dirs_back q d hd
        have h2 := h1 e he
        rw [hqe] at h2
        obtain ⟨hqb, hqw⟩ := joined_open W H s.grid r q hq
        rcases h2 with h3 | h3 | h3
        · rw [hqb] at h3; cases h3
        · rw [hqw] at h3; cases h3
        · rw [ih] at h3; cases h3

/-- When a search has ended, every cell joined to its root is visited. -/
theorem joined_visited (W H : Nat) (g0 : Int → Int → Cell) (r : Point) (col : Color)
    (t : Explorer) (hinv : Inv W H t) (hc : Closed W H t) (hreg : Region W H g0 r col t)
    (ha : t.dfsActive = false) :
    ∀ p, Joined W H g0 r p → (t.grid p.y p.x).visited = true := by
  obtain ⟨hstack, hjp⟩ := hinv.idle ha
  intro p h
  induction h with
  | root _ _ =>
    rcases hreg.root with h1 | ⟨h1, _⟩
    · exact h1
    · rw [hjp] at h1; cases h1
  | next q d hq hd hb hw ih =>
    obtain ⟨hqb, _⟩ := joined_open W H g0 r q hq
    rcases hc.finished q hqb ih with ⟨f, hf, _⟩ | h1
    · rw [hstack] at hf
      cases hf
    · rcases h1 d hd with h3 | h3 | h3
      · rw [hb] at h3; cases h3
      · rw [region_wall W H g0 r col t hreg, hw] at h3; cases h3
      · exact h3

/-- One search on a square grid: from a reached inactive state whose cursor is on an
unvisited open cell, the run to the next inactive state paints the cells joined to that
cell, with the colour drawn at the root push, and changes no other cell. -/
theorem search_region (N : Nat) (s : Explorer) (hues : Nat → Nat) (hr : Reached N N s)
    (ha : s.dfsActive = false) (hs : s.scanIndex < N * N)
    (hw : (s.grid (scanPoint N s.scanIndex).y (scanPoint N s.scanIndex).x).wall = false)
    (hv : (s.grid (scanPoint N s.scanIndex).y (scanPoint N s.scanIndex).x).visited = false) :
    ∃ n t, runExplore N N hues (n + 2) s = some t ∧ t.dfsActive = false ∧
      (∀ k, 1 ≤ k → k ≤ n + 1 → ∃ v, runExplore N N hues k s = some v ∧ v.dfsActive = true) ∧
      (∀ y x, Joined N N s.grid (scanPoint N s.scanIndex) ⟨x, y⟩ →
        (s.grid y x).visited = false ∧
        t.grid y x = { s.grid y x with visited := true, color := Color.hsv (hues 0) }) ∧
      (∀ y x, ¬ Joined N N s.grid (scanPoint N s.scanIndex) ⟨x, y⟩ →
        t.grid y x = s.grid y x) := by
  have hinv := reached_inv N N s hr
  have hb := scanPoint_inBounds N s.scanIndex hs
  have hst : stepExplore N N (hues 0) s = some { s with
      currentColor := Color.hsv (hues 0)
      callStack := [⟨scanPoint N s.scanIndex, 0⟩]
      dfsActive := true
      justPushed := true } := by
    rw [stepExplore_scan N N (hues 0) s ha hs, if_pos hb, if_pos ⟨hw, hv⟩]
  have hinv1 := (inv_step N N (hues 0) s _ hinv hst).1
  have hc1 := closed_step N N (hues 0) s _ hinv (reached_closed N N s hr)
    (step_of_stepExplore N N (hues 0) s _ hst)
  have hreg1 : Region N N s.grid (scanPoint N s.scanIndex) (Color.hsv (hues 0))
      { s with
        currentColor := Color.hsv (hues 0)
        callStack := [⟨scanPoint N s.scanIndex, 0⟩]
        dfsActive := true
        justPushed := true } := by
    refine ⟨fun y x => Or.inl rfl, ?_, rfl, Or.inr ⟨rfl, rfl⟩⟩
    intro f hf
    have hf2 : f ∈ [(⟨scanPoint N s.scanIndex, 0⟩ : Frame)] := hf
    rw [List.mem_singleton] at hf2
    rw [hf2]
    exact Joined.root hb hw
  obtain ⟨n, t, hrun, hta, hmid, hinvt, hct, hregt⟩ :=
    dfs_segment N s.grid (scanPoint N s.scanIndex) (Color.hsv (hues 0)) _
      (fun k => hues (k + 1)) _ hinv1 hc1 hreg1 rfl (le_refl _)
  refine ⟨n, t, ?_, hta, ?_, ?_, ?_⟩
  · show (stepExplore N N (hues 0) s).bind
      (runExplore N N (fun k => hues (k + 1)) (n + 1)) = some t
    rw [hst]
    exact hrun
  · intro k hk1 hk2
    obtain ⟨k2, rfl⟩ : ∃ k2, k = k2 + 1 := ⟨k - 1, by omega⟩
    obtain ⟨v, hv2, hva⟩ := hmid k2 (by omega)
    refine ⟨v, ?_, hva⟩
    show (stepExplore N N (hues 0) s).bind
      (runExplore N N (fun k => hues (k + 1)) k2) = some v
    rw [hst]
    exact hv2
  · intro y x hj
    have h0 := joined_unvisited N N s hr ha _ hv _ hj
    have h1 := joined_visited N N s.grid _ _ t hinvt hct hregt hta _ hj
    refine ⟨h0, ?_⟩
    rcases hregt.cells y x with h2 | ⟨_, h2⟩
    · have h3 : (t.grid y x).visited = true := h1
      have h4 : (s.grid y x).visited = false := h0
      rw [h2, h4] at h3
      cases h3
    · exact h2
  · intro y x hnj
    rcases hregt.cells y x with h2 | ⟨h2, _⟩
    · exact h2
    · exact absurd h2 hnj

end FloodFill

namespace FloodFill

/-- C19: on the 8x8 grid, from every state reached from a reset in which the explorer is
inactive and the scan cursor points at a non-wall, unvisited cell `r`, some number
`n + 2` of `stepExplore` calls leads to the next inactive state (the explorer is active
after each of the calls before the last); in that state every cell joined to `r` by a
path of 4-adjacent non-wall cells, unvisited before, is visited and has the colour drawn
by the call that pushed `r`, and every other cell is as it was. -/
theorem dfs_paints_region (s : Explorer) (hues : Nat → Nat) (hr : Reached 8 8 s)
    (ha : s.dfsActive = false) (hs : s.scanIndex < 8 * 8)
    (hw : (s.grid (scanPoint 8 s.scanIndex).y (scanPoint 8 s.scanIndex).x).wall = false)
    (hv : (s.grid (scanPoint 8 s.scanIndex).y (scanPoint 8 s.scanIndex).x).visited = false) :
    ∃ n t, runExplore 8 8 hues (n + 2) s = some t ∧ t.dfsActive = false ∧
      (∀ k, 1 ≤ k → k ≤ n + 1 → ∃ v, runExplore 8 8 hues k s = some v ∧ v.dfsActive = true) ∧
      (∀ y x, Joined 8 8 s.grid (scanPoint 8 s.scanIndex) ⟨x, y⟩ →
        (s.grid y x).visited = false ∧
        t.grid y x = { s.grid y x with visited := true, color := Color.hsv (hues 0) }) ∧
      (∀ y x, ¬ Joined 8 8 s.grid (scanPoint 8 s.scanIndex) ⟨x, y⟩ →
        t.grid y x = s.grid y x) :=
  search_region 8 s hues hr ha hs hw hv

theorem dfs_paints_region_witness :
    Reached 8 8 (resetVisit (initial cornerGrid)) ∧
      ∃ n t, runExplore 8 8 (fun _ => 7) (n + 2) (resetVisit (initial cornerGrid)) = some t ∧
        t.dfsActive = false ∧
        (t.grid 0 0).visited = true ∧ (t.grid 0 0).color = Color.hsv 7 ∧
        (∀ y x, ¬ Joined 8 8 (resetVisit (initial cornerGrid)).grid (scanPoint 8 0) ⟨x, y⟩ →
          t.grid y x = (resetVisit (initial cornerGrid)).grid y x) := by
  refine ⟨Reached.reset _, ?_⟩
  obtain ⟨n, t, h1, h2, _, h4, h5⟩ :=
    dfs_paints_region (resetVisit (initial cornerGrid)) (fun _ => 7) (Reached.reset _) rfl
      (by decide) (by decide) (by decide)
  have h6 := (h4 0 0 (Joined.root (by decide) (by decide))).2
  refine ⟨n, t, h1, h2, ?_, ?_, h5⟩
  · rw [h6]
  · rw [h6]

end FloodFill
